import Mathlib

/-! Verification development for `Set.cpp`: an AVL-backed ordered set.

`Set<T>` owns a tree of heap nodes.  Every node carries a key, the cached
maximum of its subtree, an 8-bit height, its two owned children and a
non-owning parent pointer `anc`.

Embedding.  The ownership tree (the `left`/`right` pointers) is an inductive
tree; every node records the heap address it was allocated at, so that a
`Node*` held from outside the tree (the `anc` back pointer, the pointer
inside an iterator) is an address, resolved against the tree that currently
owns the nodes.  `unsigned char` and `size_t` arithmetic is arithmetic on
`Nat` reduced modulo `2^8` and `2^64`; statements about heights and about
`size()` therefore assume that the set never holds `2^64` nodes or more
(`WithinMemory`), statements about keys and order do not.  Reading a pointer
that was never written, or dereferencing a pointer to a node that is not live
any more, is undefined behaviour and is reported as a `Fault`.
-/

namespace AvlSet

/-- Heap address of an allocated `Node`. -/
abbrev Addr := Nat

/-- Value stored in the `anc` field.  The constructor `Node(T k)` assigns
`key`, `max_value`, `left`, `right` and `height` but not `anc`, so a fresh
node holds an indeterminate parent pointer until `update` writes it. -/
inductive Anc where
  | indeterminate : Anc
  | null : Anc
  | to (a : Addr) : Anc
  deriving DecidableEq

/-- A `Node*` together with what it owns: `null` is `nullptr`, and
`node addr key max_value height left right anc` is the node allocated at
`addr`, with the fields of `struct Node` in their declared order. -/
inductive Tree (α : Type) where
  | null : Tree α
  | node (addr : Addr) (key max_value : α) (height : Nat)
      (left right : Tree α) (anc : Anc) : Tree α
  deriving DecidableEq

/-- How an operation can fail: `undefined` is undefined behaviour of the
source (a read through a null, dangling or indeterminate pointer), and
`fuel` says that the loop bound handed to the model was too small. -/
inductive Fault where
  | undefined : Fault
  | fuel : Fault
  deriving DecidableEq

/-- Outcome of an operation of the iterator. -/
inductive Res (β : Type) where
  | ok (v : β) : Res β
  | fault (f : Fault) : Res β
  deriving DecidableEq

variable {α : Type}

namespace Tree

/-- The pointer value itself: `none` for `nullptr`. -/
def ptr : Tree α → Option Addr
  | null => none
  | node a _ _ _ _ _ _ => some a

/-- Field access `node->left`. -/
def left : Tree α → Tree α
  | null => null
  | node _ _ _ _ l _ _ => l

/-- Field access `node->right`. -/
def right : Tree α → Tree α
  | null => null
  | node _ _ _ _ _ r _ => r

/-- Field access `node->key`. -/
def key? : Tree α → Option α
  | null => none
  | node _ k _ _ _ _ _ => some k

/-- Field access `node->max_value`. -/
def max_value? : Tree α → Option α
  | null => none
  | node _ _ m _ _ _ _ => some m

/-- Field access `node->anc`. -/
def anc? : Tree α → Option Anc
  | null => none
  | node _ _ _ _ _ _ anc => some anc

/-- The guarded store `if (p != nullptr) p->anc = v`. -/
def set_anc : Tree α → Anc → Tree α
  | null, _ => null
  | node a k m h l r _, v => node a k m h l r v

/-- The node constructor `new Node(k)`, placed at address `a`; `anc` is left
unassigned. -/
def new_node (a : Addr) (k : α) : Tree α :=
  node a k k 1 null null Anc.indeterminate

/-- The node stored at address `p` of the tree `heap`, if it is live. -/
def deref : Tree α → Addr → Option (Tree α)
  | null, _ => none
  | node a k m h l r anc, p =>
    if a = p then some (node a k m h l r anc)
    else match deref l p with
      | some n => some n
      | none => deref r p

/-- Source `get_height`: the stored height, 0 for `nullptr`. -/
def get_height : Tree α → Nat
  | null => 0
  | node _ _ _ h _ _ _ => h

/-- Source `balance_factor`: the two `unsigned char` heights are promoted to
`int` before the subtraction. -/
def balance_factor (nd : Tree α) : Int :=
  (get_height nd.right : Int) - (get_height nd.left : Int)

/-- Source `update`: recompute the 8-bit height (the `++` wraps modulo 256)
and `max_value`, clear the node's own `anc` and point the `anc` of both
children at the node. -/
def update : Tree α → Tree α
  | null => null
  | node a key _ _ l r _ =>
    let height_left := get_height l
    let height_right := get_height r
    let height := if height_right > height_left then height_right else height_left
    let max_value := match r with
      | null => key
      | node _ _ rm _ _ _ _ => rm
    node a key max_value ((height + 1) % 256) (set_anc l (Anc.to a)) (set_anc r (Anc.to a))
      Anc.null

/-- Source `rotate_right`.  The source dereferences `son = node->left`
unconditionally; `balance` only calls it when that child exists (theorem
`balance_sons_present`), and the model returns its argument otherwise. -/
def rotate_right : Tree α → Tree α
  | node a k m h (node sa sk sm sh sl sr sanc) r anc =>
    update (node sa sk sm sh sl (update (node a k m h sr r anc)) sanc)
  | t => t

/-- Source `rotate_left`, the mirror image of `rotate_right`. -/
def rotate_left : Tree α → Tree α
  | node a k m h l (node sa sk sm sh sl sr sanc) anc =>
    update (node sa sk sm sh (update (node a k m h l sl anc)) sr sanc)
  | t => t

/-- Source `balance`. -/
def balance (nd : Tree α) : Tree α :=
  match update nd with
  | null => null
  | node a k m h l r anc =>
    if balance_factor (node a k m h l r anc) = 2 then
      if balance_factor r < 0 then
        rotate_left (node a k m h l (rotate_right r) anc)
      else
        rotate_left (node a k m h l r anc)
    else if balance_factor (node a k m h l r anc) = -2 then
      if balance_factor l > 0 then
        rotate_right (node a k m h (rotate_left l) r anc)
      else
        rotate_right (node a k m h l r anc)
    else
      node a k m h l r anc

/-- Source `find_min`: the leftmost node. -/
def find_min : Tree α → Tree α
  | null => null
  | node a k m h null r anc => node a k m h null r anc
  | node _ _ _ _ (node la lk lm lh ll lr lanc) _ _ => find_min (node la lk lm lh ll lr lanc)

/-- Source `find_max`: the rightmost node. -/
def find_max : Tree α → Tree α
  | null => null
  | node a k m h l null anc => node a k m h l null anc
  | node _ _ _ _ _ (node ra rk rm rh rl rr ranc) _ => find_max (node ra rk rm rh rl rr ranc)

/-- Source `remove_min`: detach the leftmost node, rebalancing on the way
back. -/
def remove_min : Tree α → Tree α
  | null => null
  | node _ _ _ _ null r _ => r
  | node a k m h (node la lk lm lh ll lr lanc) r anc =>
    balance (node a k m h (remove_min (node la lk lm lh ll lr lanc)) r anc)

variable [LinearOrder α]

/-- Source `Node* insert(Node* node, T k)`.  The member `size_` (a `size_t`)
is threaded through the recursion, and `fresh` is the address `new` returns
if the call allocates. -/
def insert : Tree α → α → Nat → Addr → Tree α × Nat
  | null, k, size_, fresh => (new_node fresh k, (size_ + 1) % 2 ^ 64)
  | node a key m h l r anc, k, size_, fresh =>
    if k < key then
      let res := insert l k size_ fresh
      (balance (node a key m h res.1 r anc), res.2)
    else if key < k then
      let res := insert r k size_ fresh
      (balance (node a key m h l res.1 anc), res.2)
    else
      (node a key m h l r anc, size_)

/-- Source `Node* remove(Node* node, T k)`, with `size_` threaded through;
`--size_` on a `size_t` wraps modulo `2^64`. -/
def remove : Tree α → α → Nat → Tree α × Nat
  | null, _, size_ => (null, size_)
  | node a key m h l r anc, k, size_ =>
    if k < key then
      let res := remove l k size_
      (balance (node a key m h res.1 r anc), res.2)
    else if key < k then
      let res := remove r k size_
      (balance (node a key m h l res.1 anc), res.2)
    else
      let q := l
      let size_ := (size_ + (2 ^ 64 - 1)) % 2 ^ 64
      match r with
      | null => (q, size_)
      | node ra rk rm rh rl rr ranc =>
        match find_min (node ra rk rm rh rl rr ranc) with
        | null => (null, size_)
        | node na nk nm nh _ _ nanc =>
          (balance (node na nk nm nh q (remove_min (node ra rk rm rh rl rr ranc)) nanc), size_)

/-- Source `find_node`. -/
def find_node : Tree α → α → Tree α
  | null, _ => null
  | node a k m h l r anc, key =>
    if key < k then find_node l key
    else if k < key then find_node r key
    else node a k m h l r anc

/-- Source `lower_bound_node`. -/
def lower_bound_node : Tree α → α → Tree α
  | null, _ => null
  | node a k m h l r anc, key =>
    if k < key then lower_bound_node r key
    else match l with
      | null => node a k m h l r anc
      | node la lk lm lh ll lr lanc =>
        if lm < key then node a k m h (node la lk lm lh ll lr lanc) r anc
        else lower_bound_node (node la lk lm lh ll lr lanc) key

end Tree

/-- Source `class iterator`: the held `Node*` and the flag `is_end`. -/
structure iterator where
  node : Option Addr
  is_end : Bool
  deriving DecidableEq

namespace iterator

/-- First loop of `next_node`:
`while (now != nullptr && now->right == p) { p = now; now = now->anc; }`,
returning the final `(now, p)`.  `heap` is the tree that owns the live
nodes; `fuel` bounds the number of iterations. -/
def next_climb (heap : Tree α) : Nat → Option Addr → Option Addr →
    Res (Option Addr × Option Addr)
  | 0, _, _ => Res.fault Fault.fuel
  | _ + 1, none, p => Res.ok (none, p)
  | fuel + 1, some a, p =>
    match heap.deref a with
    | none => Res.fault Fault.undefined
    | some Tree.null => Res.fault Fault.undefined
    | some (Tree.node _ _ _ _ _ r anc) =>
      if r.ptr = p then
        match anc with
        | Anc.indeterminate => Res.fault Fault.undefined
        | Anc.null => next_climb heap fuel none (some a)
        | Anc.to b => next_climb heap fuel (some b) (some a)
      else Res.ok (some a, p)

/-- Second loop of `next_node`, entered with `now = now->right`:
`while (now->left != nullptr) now = now->left; return now;`. -/
def descend_left : Tree α → Res (Option Addr)
  | Tree.null => Res.fault Fault.undefined
  | Tree.node a _ _ _ Tree.null _ _ => Res.ok (some a)
  | Tree.node _ _ _ _ (Tree.node la lk lm lh ll lr lanc) _ _ =>
    descend_left (Tree.node la lk lm lh ll lr lanc)

/-- Source `iterator::next_node`. -/
def next_node (heap : Tree α) (fuel : Nat) (now : Option Addr) : Res (Option Addr) :=
  match next_climb heap fuel now none with
  | Res.fault f => Res.fault f
  | Res.ok (none, _) => Res.ok none
  | Res.ok (some a, p) =>
    match heap.deref a with
    | none => Res.fault Fault.undefined
    | some Tree.null => Res.fault Fault.undefined
    | some (Tree.node _ _ _ _ l r _) =>
      if p ≠ none ∧ l.ptr = p then Res.ok (some a)
      else descend_left r

/-- First loop of `prev_node`:
`while (now != nullptr && now->left == p) { p = now; now = now->anc; }`. -/
def prev_climb (heap : Tree α) : Nat → Option Addr → Option Addr →
    Res (Option Addr × Option Addr)
  | 0, _, _ => Res.fault Fault.fuel
  | _ + 1, none, p => Res.ok (none, p)
  | fuel + 1, some a, p =>
    match heap.deref a with
    | none => Res.fault Fault.undefined
    | some Tree.null => Res.fault Fault.undefined
    | some (Tree.node _ _ _ _ l _ anc) =>
      if l.ptr = p then
        match anc with
        | Anc.indeterminate => Res.fault Fault.undefined
        | Anc.null => prev_climb heap fuel none (some a)
        | Anc.to b => prev_climb heap fuel (some b) (some a)
      else Res.ok (some a, p)

/-- Second loop of `prev_node`, entered with `now = now->left`:
`while (now->right != nullptr) now = now->right; return now;`. -/
def descend_right : Tree α → Res (Option Addr)
  | Tree.null => Res.fault Fault.undefined
  | Tree.node a _ _ _ _ Tree.null _ => Res.ok (some a)
  | Tree.node _ _ _ _ _ (Tree.node ra rk rm rh rl rr ranc) _ =>
    descend_right (Tree.node ra rk rm rh rl rr ranc)

/-- Source `iterator::prev_node`. -/
def prev_node (heap : Tree α) (fuel : Nat) (now : Option Addr) : Res (Option Addr) :=
  match prev_climb heap fuel now none with
  | Res.fault f => Res.fault f
  | Res.ok (none, _) => Res.ok none
  | Res.ok (some a, p) =>
    match heap.deref a with
    | none => Res.fault Fault.undefined
    | some Tree.null => Res.fault Fault.undefined
    | some (Tree.node _ _ _ _ l r _) =>
      if p ≠ none ∧ r.ptr = p then Res.ok (some a)
      else descend_right l

/-- Source `iterator::operator++` (prefix). -/
def inc (heap : Tree α) (fuel : Nat) (it : iterator) : Res iterator :=
  match next_node heap fuel it.node with
  | Res.fault f => Res.fault f
  | Res.ok none => Res.ok { node := it.node, is_end := true }
  | Res.ok (some a) => Res.ok { node := some a, is_end := it.is_end }

/-- Source `iterator::operator--` (prefix). -/
def dec (heap : Tree α) (fuel : Nat) (it : iterator) : Res iterator :=
  if it.is_end then Res.ok { node := it.node, is_end := false }
  else
    match prev_node heap fuel it.node with
    | Res.fault f => Res.fault f
    | Res.ok now => Res.ok { node := now, is_end := it.is_end }

/-- Source `iterator::operator*`: `node->key`. -/
def star (heap : Tree α) (it : iterator) : Res α :=
  match it.node with
  | none => Res.fault Fault.undefined
  | some a =>
    match heap.deref a with
    | some (Tree.node _ k _ _ _ _ _) => Res.ok k
    | _ => Res.fault Fault.undefined

end iterator

/-- Source `class Set`: the members `root` and `size_`, and the next address
the allocator hands out (`new` never returns the address of a node that was
allocated before). -/
structure Set (α : Type) where
  root : Tree α
  size_ : Nat
  next_addr : Addr

/-- One public mutating call. -/
inductive Op (α : Type) where
  | insert (elem : α) : Op α
  | erase (elem : α) : Op α
  deriving DecidableEq

namespace Set

/-- Source `Set()`: `root = nullptr`, `size_ = 0`. -/
def empty_set : Set α :=
  { root := Tree.null, size_ := 0, next_addr := 1 }

/-- Source `size()`. -/
def size (s : Set α) : Nat := s.size_

/-- Source `empty()`. -/
def empty (s : Set α) : Bool := s.size_ == 0

/-- Source `end()`. -/
def end_ (s : Set α) : iterator :=
  match s.root with
  | Tree.null => { node := none, is_end := true }
  | Tree.node a k m h l r anc =>
    { node := (Tree.find_max (Tree.node a k m h l r anc)).ptr, is_end := true }

/-- Source `begin()`. -/
def begin (s : Set α) : iterator :=
  match s.root with
  | Tree.null => s.end_
  | Tree.node a k m h l r anc =>
    { node := (Tree.find_min (Tree.node a k m h l r anc)).ptr, is_end := false }

variable [LinearOrder α]

/-- Source `void insert(const T& elem)`. -/
def insert (s : Set α) (elem : α) : Set α :=
  let res := Tree.insert s.root elem s.size_ s.next_addr
  { root := res.1, size_ := res.2, next_addr := s.next_addr + 1 }

/-- Source `void erase(const T& elem)`. -/
def erase (s : Set α) (elem : α) : Set α :=
  let res := Tree.remove s.root elem s.size_
  { root := res.1, size_ := res.2, next_addr := s.next_addr }

/-- Source `find`. -/
def find (s : Set α) (elem : α) : iterator :=
  match s.root with
  | Tree.null => s.end_
  | Tree.node a k m h l r anc =>
    match Tree.find_node (Tree.node a k m h l r anc) elem with
    | Tree.null => s.end_
    | Tree.node na _ _ _ _ _ _ => { node := some na, is_end := false }

/-- Source `lower_bound`. -/
def lower_bound (s : Set α) (elem : α) : iterator :=
  match s.root with
  | Tree.null => s.end_
  | Tree.node a k m h l r anc =>
    match Tree.lower_bound_node (Tree.node a k m h l r anc) elem with
    | Tree.null => s.end_
    | Tree.node na _ _ _ _ _ _ => { node := some na, is_end := false }

/-- Apply one call. -/
def apply (s : Set α) : Op α → Set α
  | Op.insert e => s.insert e
  | Op.erase e => s.erase e

/-- The client loop `for (it = begin(); it != end(); ++it) out.push_back(*it)`,
continued from `it`; `steps` bounds the number of rounds and `fuel` the loops
inside each `++`. -/
def traverse_from (s : Set α) (fuel : Nat) : Nat → iterator → Res (List α)
  | 0, _ => Res.fault Fault.fuel
  | steps + 1, it =>
    if it = s.end_ then Res.ok []
    else
      match iterator.star s.root it with
      | Res.fault f => Res.fault f
      | Res.ok k =>
        match iterator.inc s.root fuel it with
        | Res.fault f => Res.fault f
        | Res.ok it1 =>
          match traverse_from s fuel steps it1 with
          | Res.fault f => Res.fault f
          | Res.ok ks => Res.ok (k :: ks)

end Set

/-- The set reached from the empty set by the calls `ops`, in order. -/
def run [LinearOrder α] (ops : List (Op α)) : Set α :=
  ops.foldl Set.apply Set.empty_set

/-! ## Specification vocabulary -/

namespace Tree

/-- In-order traversal: left subtree, key, right subtree. -/
def inorder : Tree α → List α
  | null => []
  | node _ k _ _ l r _ => inorder l ++ k :: inorder r

/-- Every node of the tree, each given as the subtree it roots, in in-order. -/
def nodes : Tree α → List (Tree α)
  | null => []
  | node a k m h l r anc => nodes l ++ node a k m h l r anc :: nodes r

/-- The addresses of the nodes, in in-order. -/
def addrs : Tree α → List Addr
  | null => []
  | node a _ _ _ l r _ => addrs l ++ a :: addrs r

/-- Number of nodes of the tree. -/
def num_nodes : Tree α → Nat
  | null => 0
  | node _ _ _ _ l r _ => num_nodes l + 1 + num_nodes r

/-- True height of a subtree: 0 for an absent subtree, 1 for a leaf. -/
def true_height : Tree α → Nat
  | null => 0
  | node _ _ _ _ l r _ => 1 + max (true_height l) (true_height r)

/-- The tree with every `anc` field blanked: what is left is the shape and
the address, key, `max_value` and `height` of every node. -/
def strip_anc : Tree α → Tree α
  | null => null
  | node a k m h l r _ => node a k m h (strip_anc l) (strip_anc r) Anc.null

/-- Height balance at every node, on true heights. -/
def Balanced : Tree α → Prop
  | null => True
  | node _ _ _ _ l r _ =>
    true_height l ≤ true_height r + 1 ∧ true_height r ≤ true_height l + 1 ∧
      Balanced l ∧ Balanced r

/-- Every stored height is the true height of its subtree. -/
def HeightOK : Tree α → Prop
  | null => True
  | node _ _ _ h l r _ =>
    h = 1 + max (true_height l) (true_height r) ∧ HeightOK l ∧ HeightOK r

/-- Every stored `max_value` is the last key of the in-order traversal of its
subtree. -/
def MaxLast : Tree α → Prop
  | null => True
  | node _ k m _ l r _ =>
    (inorder l ++ k :: inorder r).getLast? = some m ∧ MaxLast l ∧ MaxLast r

variable [LinearOrder α]

/-- Binary-search-tree ordering at every node: the keys of the left subtree
are below the key, those of the right subtree above it. -/
def Ordered : Tree α → Prop
  | null => True
  | node _ k _ _ l r _ =>
    (∀ x ∈ inorder l, x < k) ∧ (∀ x ∈ inorder r, k < x) ∧ Ordered l ∧ Ordered r

/-- Every stored `max_value` is a key of its subtree and no key of that
subtree exceeds it. -/
def MaxOK : Tree α → Prop
  | null => True
  | node _ k m _ l r _ =>
    (m ∈ inorder l ++ k :: inorder r ∧ ∀ x ∈ inorder l ++ k :: inorder r, x ≤ m) ∧
      MaxOK l ∧ MaxOK r

end Tree

/-- The keys a set holds after the calls `ops`, as a mathematical set: the
distinct keys inserted and not erased since. -/
def live_keys [DecidableEq α] (ops : List (Op α)) : Finset α :=
  ops.foldl (fun ks op =>
    match op with
    | Op.insert e => Insert.insert e ks
    | Op.erase e => ks.erase e) ∅

/-- The calls `ops` never make the set hold `2^64` nodes or more, the range
of `size_t` (and more than an address space can hold). -/
def WithinMemory [LinearOrder α] (ops : List (Op α)) : Prop :=
  ∀ n, n ≤ ops.length → (run (ops.take n)).root.num_nodes < 2 ^ 64


/-- The calls of the worked example: insert 5, 3, 8, 1, 4, 7, 9 in this
order. -/
def sample_ops : List (Op Nat) :=
  [Op.insert 5, Op.insert 3, Op.insert 8, Op.insert 1, Op.insert 4, Op.insert 7, Op.insert 9]

/-- Deciding `Balanced` by recursion over the tree. -/
def Tree.decBalanced : (t : Tree α) → Decidable (Tree.Balanced t)
  | Tree.null => isTrue trivial
  | Tree.node _ _ _ _ l r _ =>
    have : Decidable (Tree.Balanced l) := Tree.decBalanced l
    have : Decidable (Tree.Balanced r) := Tree.decBalanced r
    inferInstanceAs (Decidable (Tree.true_height l ≤ Tree.true_height r + 1 ∧
      Tree.true_height r ≤ Tree.true_height l + 1 ∧ Tree.Balanced l ∧ Tree.Balanced r))

instance (t : Tree α) : Decidable (Tree.Balanced t) := Tree.decBalanced t

/-- Deciding `HeightOK` by recursion over the tree. -/
def Tree.decHeightOK : (t : Tree α) → Decidable (Tree.HeightOK t)
  | Tree.null => isTrue trivial
  | Tree.node _ _ _ h l r _ =>
    have : Decidable (Tree.HeightOK l) := Tree.decHeightOK l
    have : Decidable (Tree.HeightOK r) := Tree.decHeightOK r
    inferInstanceAs (Decidable (h = 1 + max (Tree.true_height l) (Tree.true_height r) ∧
      Tree.HeightOK l ∧ Tree.HeightOK r))

instance (t : Tree α) : Decidable (Tree.HeightOK t) := Tree.decHeightOK t

/-- Deciding `MaxLast` by recursion over the tree. -/
def Tree.decMaxLast [DecidableEq α] : (t : Tree α) → Decidable (Tree.MaxLast t)
  | Tree.null => isTrue trivial
  | Tree.node _ k m _ l r _ =>
    have : Decidable (Tree.MaxLast l) := Tree.decMaxLast l
    have : Decidable (Tree.MaxLast r) := Tree.decMaxLast r
    inferInstanceAs (Decidable ((Tree.inorder l ++ k :: Tree.inorder r).getLast? = some m ∧
      Tree.MaxLast l ∧ Tree.MaxLast r))

instance [DecidableEq α] (t : Tree α) : Decidable (Tree.MaxLast t) := Tree.decMaxLast t

/-- Deciding `Ordered` by recursion over the tree. -/
def Tree.decOrdered [LinearOrder α] : (t : Tree α) → Decidable (Tree.Ordered t)
  | Tree.null => isTrue trivial
  | Tree.node _ k _ _ l r _ =>
    have : Decidable (Tree.Ordered l) := Tree.decOrdered l
    have : Decidable (Tree.Ordered r) := Tree.decOrdered r
    inferInstanceAs (Decidable ((∀ x ∈ Tree.inorder l, x < k) ∧ (∀ x ∈ Tree.inorder r, k < x) ∧
      Tree.Ordered l ∧ Tree.Ordered r))

instance [LinearOrder α] (t : Tree α) : Decidable (Tree.Ordered t) := Tree.decOrdered t

/-- Deciding `MaxOK` by recursion over the tree. -/
def Tree.decMaxOK [LinearOrder α] : (t : Tree α) → Decidable (Tree.MaxOK t)
  | Tree.null => isTrue trivial
  | Tree.node _ k m _ l r _ =>
    have : Decidable (Tree.MaxOK l) := Tree.decMaxOK l
    have : Decidable (Tree.MaxOK r) := Tree.decMaxOK r
    inferInstanceAs (Decidable ((m ∈ Tree.inorder l ++ k :: Tree.inorder r ∧
      ∀ x ∈ Tree.inorder l ++ k :: Tree.inorder r, x ≤ m) ∧ Tree.MaxOK l ∧ Tree.MaxOK r))

instance [LinearOrder α] (t : Tree α) : Decidable (Tree.MaxOK t) := Tree.decMaxOK t

instance [LinearOrder α] (ops : List (Op α)) : Decidable (WithinMemory ops) :=
  inferInstanceAs (Decidable (∀ n, n ≤ ops.length → (run (ops.take n)).root.num_nodes < 2 ^ 64))

/-! ## Further vocabulary: augmentation recurrence, parent links, construction and copy -/

namespace Tree

/-- The augmentation recurrence at every node: `max_value` is the
`max_value` of the right child if there is one, else the node's own key. -/
def Augmented : Tree α → Prop
  | null => True
  | node _ k m _ l r _ => m = r.max_value?.getD k ∧ Augmented l ∧ Augmented r

/-- The stored-height recurrence at every node: the `height` field is one
more than the larger of the stored heights of the children, an absent child
counting as 0. -/
def HeightRec : Tree α → Prop
  | null => True
  | node _ _ _ h l r _ =>
    h = 1 + max (get_height l) (get_height r) ∧ HeightRec l ∧ HeightRec r

/-- Parent links below the root: in every node, the `anc` of each child that
exists is the address of the node. -/
def AncLinked : Tree α → Prop
  | null => True
  | node a _ _ _ l r _ =>
    (l = null ∨ l.anc? = some (Anc.to a)) ∧ (r = null ∨ r.anc? = some (Anc.to a)) ∧
      AncLinked l ∧ AncLinked r

/-- Deciding `Augmented` by recursion over the tree. -/
def decAugmented [DecidableEq α] : (t : Tree α) → Decidable (Augmented t)
  | null => isTrue trivial
  | node _ k m _ l r _ =>
    have : Decidable (Augmented l) := decAugmented l
    have : Decidable (Augmented r) := decAugmented r
    inferInstanceAs (Decidable (m = r.max_value?.getD k ∧ Augmented l ∧ Augmented r))

instance [DecidableEq α] (t : Tree α) : Decidable (Augmented t) := decAugmented t

/-- Deciding `HeightRec` by recursion over the tree. -/
def decHeightRec : (t : Tree α) → Decidable (HeightRec t)
  | null => isTrue trivial
  | node _ _ _ h l r _ =>
    have : Decidable (HeightRec l) := decHeightRec l
    have : Decidable (HeightRec r) := decHeightRec r
    inferInstanceAs (Decidable (h = 1 + max (get_height l) (get_height r) ∧
      HeightRec l ∧ HeightRec r))

instance (t : Tree α) : Decidable (HeightRec t) := decHeightRec t

/-- Deciding `AncLinked` by recursion over the tree. -/
def decAncLinked [DecidableEq α] : (t : Tree α) → Decidable (AncLinked t)
  | null => isTrue trivial
  | node a _ _ _ l r _ =>
    have : Decidable (AncLinked l) := decAncLinked l
    have : Decidable (AncLinked r) := decAncLinked r
    inferInstanceAs (Decidable ((l = null ∨ l.anc? = some (Anc.to a)) ∧
      (r = null ∨ r.anc? = some (Anc.to a)) ∧ AncLinked l ∧ AncLinked r))

instance [DecidableEq α] (t : Tree α) : Decidable (AncLinked t) := decAncLinked t

/-- Parent consistency of a whole tree: the root's `anc` is null and every
other node's `anc` is the node that holds it as a child. -/
def AncConsistent (t : Tree α) : Prop :=
  (t = null ∨ t.anc? = some Anc.null) ∧ AncLinked t

instance [DecidableEq α] (t : Tree α) : Decidable (AncConsistent t) :=
  inferInstanceAs (Decidable ((t = null ∨ t.anc? = some Anc.null) ∧ AncLinked t))

/-- Every stored height in the tree is at most `bound`. -/
def StoredBelow (bound : Nat) : Tree α → Prop
  | null => True
  | node _ _ _ h l r _ => h ≤ bound ∧ StoredBelow bound l ∧ StoredBelow bound r

/-- Reference version of `update` with an unbounded height field: the height
recurrence of the specification, `1 + max(height(left), height(right))`,
with no reduction modulo 256.  Everything else is as in `update`. -/
def update_exact : Tree α → Tree α
  | null => null
  | node a key _ _ l r _ =>
    let height_left := get_height l
    let height_right := get_height r
    let height := if height_right > height_left then height_right else height_left
    let max_value := match r with
      | null => key
      | node _ _ rm _ _ _ _ => rm
    node a key max_value (height + 1) (set_anc l (Anc.to a)) (set_anc r (Anc.to a)) Anc.null

/-- Reference version of `rotate_right`, built on `update_exact`. -/
def rotate_right_exact : Tree α → Tree α
  | node a k m h (node sa sk sm sh sl sr sanc) r anc =>
    update_exact (node sa sk sm sh sl (update_exact (node a k m h sr r anc)) sanc)
  | t => t

/-- Reference version of `rotate_left`, built on `update_exact`. -/
def rotate_left_exact : Tree α → Tree α
  | node a k m h l (node sa sk sm sh sl sr sanc) anc =>
    update_exact (node sa sk sm sh (update_exact (node a k m h l sl anc)) sr sanc)
  | t => t

/-- Reference version of `balance`, built on the reference rotations. -/
def balance_exact (nd : Tree α) : Tree α :=
  match update_exact nd with
  | null => null
  | node a k m h l r anc =>
    if balance_factor (node a k m h l r anc) = 2 then
      if balance_factor r < 0 then
        rotate_left_exact (node a k m h l (rotate_right_exact r) anc)
      else
        rotate_left_exact (node a k m h l r anc)
    else if balance_factor (node a k m h l r anc) = -2 then
      if balance_factor l > 0 then
        rotate_right_exact (node a k m h (rotate_left_exact l) r anc)
      else
        rotate_right_exact (node a k m h l r anc)
    else
      node a k m h l r anc

/-- Reference version of `remove_min`, built on `balance_exact`. -/
def remove_min_exact : Tree α → Tree α
  | null => null
  | node _ _ _ _ null r _ => r
  | node a k m h (node la lk lm lh ll lr lanc) r anc =>
    balance_exact (node a k m h (remove_min_exact (node la lk lm lh ll lr lanc)) r anc)

/-- Reference version of `insert`, built on `balance_exact`. -/
def insert_exact [LinearOrder α] : Tree α → α → Nat → Addr → Tree α × Nat
  | null, k, size_, fresh => (new_node fresh k, (size_ + 1) % 2 ^ 64)
  | node a key m h l r anc, k, size_, fresh =>
    if k < key then
      let res := insert_exact l k size_ fresh
      (balance_exact (node a key m h res.1 r anc), res.2)
    else if key < k then
      let res := insert_exact r k size_ fresh
      (balance_exact (node a key m h l res.1 anc), res.2)
    else
      (node a key m h l r anc, size_)

/-- Reference version of `remove`, built on `balance_exact` and
`remove_min_exact`. -/
def remove_exact [LinearOrder α] : Tree α → α → Nat → Tree α × Nat
  | null, _, size_ => (null, size_)
  | node a key m h l r anc, k, size_ =>
    if k < key then
      let res := remove_exact l k size_
      (balance_exact (node a key m h res.1 r anc), res.2)
    else if key < k then
      let res := remove_exact r k size_
      (balance_exact (node a key m h l res.1 anc), res.2)
    else
      let q := l
      let size_ := (size_ + (2 ^ 64 - 1)) % 2 ^ 64
      match r with
      | null => (q, size_)
      | node ra rk rm rh rl rr ranc =>
        match find_min (node ra rk rm rh rl rr ranc) with
        | null => (null, size_)
        | node na nk nm nh _ _ nanc =>
          (balance_exact (node na nk nm nh q
            (remove_min_exact (node ra rk rm rh rl rr ranc)) nanc), size_)

end Tree

/-- The right child of `sample_chain`: the node with key 2 and its right child
with key 3. -/
def sample_chain_right : Tree Nat :=
  Tree.node 2 2 3 2 Tree.null (Tree.node 3 3 3 1 Tree.null Tree.null (Anc.to 2)) (Anc.to 1)

/-- A right-heavy chain of three nodes with keys 1, 2, 3: the node that
`balance` receives at the root when 3 is inserted after 1 and 2. -/
def sample_chain : Tree Nat :=
  Tree.node 1 1 3 3 Tree.null sample_chain_right Anc.null

/-- The value of an outcome, if it is one. -/
def Res.value? {β : Type} : Res β → Option β
  | Res.ok v => some v
  | Res.fault _ => none

namespace Set

variable [LinearOrder α]

/-- Source `Set(Iterator first, Iterator last)`: `root = insert(root, *first)`
for each element of the range, in order, on a fresh set. -/
def from_range (elems : List α) : Set α :=
  elems.foldl (fun s elem =>
    let res := Tree.insert s.root elem s.size_ s.next_addr
    { root := res.1, size_ := res.2, next_addr := s.next_addr + 1 }) empty_set

/-- Source `Set(std::initializer_list<T> elems)`: the same loop over the
literal list. -/
def from_initializer_list (elems : List α) : Set α :=
  elems.foldl (fun s elem =>
    let res := Tree.insert s.root elem s.size_ s.next_addr
    { root := res.1, size_ := res.2, next_addr := s.next_addr + 1 }) empty_set

/-- The range-for loop `for (T elem : set) insert(elem);` of the copy
constructor and of `operator=`, continued from the iterator `it` over the
source `src`, inserting into `dst`.  `steps` bounds the number of rounds and
`fuel` the loops inside each `++`. -/
def copy_loop (src : Set α) (fuel : Nat) : Nat → iterator → Set α → Res (Set α)
  | 0, _, _ => Res.fault Fault.fuel
  | steps + 1, it, dst =>
    if it = src.end_ then Res.ok dst
    else
      match iterator.star src.root it with
      | Res.fault f => Res.fault f
      | Res.ok elem =>
        match iterator.inc src.root fuel it with
        | Res.fault f => Res.fault f
        | Res.ok it1 => copy_loop src fuel steps it1 (dst.insert elem)

/-- Source `Set(const Set<T>& set)`: a fresh set (`root = nullptr`,
`size_ = 0`, allocating from the same heap) filled by the range-for loop. -/
def copy_construct (src : Set α) (fuel steps : Nat) : Res (Set α) :=
  copy_loop src fuel steps src.begin
    { root := Tree.null, size_ := 0, next_addr := src.next_addr }

/-- Source `operator=` from a different set: the target frees its nodes, resets
`root` and `size_`, and is filled by the range-for loop (`this` and `set` are
different objects, so the self-assignment test fails). -/
def assign (dst src : Set α) (fuel steps : Nat) : Res (Set α) :=
  copy_loop src fuel steps src.begin
    { root := Tree.null, size_ := 0, next_addr := max dst.next_addr src.next_addr }

end Set

/-! ## The path of a descent -/

/-- One step of the descent that `remove` makes from a node into one of its
children: the fields of the node passed and the child that is not entered. -/
inductive PathStep (α : Type) where
  | left (addr : Addr) (key max_value : α) (height : Nat) (right : Tree α) (anc : Anc) :
      PathStep α
  | right (addr : Addr) (key max_value : α) (height : Nat) (left : Tree α) (anc : Anc) :
      PathStep α

namespace Tree

/-- The descent from the root of the tree towards the key `k`, by the
comparisons `k < node->key` and `node->key < k` of `remove`: the root first,
ending before the node that holds `k`, or at an absent child. -/
def search_path [LinearOrder α] : Tree α → α → List (PathStep α)
  | null, _ => []
  | node a key m h l r anc, k =>
    if k < key then PathStep.left a key m h r anc :: search_path l k
    else if key < k then PathStep.right a key m h l anc :: search_path r k
    else []

/-- The tree that has `sub` at the end of the path and is otherwise as the
path records it. -/
def put_back : List (PathStep α) → Tree α → Tree α
  | [], sub => sub
  | PathStep.left a key m h r anc :: p, sub => node a key m h (put_back p sub) r anc
  | PathStep.right a key m h l anc :: p, sub => node a key m h l (put_back p sub) anc

/-- The tree obtained by hanging `sub` at the end of the path and calling
`balance` on every node of the path on the way back to the root, as the
assignments `node->left = remove(node->left, k)` (or `node->right`) followed
by `return balance(node)` do. -/
def rebalance_up : List (PathStep α) → Tree α → Tree α
  | [], sub => sub
  | PathStep.left a key m h r anc :: p, sub =>
    balance (node a key m h (rebalance_up p sub) r anc)
  | PathStep.right a key m h l anc :: p, sub =>
    balance (node a key m h l (rebalance_up p sub) anc)

end Tree

/-! # Proofs -/

namespace Tree

/-! ## In-order sequence: what the restructuring steps preserve -/

@[simp] theorem inorder_null : inorder (null : Tree α) = [] := rfl

@[simp] theorem inorder_node (a : Addr) (k m : α) (h : Nat) (l r : Tree α) (anc : Anc) :
    inorder (node a k m h l r anc) = inorder l ++ k :: inorder r := rfl

@[simp] theorem inorder_set_anc (t : Tree α) (v : Anc) : inorder (set_anc t v) = inorder t := by
  cases t <;> rfl

@[simp] theorem inorder_update (t : Tree α) : inorder (update t) = inorder t := by
  cases t <;> simp [update]

@[simp] theorem inorder_rotate_right (t : Tree α) : inorder (rotate_right t) = inorder t := by
  unfold rotate_right
  split <;> simp

@[simp] theorem inorder_rotate_left (t : Tree α) : inorder (rotate_left t) = inorder t := by
  unfold rotate_left
  split <;> simp

@[simp] theorem inorder_balance (t : Tree α) : inorder (balance t) = inorder t := by
  unfold balance
  split
  · rename_i h
    rw [← inorder_update t, h]
  · rename_i a k m h l r anc heq
    rw [← inorder_update t, heq]
    split_ifs <;> simp

theorem tail_append_cons (xs : List α) (y : α) (ys zs : List α) :
    (xs ++ y :: ys).tail ++ zs = (xs ++ y :: (ys ++ zs)).tail := by
  cases xs <;> simp

theorem getLast?_append_cons (xs : List α) (y : α) (ys : List α) :
    (xs ++ y :: ys).getLast? = (y :: ys).getLast? :=
  List.getLast?_append_of_ne_nil xs (by simp)

theorem num_nodes_eq_length (t : Tree α) : num_nodes t = (inorder t).length := by
  induction t with
  | null => rfl
  | node a k m h l r anc ihl ihr => simp [num_nodes, ihl, ihr]; omega

theorem find_min_ne_null (t : Tree α) (ht : t ≠ null) : find_min t ≠ null := by
  induction t with
  | null => exact absurd rfl ht
  | node a k m h l r anc ihl _ =>
    cases l with
    | null => simp [find_min]
    | node la lk lm lh ll lr lanc => simpa [find_min] using ihl (by simp)

theorem key_find_min (t : Tree α) : (find_min t).key? = (inorder t).head? := by
  induction t with
  | null => rfl
  | node a k m h l r anc ihl _ =>
    cases l with
    | null => simp [find_min, key?]
    | node la lk lm lh ll lr lanc =>
      simp only [find_min, ihl]
      simp

theorem inorder_remove_min (t : Tree α) : inorder (remove_min t) = (inorder t).tail := by
  induction t with
  | null => rfl
  | node a k m h l r anc ihl _ =>
    cases l with
    | null => simp [remove_min]
    | node la lk lm lh ll lr lanc =>
      simp only [remove_min, inorder_balance, inorder_node, ihl]
      simpa using tail_append_cons (inorder ll) lk (inorder lr) (k :: inorder r)

theorem key_find_max (t : Tree α) : (find_max t).key? = (inorder t).getLast? := by
  induction t with
  | null => rfl
  | node a k m h l r anc _ ihr =>
    cases r with
    | null => simp [find_max, key?]
    | node ra rk rm rh rl rr ranc =>
      simp only [find_max, ihr, inorder_node]
      rw [getLast?_append_cons, getLast?_append_cons, ← List.cons_append, getLast?_append_cons]

variable [LinearOrder α]

theorem ordered_iff_pairwise (t : Tree α) :
    Ordered t ↔ (inorder t).Pairwise (· < ·) := by
  induction t with
  | null => simp [Ordered]
  | node a k m h l r anc ihl ihr =>
    simp only [Ordered, inorder_node, List.pairwise_append, List.pairwise_cons, ihl, ihr,
      List.mem_cons]
    constructor
    · rintro ⟨h1, h2, h3, h4⟩
      refine ⟨h3, ⟨h2, h4⟩, ?_⟩
      rintro x hx y (rfl | hy)
      · exact h1 x hx
      · exact lt_trans (h1 x hx) (h2 y hy)
    · rintro ⟨h1, ⟨h2, h3⟩, h4⟩
      exact ⟨fun x hx => h4 x hx k (Or.inl rfl), h2, h1, h3⟩

theorem mem_inorder_insert (t : Tree α) (k : α) (sz : Nat) (fresh : Addr) (x : α) :
    x ∈ inorder (insert t k sz fresh).1 ↔ x = k ∨ x ∈ inorder t := by
  induction t with
  | null => simp [insert, new_node]
  | node a key m h l r anc ihl ihr =>
    simp only [insert]
    split_ifs with h1 h2
    · simp [ihl]; tauto
    · simp [ihr]; tauto
    · have : k = key := le_antisymm (not_lt.mp h2) (not_lt.mp h1)
      subst this
      simp only [inorder_node, List.mem_append, List.mem_cons]
      tauto

theorem pairwise_inorder_insert (t : Tree α) (k : α) (sz : Nat) (fresh : Addr)
    (ht : (inorder t).Pairwise (· < ·)) :
    (inorder (insert t k sz fresh).1).Pairwise (· < ·) := by
  induction t with
  | null => simp [insert, new_node]
  | node a key m h l r anc ihl ihr =>
    simp only [inorder_node, List.pairwise_append, List.pairwise_cons, List.mem_cons] at ht
    obtain ⟨hl, ⟨hkr, hr⟩, hlr⟩ := ht
    simp only [insert]
    split_ifs with h1 h2
    · simp only [inorder_balance, inorder_node, List.pairwise_append, List.pairwise_cons,
        List.mem_cons, mem_inorder_insert]
      refine ⟨ihl hl, ⟨hkr, hr⟩, ?_⟩
      rintro x (rfl | hx) y (rfl | hy)
      · exact h1
      · exact lt_trans h1 (hkr y hy)
      · exact hlr x hx y (Or.inl rfl)
      · exact hlr x hx y (Or.inr hy)
    · simp only [inorder_balance, inorder_node, List.pairwise_append, List.pairwise_cons,
        List.mem_cons, mem_inorder_insert]
      refine ⟨hl, ⟨?_, ihr hr⟩, ?_⟩
      · rintro y (rfl | hy)
        · exact h2
        · exact hkr y hy
      · rintro x hx y (rfl | rfl | hy)
        · exact hlr x hx y (Or.inl rfl)
        · exact lt_trans (hlr x hx key (Or.inl rfl)) h2
        · exact hlr x hx y (Or.inr hy)
    · simp only [inorder_node, List.pairwise_append, List.pairwise_cons, List.mem_cons]
      exact ⟨hl, ⟨hkr, hr⟩, hlr⟩

theorem filter_ne_of_forall_lt (xs : List α) (k : α) (h : ∀ x ∈ xs, k < x) :
    xs.filter (fun x => !decide (x = k)) = xs := by
  rw [List.filter_eq_self]
  intro x hx
  simpa using ne_of_gt (h x hx)

theorem filter_ne_of_forall_gt (xs : List α) (k : α) (h : ∀ x ∈ xs, x < k) :
    xs.filter (fun x => !decide (x = k)) = xs := by
  rw [List.filter_eq_self]
  intro x hx
  simpa using ne_of_lt (h x hx)

theorem inorder_remove (t : Tree α) (k : α) (sz : Nat)
    (ht : (inorder t).Pairwise (· < ·)) :
    inorder (remove t k sz).1 = (inorder t).filter (fun x => !decide (x = k)) := by
  induction t with
  | null => simp [remove]
  | node a key m h l r anc ihl ihr =>
    simp only [inorder_node, List.pairwise_append, List.pairwise_cons, List.mem_cons] at ht
    obtain ⟨hl, ⟨hkr, hr⟩, hlr⟩ := ht
    have hlk : ∀ x ∈ inorder l, x < key := fun x hx => hlr x hx key (Or.inl rfl)
    simp only [remove]
    split_ifs with h1 h2
    · have hr' : ∀ x ∈ inorder r, k < x := fun x hx => lt_trans h1 (hkr x hx)
      simp [ihl hl, List.filter_cons, ne_of_gt h1, filter_ne_of_forall_lt _ _ hr']
    · have hl' : ∀ x ∈ inorder l, x < k := fun x hx => lt_trans (hlk x hx) h2
      simp [ihr hr, List.filter_cons, ne_of_lt h2, filter_ne_of_forall_gt _ _ hl']
    · have hk : k = key := le_antisymm (not_lt.mp h2) (not_lt.mp h1)
      subst hk
      have e1 := filter_ne_of_forall_gt _ _ hlk
      have e2 := filter_ne_of_forall_lt _ _ hkr
      cases r with
      | null => simp [e1]
      | node ra rk rm rh rl rr ranc =>
        have hne := find_min_ne_null (node ra rk rm rh rl rr ranc) (by simp)
        have hkey := key_find_min (node ra rk rm rh rl rr ranc)
        have htl := inorder_remove_min (node ra rk rm rh rl rr ranc)
        dsimp only
        generalize find_min (node ra rk rm rh rl rr ranc) = mn at hne hkey ⊢
        generalize remove_min (node ra rk rm rh rl rr ranc) = rest at htl ⊢
        cases mn with
        | null => exact absurd rfl hne
        | node na nk nm nh nl nr nanc =>
          rw [inorder_balance, inorder_node, htl]
          simp only [key?] at hkey
          rw [inorder_node a, List.filter_append, e1, List.filter_cons]
          simp only [decide_True, Bool.not_true, Bool.false_eq_true, ↓reduceIte]
          rw [e2]
          congr 1
          generalize inorder (node ra rk rm rh rl rr ranc) = xs at hkey
          cases xs with
          | nil => simp at hkey
          | cons y ys => simp at hkey; simp [hkey]

end Tree

namespace Tree

/-! ## Field access through `set_anc` -/

@[simp] theorem left_set_anc (t : Tree α) (v : Anc) : (set_anc t v).left = t.left := by
  cases t <;> rfl

@[simp] theorem right_set_anc (t : Tree α) (v : Anc) : (set_anc t v).right = t.right := by
  cases t <;> rfl

@[simp] theorem get_height_set_anc (t : Tree α) (v : Anc) :
    get_height (set_anc t v) = get_height t := by
  cases t <;> rfl

@[simp] theorem true_height_set_anc (t : Tree α) (v : Anc) :
    true_height (set_anc t v) = true_height t := by
  cases t <;> rfl

@[simp] theorem num_nodes_set_anc (t : Tree α) (v : Anc) :
    num_nodes (set_anc t v) = num_nodes t := by
  cases t <;> rfl

@[simp] theorem addrs_set_anc (t : Tree α) (v : Anc) : addrs (set_anc t v) = addrs t := by
  cases t <;> rfl

@[simp] theorem ptr_set_anc (t : Tree α) (v : Anc) : ptr (set_anc t v) = ptr t := by
  cases t <;> rfl

@[simp] theorem strip_anc_set_anc (t : Tree α) (v : Anc) :
    strip_anc (set_anc t v) = strip_anc t := by
  cases t <;> rfl

@[simp] theorem left_node (a : Addr) (k m : α) (h : Nat) (l r : Tree α) (anc : Anc) :
    (node a k m h l r anc).left = l := rfl

@[simp] theorem right_node (a : Addr) (k m : α) (h : Nat) (l r : Tree α) (anc : Anc) :
    (node a k m h l r anc).right = r := rfl

/-! ## The cached maximum is the last key in in-order -/

@[simp] theorem maxLast_set_anc (t : Tree α) (v : Anc) : MaxLast (set_anc t v) ↔ MaxLast t := by
  cases t <;> simp [set_anc, MaxLast]

theorem maxLast_left {t : Tree α} (ht : MaxLast t) : MaxLast t.left := by
  cases t with
  | null => trivial
  | node a k m h l r anc => exact ht.2.1

theorem maxLast_right {t : Tree α} (ht : MaxLast t) : MaxLast t.right := by
  cases t with
  | null => trivial
  | node a k m h l r anc => exact ht.2.2

theorem max_value_eq_getLast {t : Tree α} (ht : MaxLast t) :
    t.max_value? = (inorder t).getLast? := by
  cases t with
  | null => rfl
  | node a k m h l r anc => exact ht.1.symm

theorem maxLast_update (a : Addr) (k m : α) (h : Nat) (l r : Tree α) (anc : Anc)
    (hl : MaxLast l) (hr : MaxLast r) : MaxLast (update (node a k m h l r anc)) := by
  simp only [update, MaxLast, inorder_set_anc, maxLast_set_anc]
  refine ⟨?_, hl, hr⟩
  cases r with
  | null => simp
  | node ra rk rm rh rl rr ranc =>
    rw [getLast?_append_cons, inorder_node, ← List.cons_append, getLast?_append_cons]
    rw [← getLast?_append_cons (inorder rl)]
    exact hr.1

theorem maxLast_rotate_right (t : Tree α) (ht : MaxLast t) : MaxLast (rotate_right t) := by
  cases t with
  | null => exact ht
  | node a k m h l r anc =>
    cases l with
    | null => exact ht
    | node la lk lm lh ll lr lanc =>
      simp only [rotate_right]
      exact maxLast_update _ _ _ _ _ _ _ ht.2.1.2.1 (maxLast_update _ _ _ _ _ _ _ ht.2.1.2.2 ht.2.2)

theorem maxLast_rotate_left (t : Tree α) (ht : MaxLast t) : MaxLast (rotate_left t) := by
  cases t with
  | null => exact ht
  | node a k m h l r anc =>
    cases r with
    | null => exact ht
    | node ra rk rm rh rl rr ranc =>
      simp only [rotate_left]
      exact maxLast_update _ _ _ _ _ _ _ (maxLast_update _ _ _ _ _ _ _ ht.2.1 ht.2.2.2.1) ht.2.2.2.2

theorem maxLast_congr_right {a : Addr} {k m : α} {h : Nat} {l r r' : Tree α} {anc : Anc}
    (ht : MaxLast (node a k m h l r anc)) (hr : MaxLast r') (he : inorder r' = inorder r) :
    MaxLast (node a k m h l r' anc) := by
  simp only [MaxLast, he] at ht ⊢
  exact ⟨ht.1, ht.2.1, hr⟩

theorem maxLast_congr_left {a : Addr} {k m : α} {h : Nat} {l l' r : Tree α} {anc : Anc}
    (ht : MaxLast (node a k m h l r anc)) (hl : MaxLast l') (he : inorder l' = inorder l) :
    MaxLast (node a k m h l' r anc) := by
  simp only [MaxLast, he] at ht ⊢
  exact ⟨ht.1, hl, ht.2.2⟩

theorem maxLast_balance (a : Addr) (k m : α) (h : Nat) (l r : Tree α) (anc : Anc)
    (hl : MaxLast l) (hr : MaxLast r) : MaxLast (balance (node a k m h l r anc)) := by
  have hu := maxLast_update a k m h l r anc hl hr
  unfold balance
  split
  · trivial
  · rename_i a1 k1 m1 h1 l1 r1 anc1 heq
    rw [heq] at hu
    split_ifs
    · exact maxLast_rotate_left _
        (maxLast_congr_right hu (maxLast_rotate_right _ hu.2.2) (inorder_rotate_right _))
    · exact maxLast_rotate_left _ hu
    · exact maxLast_rotate_right _
        (maxLast_congr_left hu (maxLast_rotate_left _ hu.2.1) (inorder_rotate_left _))
    · exact maxLast_rotate_right _ hu
    · exact hu

theorem maxLast_remove_min (t : Tree α) (ht : MaxLast t) : MaxLast (remove_min t) := by
  induction t with
  | null => trivial
  | node a k m h l r anc ihl _ =>
    cases l with
    | null => exact ht.2.2
    | node la lk lm lh ll lr lanc =>
      simp only [remove_min]
      exact maxLast_balance _ _ _ _ _ _ _ (ihl ht.2.1) ht.2.2

variable [LinearOrder α]

theorem maxLast_insert (t : Tree α) (k : α) (sz : Nat) (fresh : Addr) (ht : MaxLast t) :
    MaxLast (insert t k sz fresh).1 := by
  induction t with
  | null => simp [insert, new_node, MaxLast]
  | node a key m h l r anc ihl ihr =>
    simp only [insert]
    split_ifs
    · dsimp only
      exact maxLast_balance _ _ _ _ _ _ _ (ihl ht.2.1) ht.2.2
    · dsimp only
      exact maxLast_balance _ _ _ _ _ _ _ ht.2.1 (ihr ht.2.2)
    · exact ht

theorem maxLast_remove (t : Tree α) (k : α) (sz : Nat) (ht : MaxLast t) :
    MaxLast (remove t k sz).1 := by
  induction t with
  | null => simp [remove, MaxLast]
  | node a key m h l r anc ihl ihr =>
    simp only [remove]
    split_ifs
    · dsimp only
      exact maxLast_balance _ _ _ _ _ _ _ (ihl ht.2.1) ht.2.2
    · dsimp only
      exact maxLast_balance _ _ _ _ _ _ _ ht.2.1 (ihr ht.2.2)
    · cases r with
      | null => exact ht.2.1
      | node ra rk rm rh rl rr ranc =>
        dsimp only
        split
        · trivial
        · dsimp only
          exact maxLast_balance _ _ _ _ _ _ _ ht.2.1 (maxLast_remove_min _ ht.2.2)

theorem maxOK_of_maxLast (t : Tree α) (ho : (inorder t).Pairwise (· < ·)) (ht : MaxLast t) :
    MaxOK t := by
  induction t with
  | null => trivial
  | node a k m h l r anc ihl ihr =>
    have ho' := ho
    simp only [inorder_node, List.pairwise_append, List.pairwise_cons] at ho'
    refine ⟨?_, ihl ho'.1 ht.2.1, ihr ho'.2.1.2 ht.2.2⟩
    have hlast := ht.1
    rw [inorder_node] at ho
    generalize inorder l ++ k :: inorder r = xs at ho hlast
    have hm : m ∈ xs := List.mem_of_getLast?_eq_some hlast
    refine ⟨hm, fun x hx => ?_⟩
    obtain ⟨ys, rfl⟩ : ∃ ys, xs = ys ++ [m] := by
      rcases List.eq_nil_or_concat xs with h0 | ⟨ys, y, rfl⟩
      · simp [h0] at hm
      · refine ⟨ys, ?_⟩
        simp [List.getLast?_concat] at hlast
        simp [hlast]
    rw [List.pairwise_append] at ho
    rcases List.mem_append.mp hx with h1 | h1
    · exact le_of_lt (ho.2.2 x h1 m (by simp))
    · simp at h1
      exact le_of_eq h1

end Tree

namespace Tree

/-! ## Heights: stored against true, and balance -/

@[simp] theorem balanced_set_anc (t : Tree α) (v : Anc) : Balanced (set_anc t v) ↔ Balanced t := by
  cases t <;> simp [set_anc, Balanced]

@[simp] theorem heightOK_set_anc (t : Tree α) (v : Anc) : HeightOK (set_anc t v) ↔ HeightOK t := by
  cases t <;> simp [set_anc, HeightOK]

theorem get_height_eq {t : Tree α} (ht : HeightOK t) : get_height t = true_height t := by
  cases t with
  | null => rfl
  | node a k m h l r anc => exact ht.1

@[simp] theorem true_height_update (t : Tree α) : true_height (update t) = true_height t := by
  cases t <;> simp [update, true_height]

theorem get_height_update (a : Addr) (k m : α) (h : Nat) (l r : Tree α) (anc : Anc) :
    get_height (update (node a k m h l r anc)) = (max (get_height l) (get_height r) + 1) % 256 := by
  simp only [update, get_height]
  split_ifs <;> congr 2 <;> omega

theorem heightOK_update (a : Addr) (k m : α) (h : Nat) (l r : Tree α) (anc : Anc)
    (hl : HeightOK l) (hr : HeightOK r) (bl : true_height l ≤ 254) (br : true_height r ≤ 254) :
    HeightOK (update (node a k m h l r anc)) := by
  simp only [update, HeightOK, true_height_set_anc, heightOK_set_anc, get_height_eq hl,
    get_height_eq hr]
  refine ⟨?_, hl, hr⟩
  split_ifs <;> omega

@[simp] theorem balanced_update (t : Tree α) : Balanced (update t) ↔ Balanced t := by
  cases t <;> simp [update, Balanced]

theorem balance_factor_node (a : Addr) (k m : α) (h : Nat) (l r : Tree α) (anc : Anc) :
    balance_factor (node a k m h l r anc) = (get_height r : Int) - (get_height l : Int) := rfl

/-- What `rotate_left` yields on a node whose right child exists. -/
theorem rotate_left_spec (a : Addr) (k m : α) (h : Nat) (l : Tree α) (sa : Addr) (sk sm : α)
    (sh : Nat) (sl sr : Tree α) (sanc anc : Anc)
    (hl : HeightOK l) (hsl : HeightOK sl) (hsr : HeightOK sr)
    (bl : Balanced l) (bsl : Balanced sl) (bsr : Balanced sr)
    (b1 : true_height l ≤ 253) (b2 : true_height sl ≤ 253) (b3 : true_height sr ≤ 254)
    (d1 : true_height l ≤ true_height sl + 1) (d2 : true_height sl ≤ true_height l + 1)
    (d3 : 1 + max (true_height l) (true_height sl) ≤ true_height sr + 1)
    (d4 : true_height sr ≤ 1 + max (true_height l) (true_height sl) + 1) :
    HeightOK (rotate_left (node a k m h l (node sa sk sm sh sl sr sanc) anc)) ∧
    Balanced (rotate_left (node a k m h l (node sa sk sm sh sl sr sanc) anc)) ∧
    true_height (rotate_left (node a k m h l (node sa sk sm sh sl sr sanc) anc)) =
      1 + max (1 + max (true_height l) (true_height sl)) (true_height sr) := by
  simp only [rotate_left]
  refine ⟨?_, ?_, ?_⟩
  · refine heightOK_update _ _ _ _ _ _ _ (heightOK_update _ _ _ _ _ _ _ hl hsl ?_ ?_) hsr ?_ b3
    · omega
    · omega
    · simp only [true_height_update, true_height, true_height_set_anc]; omega
  · simp only [balanced_update, Balanced, true_height_update, true_height, true_height_set_anc,
      balanced_set_anc]
    exact ⟨d3, d4, ⟨d1, d2, bl, bsl⟩, bsr⟩
  · simp only [true_height_update, true_height, true_height_set_anc]

/-- What `rotate_right` yields on a node whose left child exists. -/
theorem rotate_right_spec (a : Addr) (k m : α) (h : Nat) (sa : Addr) (sk sm : α)
    (sh : Nat) (sl sr : Tree α) (sanc : Anc) (r : Tree α) (anc : Anc)
    (hsl : HeightOK sl) (hsr : HeightOK sr) (hr : HeightOK r)
    (bsl : Balanced sl) (bsr : Balanced sr) (br : Balanced r)
    (b1 : true_height sl ≤ 254) (b2 : true_height sr ≤ 253) (b3 : true_height r ≤ 253)
    (d1 : true_height sr ≤ true_height r + 1) (d2 : true_height r ≤ true_height sr + 1)
    (d3 : true_height sl ≤ 1 + max (true_height sr) (true_height r) + 1)
    (d4 : 1 + max (true_height sr) (true_height r) ≤ true_height sl + 1) :
    HeightOK (rotate_right (node a k m h (node sa sk sm sh sl sr sanc) r anc)) ∧
    Balanced (rotate_right (node a k m h (node sa sk sm sh sl sr sanc) r anc)) ∧
    true_height (rotate_right (node a k m h (node sa sk sm sh sl sr sanc) r anc)) =
      1 + max (true_height sl) (1 + max (true_height sr) (true_height r)) := by
  simp only [rotate_right]
  refine ⟨?_, ?_, ?_⟩
  · refine heightOK_update _ _ _ _ _ _ _ hsl (heightOK_update _ _ _ _ _ _ _ hsr hr ?_ ?_) b1 ?_
    · omega
    · omega
    · simp only [true_height_update, true_height, true_height_set_anc]; omega
  · simp only [balanced_update, Balanced, true_height_update, true_height, true_height_set_anc,
      balanced_set_anc]
    exact ⟨d3, d4, bsl, d1, d2, bsr, br⟩
  · simp only [true_height_update, true_height, true_height_set_anc]

end Tree

namespace Tree

theorem ne_null_of_get_height_pos {t : Tree α} (h : 0 < get_height t) : t ≠ null := by
  cases t with
  | null => exact absurd h (lt_irrefl 0)
  | node a k m h1 l r anc => simp

/-- Whatever the stored heights are, `balance` rotates only where the son that
the rotation dereferences exists: the tests on `balance_factor` imply it,
because an absent child counts with height 0. -/
theorem balance_sons_present (t : Tree α) :
    (balance_factor t = 2 → t.right ≠ null ∧
      (balance_factor t.right < 0 → t.right.left ≠ null)) ∧
    (balance_factor t = -2 → t.left ≠ null ∧
      (balance_factor t.left > 0 → t.left.right ≠ null)) := by
  unfold balance_factor
  refine ⟨fun h => ⟨ne_null_of_get_height_pos (by omega), fun h2 =>
    ne_null_of_get_height_pos (by omega)⟩, fun h => ⟨ne_null_of_get_height_pos (by omega),
    fun h2 => ne_null_of_get_height_pos (by omega)⟩⟩

end Tree

namespace Tree

theorem true_height_node (a : Addr) (k m : α) (h : Nat) (l r : Tree α) (anc : Anc) :
    true_height (node a k m h l r anc) = 1 + max (true_height l) (true_height r) := rfl

theorem heightOK_node (a : Addr) (k m : α) (h : Nat) (l r : Tree α) (anc : Anc) :
    HeightOK (node a k m h l r anc) ↔
      h = 1 + max (true_height l) (true_height r) ∧ HeightOK l ∧ HeightOK r := Iff.rfl

theorem balanced_node (a : Addr) (k m : α) (h : Nat) (l r : Tree α) (anc : Anc) :
    Balanced (node a k m h l r anc) ↔
      true_height l ≤ true_height r + 1 ∧ true_height r ≤ true_height l + 1 ∧
        Balanced l ∧ Balanced r := Iff.rfl

theorem set_anc_node (a : Addr) (k m : α) (h : Nat) (l r : Tree α) (anc v : Anc) :
    set_anc (node a k m h l r anc) v = node a k m h l r v := rfl

theorem get_height_node (a : Addr) (k m : α) (h : Nat) (l r : Tree α) (anc : Anc) :
    get_height (node a k m h l r anc) = h := rfl

theorem update_shape (a : Addr) (k m : α) (h : Nat) (l r : Tree α) (anc : Anc) :
    ∃ m1 h1, update (node a k m h l r anc) =
      node a k m1 h1 (set_anc l (Anc.to a)) (set_anc r (Anc.to a)) Anc.null :=
  ⟨_, _, rfl⟩

theorem rotate_right_shape (a : Addr) (k m : α) (h : Nat) (sa : Addr) (sk sm : α)
    (sh : Nat) (sl sr : Tree α) (sanc : Anc) (r : Tree α) (anc : Anc) :
    ∃ m1 h1, rotate_right (node a k m h (node sa sk sm sh sl sr sanc) r anc) =
      node sa sk m1 h1 (set_anc sl (Anc.to sa))
        (set_anc (update (node a k m h sr r anc)) (Anc.to sa)) Anc.null :=
  ⟨_, _, rfl⟩

theorem rotate_left_shape (a : Addr) (k m : α) (h : Nat) (l : Tree α) (sa : Addr) (sk sm : α)
    (sh : Nat) (sl sr : Tree α) (sanc anc : Anc) :
    ∃ m1 h1, rotate_left (node a k m h l (node sa sk sm sh sl sr sanc) anc) =
      node sa sk m1 h1 (set_anc (update (node a k m h l sl anc)) (Anc.to sa))
        (set_anc sr (Anc.to sa)) Anc.null :=
  ⟨_, _, rfl⟩

/-- What `balance` yields on a node whose two subtrees are AVL trees with
correct stored heights that differ by at most 2. -/
theorem avl_balance (a : Addr) (k m : α) (h : Nat) (l r : Tree α) (anc : Anc)
    (hl : HeightOK l) (hr : HeightOK r) (bl : Balanced l) (br : Balanced r)
    (d1 : true_height l ≤ true_height r + 2) (d2 : true_height r ≤ true_height l + 2)
    (b1 : true_height l ≤ 254) (b2 : true_height r ≤ 254) :
    HeightOK (balance (node a k m h l r anc)) ∧ Balanced (balance (node a k m h l r anc)) ∧
    max (true_height l) (true_height r) ≤ true_height (balance (node a k m h l r anc)) ∧
    true_height (balance (node a k m h l r anc)) ≤ max (true_height l) (true_height r) + 1 ∧
    (true_height l ≤ true_height r + 1 → true_height r ≤ true_height l + 1 →
      true_height (balance (node a k m h l r anc)) = max (true_height l) (true_height r) + 1) := by
  have hu := heightOK_update a k m h l r anc hl hr b1 b2
  obtain ⟨m1, h1, hupd⟩ := update_shape a k m h l r anc
  unfold balance
  rw [hupd] at hu ⊢
  simp only [balance_factor_node, get_height_set_anc, get_height_eq hl, get_height_eq hr]
  split_ifs with c1 c2 c3 c4
  · -- right-heavy, right child leans left: double rotation
    cases r with
    | null => simp only [true_height] at c1; omega
    | node ra rk rm rh rl rr ranc =>
      simp only [set_anc_node, balance_factor_node] at c2 ⊢
      rw [heightOK_node] at hr
      rw [balanced_node] at br
      rw [true_height_node] at c1 d1 d2 b2
      rw [get_height_eq hr.2.1, get_height_eq hr.2.2] at c2
      cases rl with
      | null => simp only [true_height] at c2; omega
      | node la lk lm lh ll lr lanc =>
        obtain ⟨m2, h2, hrot⟩ := rotate_right_shape ra rk rm rh la lk lm lh ll lr lanc rr (Anc.to a)
        rw [hrot]
        obtain ⟨-, ⟨-, hll, hlr⟩, hrr⟩ := hr
        obtain ⟨e1, e2, ⟨e3, e4, bll, blr⟩, brr⟩ := br
        rw [true_height_node] at c1 c2 d1 d2 b2 e1 e2
        have hin := heightOK_update ra rk rm rh lr rr (Anc.to a) hlr hrr (by omega) (by omega)
        have hbin : Balanced (update (node ra rk rm rh lr rr (Anc.to a))) := by
          rw [balanced_update, balanced_node]
          exact ⟨by omega, by omega, blr, brr⟩
        have hth : true_height (update (node ra rk rm rh lr rr (Anc.to a))) =
            1 + max (true_height lr) (true_height rr) := by
          rw [true_height_update, true_height_node]
        have := rotate_left_spec a k m1 h1 (set_anc l (Anc.to a)) la lk m2 h2
          (set_anc ll (Anc.to la)) (set_anc (update (node ra rk rm rh lr rr (Anc.to a))) (Anc.to la))
          Anc.null Anc.null
        simp only [heightOK_set_anc, balanced_set_anc, true_height_set_anc, hth] at this
        have := this hl hll hin bl bll hbin (by omega) (by omega) (by omega) (by omega)
          (by omega) (by omega) (by omega)
        refine ⟨this.1, this.2.1, ?_, ?_, ?_⟩ <;> (try rw [this.2.2]) <;>
          simp only [true_height_node] <;> omega
  · -- right-heavy: single left rotation
    cases r with
    | null => simp only [true_height] at c1; omega
    | node ra rk rm rh rl rr ranc =>
      simp only [set_anc_node, balance_factor_node] at c2 ⊢
      rw [heightOK_node] at hr
      rw [balanced_node] at br
      rw [true_height_node] at c1 d1 d2 b2
      rw [get_height_eq hr.2.1, get_height_eq hr.2.2] at c2
      obtain ⟨-, hrl, hrr⟩ := hr
      obtain ⟨e1, e2, brl, brr⟩ := br
      have := rotate_left_spec a k m1 h1 (set_anc l (Anc.to a)) ra rk rm rh rl rr (Anc.to a)
        Anc.null
      simp only [heightOK_set_anc, balanced_set_anc, true_height_set_anc] at this
      have := this hl hrl hrr bl brl brr (by omega) (by omega) (by omega) (by omega)
        (by omega) (by omega) (by omega)
      refine ⟨this.1, this.2.1, ?_, ?_, ?_⟩ <;> (try rw [this.2.2]) <;>
        simp only [true_height_node] <;> omega
  · -- left-heavy, left child leans right: double rotation
    cases l with
    | null => simp only [true_height] at c3; omega
    | node la lk lm lh ll lr lanc =>
      simp only [set_anc_node, balance_factor_node] at c4 ⊢
      rw [heightOK_node] at hl
      rw [balanced_node] at bl
      rw [true_height_node] at c1 c3 d1 d2 b1
      rw [get_height_eq hl.2.1, get_height_eq hl.2.2] at c4
      cases lr with
      | null => simp only [true_height] at c4; omega
      | node ra rk rm rh rl rr ranc =>
        obtain ⟨m2, h2, hrot⟩ := rotate_left_shape la lk lm lh ll ra rk rm rh rl rr ranc (Anc.to a)
        rw [hrot]
        obtain ⟨-, hll, -, hrl, hrr⟩ := hl
        obtain ⟨e1, e2, bll, e3, e4, brl, brr⟩ := bl
        rw [true_height_node] at c1 c3 c4 d1 d2 b1 e1 e2
        have hin := heightOK_update la lk lm lh ll rl (Anc.to a) hll hrl (by omega) (by omega)
        have hbin : Balanced (update (node la lk lm lh ll rl (Anc.to a))) := by
          rw [balanced_update, balanced_node]
          exact ⟨by omega, by omega, bll, brl⟩
        have hth : true_height (update (node la lk lm lh ll rl (Anc.to a))) =
            1 + max (true_height ll) (true_height rl) := by
          rw [true_height_update, true_height_node]
        have := rotate_right_spec a k m1 h1 ra rk m2 h2
          (set_anc (update (node la lk lm lh ll rl (Anc.to a))) (Anc.to ra))
          (set_anc rr (Anc.to ra)) Anc.null (set_anc r (Anc.to a)) Anc.null
        simp only [heightOK_set_anc, balanced_set_anc, true_height_set_anc, hth] at this
        have := this hin hrr hr hbin brr br (by omega) (by omega) (by omega) (by omega)
          (by omega) (by omega) (by omega)
        refine ⟨this.1, this.2.1, ?_, ?_, ?_⟩ <;> (try rw [this.2.2]) <;>
          simp only [true_height_node] <;> omega
  · -- left-heavy: single right rotation
    cases l with
    | null => simp only [true_height] at c3; omega
    | node la lk lm lh ll lr lanc =>
      simp only [set_anc_node, balance_factor_node] at c4 ⊢
      rw [heightOK_node] at hl
      rw [balanced_node] at bl
      rw [true_height_node] at c1 c3 d1 d2 b1
      rw [get_height_eq hl.2.1, get_height_eq hl.2.2] at c4
      obtain ⟨-, hll, hlr⟩ := hl
      obtain ⟨e1, e2, bll, blr⟩ := bl
      have := rotate_right_spec a k m1 h1 la lk lm lh ll lr (Anc.to a) (set_anc r (Anc.to a))
        Anc.null
      simp only [heightOK_set_anc, balanced_set_anc, true_height_set_anc] at this
      have := this hll hlr hr bll blr br (by omega) (by omega) (by omega) (by omega)
        (by omega) (by omega) (by omega)
      refine ⟨this.1, this.2.1, ?_, ?_, ?_⟩ <;> (try rw [this.2.2]) <;>
        simp only [true_height_node] <;> omega
  · -- no rotation
    refine ⟨hu, ?_, ?_, ?_, ?_⟩
    · rw [balanced_node]
      simp only [true_height_set_anc, balanced_set_anc]
      exact ⟨by omega, by omega, bl, br⟩
    all_goals simp only [true_height_node, true_height_set_anc]
    all_goals omega

end Tree

namespace Tree

theorem find_min_cases (t : Tree α) (ht : t ≠ null) :
    ∃ na nk nm nh nr nanc, find_min t = node na nk nm nh null nr nanc := by
  induction t with
  | null => exact absurd rfl ht
  | node a k m h l r anc ihl _ =>
    cases l with
    | null => exact ⟨a, k, m, h, r, anc, rfl⟩
    | node la lk lm lh ll lr lanc => simpa [find_min] using ihl (by simp)

theorem avl_remove_min (t : Tree α) (ht : HeightOK t) (bt : Balanced t)
    (b : true_height t ≤ 254) :
    HeightOK (remove_min t) ∧ Balanced (remove_min t) ∧
      true_height (remove_min t) ≤ true_height t ∧
      true_height t ≤ true_height (remove_min t) + 1 := by
  induction t with
  | null => simp [remove_min, HeightOK, Balanced]
  | node a k m h l r anc ihl _ =>
    rw [heightOK_node] at ht
    rw [balanced_node] at bt
    rw [true_height_node] at b
    cases l with
    | null =>
      simp only [remove_min, true_height_node]
      simp only [true_height] at bt ⊢
      exact ⟨ht.2.2, bt.2.2.2, by omega, by omega⟩
    | node la lk lm lh ll lr lanc =>
      simp only [remove_min]
      obtain ⟨i1, i2, i3, i4⟩ := ihl ht.2.1 bt.2.2.1 (by omega)
      generalize remove_min (node la lk lm lh ll lr lanc) = l' at i1 i2 i3 i4 ⊢
      generalize node la lk lm lh ll lr lanc = l0 at *
      obtain ⟨j1, j2, j3, j4, j5⟩ := avl_balance a k m h l' r anc i1 ht.2.2 i2 bt.2.2.2
        (by omega) (by omega) (by omega) (by omega)
      refine ⟨j1, j2, ?_, ?_⟩ <;> rw [true_height_node]
      · by_cases hc : true_height r ≤ true_height l' + 1
        · rw [j5 (by omega) hc]; omega
        · omega
      · omega

/-- An AVL tree of height `h` has at least `fib (h + 2) - 1` nodes. -/
theorem fib_le_num_nodes (t : Tree α) (bt : Balanced t) :
    Nat.fib (true_height t + 2) ≤ num_nodes t + 1 := by
  induction t with
  | null =>
    show Nat.fib 2 ≤ 1
    decide
  | node a k m h l r anc ihl ihr =>
    rw [balanced_node] at bt
    obtain ⟨d1, d2, bl, br⟩ := bt
    have il := ihl bl
    have ir := ihr br
    rw [true_height_node]
    simp only [num_nodes]
    rcases le_total (true_height l) (true_height r) with hc | hc
    · rw [max_eq_right hc]
      have e : 1 + true_height r + 2 = (true_height r + 1) + 2 := by omega
      rw [e, Nat.fib_add_two]
      have : Nat.fib (true_height r + 1) ≤ Nat.fib (true_height l + 2) :=
        Nat.fib_mono (by omega)
      have e2 : true_height r + 1 + 1 = true_height r + 2 := by omega
      rw [e2]
      omega
    · rw [max_eq_left hc]
      have e : 1 + true_height l + 2 = (true_height l + 1) + 2 := by omega
      rw [e, Nat.fib_add_two]
      have : Nat.fib (true_height l + 1) ≤ Nat.fib (true_height r + 2) :=
        Nat.fib_mono (by omega)
      have e2 : true_height l + 1 + 1 = true_height l + 2 := by omega
      rw [e2]
      omega

theorem true_height_le_of_num_nodes (t : Tree α) (bt : Balanced t)
    (hn : num_nodes t < 2 ^ 64) : true_height t ≤ 91 := by
  have h1 := fib_le_num_nodes t bt
  by_contra hc
  have h2 : Nat.fib 94 ≤ Nat.fib (true_height t + 2) := Nat.fib_mono (by omega)
  have h3 : 2 ^ 64 < Nat.fib 94 := by decide
  omega

variable [LinearOrder α]

theorem avl_insert (t : Tree α) (k : α) (sz : Nat) (fresh : Addr)
    (ht : HeightOK t) (bt : Balanced t) (b : true_height t ≤ 254) :
    HeightOK (insert t k sz fresh).1 ∧ Balanced (insert t k sz fresh).1 ∧
      true_height t ≤ true_height (insert t k sz fresh).1 ∧
      true_height (insert t k sz fresh).1 ≤ true_height t + 1 := by
  induction t with
  | null => simp [insert, new_node, HeightOK, Balanced, true_height]
  | node a key m h l r anc ihl ihr =>
    have ht' := ht
    have bt' := bt
    rw [heightOK_node] at ht
    rw [balanced_node] at bt
    rw [true_height_node] at b ⊢
    simp only [insert]
    split_ifs with c1 c2
    · dsimp only
      obtain ⟨i1, i2, i3, i4⟩ := ihl ht.2.1 bt.2.2.1 (by omega)
      generalize (insert l k sz fresh).1 = l' at i1 i2 i3 i4 ⊢
      obtain ⟨j1, j2, j3, j4, j5⟩ := avl_balance a key m h l' r anc i1 ht.2.2 i2 bt.2.2.2
        (by omega) (by omega) (by omega) (by omega)
      refine ⟨j1, j2, ?_, ?_⟩
      · by_cases hc : true_height l' ≤ true_height r + 1
        · rw [j5 hc (by omega)]; omega
        · omega
      · by_cases hc : true_height l' ≤ true_height r + 1
        · rw [j5 hc (by omega)]; omega
        · omega
    · dsimp only
      obtain ⟨i1, i2, i3, i4⟩ := ihr ht.2.2 bt.2.2.2 (by omega)
      generalize (insert r k sz fresh).1 = r' at i1 i2 i3 i4 ⊢
      obtain ⟨j1, j2, j3, j4, j5⟩ := avl_balance a key m h l r' anc ht.2.1 i1 bt.2.2.1 i2
        (by omega) (by omega) (by omega) (by omega)
      refine ⟨j1, j2, ?_, ?_⟩
      · by_cases hc : true_height r' ≤ true_height l + 1
        · rw [j5 (by omega) hc]; omega
        · omega
      · by_cases hc : true_height r' ≤ true_height l + 1
        · rw [j5 (by omega) hc]; omega
        · omega
    · exact ⟨ht', bt', by rw [true_height_node], by rw [true_height_node]; omega⟩

theorem avl_remove (t : Tree α) (k : α) (sz : Nat)
    (ht : HeightOK t) (bt : Balanced t) (b : true_height t ≤ 254) :
    HeightOK (remove t k sz).1 ∧ Balanced (remove t k sz).1 ∧
      true_height (remove t k sz).1 ≤ true_height t ∧
      true_height t ≤ true_height (remove t k sz).1 + 1 := by
  induction t with
  | null => simp [remove, HeightOK, Balanced]
  | node a key m h l r anc ihl ihr =>
    rw [heightOK_node] at ht
    rw [balanced_node] at bt
    rw [true_height_node] at b ⊢
    simp only [remove]
    split_ifs with c1 c2
    · dsimp only
      obtain ⟨i1, i2, i3, i4⟩ := ihl ht.2.1 bt.2.2.1 (by omega)
      generalize (remove l k sz).1 = l' at i1 i2 i3 i4 ⊢
      obtain ⟨j1, j2, j3, j4, j5⟩ := avl_balance a key m h l' r anc i1 ht.2.2 i2 bt.2.2.2
        (by omega) (by omega) (by omega) (by omega)
      refine ⟨j1, j2, ?_, ?_⟩
      · by_cases hc : true_height r ≤ true_height l' + 1
        · rw [j5 (by omega) hc]; omega
        · omega
      · omega
    · dsimp only
      obtain ⟨i1, i2, i3, i4⟩ := ihr ht.2.2 bt.2.2.2 (by omega)
      generalize (remove r k sz).1 = r' at i1 i2 i3 i4 ⊢
      obtain ⟨j1, j2, j3, j4, j5⟩ := avl_balance a key m h l r' anc ht.2.1 i1 bt.2.2.1 i2
        (by omega) (by omega) (by omega) (by omega)
      refine ⟨j1, j2, ?_, ?_⟩
      · by_cases hc : true_height l ≤ true_height r' + 1
        · rw [j5 hc (by omega)]; omega
        · omega
      · omega
    · cases r with
      | null =>
        dsimp only
        simp only [true_height] at bt ⊢
        exact ⟨ht.2.1, bt.2.2.1, by omega, by omega⟩
      | node ra rk rm rh rl rr ranc =>
        dsimp only
        obtain ⟨na, nk, nm, nh, nr, nanc, hmin⟩ :=
          find_min_cases (node ra rk rm rh rl rr ranc) (by simp)
        rw [hmin]
        dsimp only
        obtain ⟨i1, i2, i3, i4⟩ := avl_remove_min (node ra rk rm rh rl rr ranc) ht.2.2 bt.2.2.2
          (by omega)
        generalize remove_min (node ra rk rm rh rl rr ranc) = r' at i1 i2 i3 i4 ⊢
        generalize node ra rk rm rh rl rr ranc = r0 at *
        obtain ⟨j1, j2, j3, j4, j5⟩ := avl_balance na nk nm nh l r' nanc ht.2.1 i1 bt.2.2.1 i2
          (by omega) (by omega) (by omega) (by omega)
        refine ⟨j1, j2, ?_, ?_⟩
        · by_cases hc : true_height l ≤ true_height r' + 1
          · rw [j5 hc (by omega)]; omega
          · omega
        · omega

end Tree

namespace Tree

/-! ## The size counter -/

section size
variable [LinearOrder α]

theorem mem_left_of_lt {l r : List α} {key k : α} (hr : ∀ x ∈ r, key < x) (h : k < key) :
    k ∈ l ++ key :: r ↔ k ∈ l := by
  simp only [List.mem_append, List.mem_cons]
  constructor
  · rintro (h1 | rfl | h1)
    · exact h1
    · exact absurd h (lt_irrefl _)
    · exact absurd (lt_trans h (hr k h1)) (lt_irrefl _)
  · exact Or.inl

theorem mem_right_of_lt {l r : List α} {key k : α} (hl : ∀ x ∈ l, x < key) (h : key < k) :
    k ∈ l ++ key :: r ↔ k ∈ r := by
  simp only [List.mem_append, List.mem_cons]
  constructor
  · rintro (h1 | rfl | h1)
    · exact absurd (lt_trans h (hl k h1)) (lt_irrefl _)
    · exact absurd h (lt_irrefl _)
    · exact h1
  · exact fun h1 => Or.inr (Or.inr h1)

theorem pairwise_node {l r : List α} {key : α} (h : (l ++ key :: r).Pairwise (· < ·)) :
    l.Pairwise (· < ·) ∧ r.Pairwise (· < ·) ∧ (∀ x ∈ l, x < key) ∧ (∀ x ∈ r, key < x) := by
  simp only [List.pairwise_append, List.pairwise_cons, List.mem_cons] at h
  exact ⟨h.1, h.2.1.2, fun x hx => h.2.2 x hx key (Or.inl rfl), h.2.1.1⟩

theorem insert_snd (t : Tree α) (k : α) (sz : Nat) (fresh : Addr)
    (ho : (inorder t).Pairwise (· < ·)) :
    (insert t k sz fresh).2 = if k ∈ inorder t then sz else (sz + 1) % 2 ^ 64 := by
  induction t with
  | null => simp [insert]
  | node a key m h l r anc ihl ihr =>
    rw [inorder_node] at ho ⊢
    obtain ⟨pl, pr, hl, hr⟩ := pairwise_node ho
    simp only [insert]
    by_cases c1 : k < key
    · rw [if_pos c1]
      dsimp only
      rw [ihl pl]
      simp only [mem_left_of_lt hr c1]
    · rw [if_neg c1]
      by_cases c2 : key < k
      · rw [if_pos c2]
        dsimp only
        rw [ihr pr]
        simp only [mem_right_of_lt hl c2]
      · rw [if_neg c2]
        have hk : k = key := le_antisymm (not_lt.mp c2) (not_lt.mp c1)
        subst hk
        rw [if_pos (by simp)]

theorem remove_snd (t : Tree α) (k : α) (sz : Nat)
    (ho : (inorder t).Pairwise (· < ·)) :
    (remove t k sz).2 = if k ∈ inorder t then (sz + (2 ^ 64 - 1)) % 2 ^ 64 else sz := by
  induction t with
  | null => simp [remove]
  | node a key m h l r anc ihl ihr =>
    rw [inorder_node] at ho ⊢
    obtain ⟨pl, pr, hl, hr⟩ := pairwise_node ho
    simp only [remove]
    by_cases c1 : k < key
    · rw [if_pos c1]
      dsimp only
      rw [ihl pl]
      simp only [mem_left_of_lt hr c1]
    · rw [if_neg c1]
      by_cases c2 : key < k
      · rw [if_pos c2]
        dsimp only
        rw [ihr pr]
        simp only [mem_right_of_lt hl c2]
      · rw [if_neg c2]
        have hk : k = key := le_antisymm (not_lt.mp c2) (not_lt.mp c1)
        subst hk
        rw [if_pos (by simp)]
        cases r with
        | null => rfl
        | node ra rk rm rh rl rr ranc =>
          dsimp only
          split <;> rfl

end size

end Tree

namespace Tree

/-! ## Shape and fields apart from `anc` -/

theorem true_height_strip_anc (t : Tree α) : true_height (strip_anc t) = true_height t := by
  induction t with
  | null => rfl
  | node a k m h l r anc ihl ihr => simp only [strip_anc, true_height, ihl, ihr]

theorem inorder_strip_anc (t : Tree α) : inorder (strip_anc t) = inorder t := by
  induction t with
  | null => rfl
  | node a k m h l r anc ihl ihr => simp only [strip_anc, inorder, ihl, ihr]

theorem true_height_eq_of_strip {t t' : Tree α} (h : strip_anc t' = strip_anc t) :
    true_height t' = true_height t := by
  rw [← true_height_strip_anc t', h, true_height_strip_anc]

theorem inorder_eq_of_strip {t t' : Tree α} (h : strip_anc t' = strip_anc t) :
    inorder t' = inorder t := by
  rw [← inorder_strip_anc t', h, inorder_strip_anc]

/-- On a node that already satisfies the height, balance and maximum
invariants, `balance` changes nothing but `anc` fields. -/
theorem strip_anc_balance (a : Addr) (k m : α) (h : Nat) (l r : Tree α) (anc : Anc)
    (ht : HeightOK (node a k m h l r anc)) (bt : Balanced (node a k m h l r anc))
    (mt : MaxLast (node a k m h l r anc)) (b : true_height (node a k m h l r anc) ≤ 255) :
    strip_anc (balance (node a k m h l r anc)) = strip_anc (node a k m h l r anc) := by
  rw [heightOK_node] at ht
  rw [balanced_node] at bt
  rw [true_height_node] at b
  obtain ⟨h0, hl, hr⟩ := ht
  have e1 : update (node a k m h l r anc) =
      node a k m h (set_anc l (Anc.to a)) (set_anc r (Anc.to a)) Anc.null := by
    simp only [update, get_height_eq hl, get_height_eq hr]
    congr 1
    · cases r with
      | null =>
        have := mt.1
        simp only [inorder_null, List.getLast?_append_of_ne_nil _ (List.cons_ne_nil k []),
          List.getLast?_singleton, Option.some.injEq] at this
        exact this
      | node ra rk rm rh rl rr ranc =>
        have h1 := mt.1
        have h2 := mt.2.2.1
        rw [getLast?_append_cons, inorder_node, ← List.cons_append, getLast?_append_cons,
          ← getLast?_append_cons (inorder rl), h2] at h1
        exact Option.some.inj h1
    · split_ifs <;> omega
  unfold balance
  rw [e1]
  simp only [balance_factor_node, get_height_set_anc, get_height_eq hl, get_height_eq hr]
  rw [if_neg (by omega), if_neg (by omega)]
  simp only [strip_anc, strip_anc_set_anc]

/-! ## Addresses -/

@[simp] theorem addrs_update (t : Tree α) : addrs (update t) = addrs t := by
  cases t <;> simp [update, addrs]

@[simp] theorem addrs_rotate_right (t : Tree α) : addrs (rotate_right t) = addrs t := by
  unfold rotate_right
  split <;> simp [addrs]

@[simp] theorem addrs_rotate_left (t : Tree α) : addrs (rotate_left t) = addrs t := by
  unfold rotate_left
  split <;> simp [addrs]

@[simp] theorem addrs_balance (t : Tree α) : addrs (balance t) = addrs t := by
  unfold balance
  split
  · rename_i h
    rw [← addrs_update t, h]
  · rename_i a k m h l r anc heq
    rw [← addrs_update t, heq]
    split_ifs <;> simp [addrs]

theorem addrs_node (a : Addr) (k m : α) (h : Nat) (l r : Tree α) (anc : Anc) :
    addrs (node a k m h l r anc) = addrs l ++ a :: addrs r := rfl

theorem ptr_find_min (t : Tree α) : (find_min t).ptr = (addrs t).head? := by
  induction t with
  | null => rfl
  | node a k m h l r anc ihl _ =>
    cases l with
    | null => simp [find_min, ptr, addrs]
    | node la lk lm lh ll lr lanc =>
      simp only [find_min, ihl]
      simp [addrs]

theorem addrs_remove_min (t : Tree α) : addrs (remove_min t) = (addrs t).tail := by
  induction t with
  | null => rfl
  | node a k m h l r anc ihl _ =>
    cases l with
    | null => simp [remove_min, addrs]
    | node la lk lm lh ll lr lanc =>
      simp only [remove_min, addrs_balance, addrs_node, ihl]
      simpa using tail_append_cons (addrs ll) la (addrs lr) (a :: addrs r)

variable [LinearOrder α]

theorem mem_addrs_insert (t : Tree α) (k : α) (sz : Nat) (fresh x : Addr)
    (hx : x ∈ addrs (insert t k sz fresh).1) : x = fresh ∨ x ∈ addrs t := by
  induction t with
  | null => simpa [insert, new_node, addrs] using hx
  | node a key m h l r anc ihl ihr =>
    simp only [insert] at hx
    split_ifs at hx
    · simp only [addrs_balance, addrs_node, List.mem_append, List.mem_cons] at hx ⊢
      rcases hx with h1 | h1 | h1
      · rcases ihl h1 with h2 | h2
        · exact Or.inl h2
        · exact Or.inr (Or.inl h2)
      · exact Or.inr (Or.inr (Or.inl h1))
      · exact Or.inr (Or.inr (Or.inr h1))
    · simp only [addrs_balance, addrs_node, List.mem_append, List.mem_cons] at hx ⊢
      rcases hx with h1 | h1 | h1
      · exact Or.inr (Or.inl h1)
      · exact Or.inr (Or.inr (Or.inl h1))
      · rcases ihr h1 with h2 | h2
        · exact Or.inl h2
        · exact Or.inr (Or.inr (Or.inr h2))
    · exact Or.inr hx

theorem nodup_addrs_insert (t : Tree α) (k : α) (sz : Nat) (fresh : Addr)
    (hn : (addrs t).Nodup) (hf : fresh ∉ addrs t) : (addrs (insert t k sz fresh).1).Nodup := by
  induction t with
  | null => simp [insert, new_node, addrs]
  | node a key m h l r anc ihl ihr =>
    rw [addrs_node] at hn hf
    simp only [List.mem_append, List.mem_cons, not_or] at hf
    have hn' := hn
    rw [List.nodup_append] at hn'
    obtain ⟨nl, nr, dj⟩ := hn'
    rw [List.nodup_cons] at nr
    simp only [insert]
    split_ifs
    · simp only [addrs_balance, addrs_node]
      rw [List.nodup_append]
      refine ⟨ihl nl hf.1, List.nodup_cons.mpr nr, ?_⟩
      intro x hx hx'
      rcases mem_addrs_insert l k sz fresh x hx with h1 | h1
      · subst h1
        simp only [List.mem_cons] at hx'
        rcases hx' with h2 | h2
        · exact hf.2.1 h2
        · exact hf.2.2 h2
      · exact dj h1 hx'
    · simp only [addrs_balance, addrs_node]
      rw [List.nodup_append]
      refine ⟨nl, List.nodup_cons.mpr ⟨?_, ihr nr.2 hf.2.2⟩, ?_⟩
      · intro hx
        rcases mem_addrs_insert r k sz fresh a hx with h1 | h1
        · exact hf.2.1 h1.symm
        · exact nr.1 h1
      · intro x hx hx'
        simp only [List.mem_cons] at hx'
        rcases hx' with h2 | h2
        · exact dj hx (by simp [h2])
        · rcases mem_addrs_insert r k sz fresh x h2 with h1 | h1
          · subst h1
            exact hf.1 hx
          · exact dj hx (by simp [h1])
    · exact hn

theorem sublist_addrs_remove (t : Tree α) (k : α) (sz : Nat) :
    (addrs (remove t k sz).1).Sublist (addrs t) := by
  induction t with
  | null => simp [remove]
  | node a key m h l r anc ihl ihr =>
    simp only [remove]
    split_ifs
    · simp only [addrs_balance, addrs_node]
      exact List.Sublist.append ihl (List.Sublist.refl _)
    · simp only [addrs_balance, addrs_node]
      exact List.Sublist.append (List.Sublist.refl _) (List.Sublist.cons₂ _ ihr)
    · cases r with
      | null =>
        dsimp only
        rw [addrs_node]
        exact List.sublist_append_left _ _
      | node ra rk rm rh rl rr ranc =>
        dsimp only
        have hp := ptr_find_min (node ra rk rm rh rl rr ranc)
        have htl := addrs_remove_min (node ra rk rm rh rl rr ranc)
        have hne := find_min_ne_null (node ra rk rm rh rl rr ranc) (by simp)
        generalize find_min (node ra rk rm rh rl rr ranc) = mn at hp hne ⊢
        generalize remove_min (node ra rk rm rh rl rr ranc) = rest at htl ⊢
        rw [addrs_node a]
        generalize addrs (node ra rk rm rh rl rr ranc) = xs at hp htl
        cases mn with
        | null => exact absurd rfl hne
        | node na nk nm nh nl nr nanc =>
          dsimp only
          rw [addrs_balance, addrs_node, htl]
          cases xs with
          | nil => simp [ptr] at hp
          | cons y ys =>
            simp only [ptr, List.head?_cons, Option.some.injEq] at hp
            subst hp
            simp only [List.tail_cons]
            exact List.Sublist.append (List.Sublist.refl _) (List.Sublist.cons _ (List.Sublist.refl _))

end Tree

namespace Tree

/-! ## Nodes of a tree -/

theorem nodes_node (a : Addr) (k m : α) (h : Nat) (l r : Tree α) (anc : Anc) :
    nodes (node a k m h l r anc) = nodes l ++ node a k m h l r anc :: nodes r := rfl

theorem mem_nodes_node {a : Addr} {k m : α} {h : Nat} {l r : Tree α} {anc : Anc} {n : Tree α} :
    n ∈ nodes (node a k m h l r anc) ↔
      n ∈ nodes l ∨ n = node a k m h l r anc ∨ n ∈ nodes r := by
  rw [nodes_node, List.mem_append, List.mem_cons]

theorem ne_null_of_mem_nodes {t n : Tree α} (hn : n ∈ nodes t) : n ≠ null := by
  induction t with
  | null => simp [nodes] at hn
  | node a k m h l r anc ihl ihr =>
    rcases mem_nodes_node.mp hn with h1 | h1 | h1
    · exact ihl h1
    · rw [h1]; simp
    · exact ihr h1

theorem self_mem_nodes (a : Addr) (k m : α) (h : Nat) (l r : Tree α) (anc : Anc) :
    node a k m h l r anc ∈ nodes (node a k m h l r anc) :=
  mem_nodes_node.mpr (Or.inr (Or.inl rfl))

theorem balanced_of_mem_nodes {t n : Tree α} (bt : Balanced t) (hn : n ∈ nodes t) :
    Balanced n := by
  induction t with
  | null => simp [nodes] at hn
  | node a k m h l r anc ihl ihr =>
    rcases mem_nodes_node.mp hn with h1 | h1 | h1
    · exact ihl bt.2.2.1 h1
    · rw [h1]; exact bt
    · exact ihr bt.2.2.2 h1

theorem heightOK_of_mem_nodes {t n : Tree α} (ht : HeightOK t) (hn : n ∈ nodes t) :
    HeightOK n := by
  induction t with
  | null => simp [nodes] at hn
  | node a k m h l r anc ihl ihr =>
    rcases mem_nodes_node.mp hn with h1 | h1 | h1
    · exact ihl ht.2.1 h1
    · rw [h1]; exact ht
    · exact ihr ht.2.2 h1

theorem maxLast_of_mem_nodes {t n : Tree α} (ht : MaxLast t) (hn : n ∈ nodes t) :
    MaxLast n := by
  induction t with
  | null => simp [nodes] at hn
  | node a k m h l r anc ihl ihr =>
    rcases mem_nodes_node.mp hn with h1 | h1 | h1
    · exact ihl ht.2.1 h1
    · rw [h1]; exact ht
    · exact ihr ht.2.2 h1

theorem ptr_mem_addrs {t n : Tree α} (hn : n ∈ nodes t) {p : Addr} (hp : n.ptr = some p) :
    p ∈ addrs t := by
  induction t with
  | null => simp [nodes] at hn
  | node a k m h l r anc ihl ihr =>
    rw [addrs_node, List.mem_append, List.mem_cons]
    rcases mem_nodes_node.mp hn with h1 | h1 | h1
    · exact Or.inl (ihl h1)
    · rw [h1] at hp
      simp only [ptr, Option.some.injEq] at hp
      exact Or.inr (Or.inl hp.symm)
    · exact Or.inr (Or.inr (ihr h1))

theorem key_mem_inorder {t n : Tree α} (hn : n ∈ nodes t) {x : α} (hx : n.key? = some x) :
    x ∈ inorder t := by
  induction t with
  | null => simp [nodes] at hn
  | node a k m h l r anc ihl ihr =>
    rw [inorder_node, List.mem_append, List.mem_cons]
    rcases mem_nodes_node.mp hn with h1 | h1 | h1
    · exact Or.inl (ihl h1)
    · rw [h1] at hx
      simp only [key?, Option.some.injEq] at hx
      exact Or.inr (Or.inl hx.symm)
    · exact Or.inr (Or.inr (ihr h1))

theorem pairwise_of_mem_nodes [LinearOrder α] {t n : Tree α}
    (ho : (inorder t).Pairwise (· < ·)) (hn : n ∈ nodes t) :
    (inorder n).Pairwise (· < ·) := by
  induction t with
  | null => simp [nodes] at hn
  | node a k m h l r anc ihl ihr =>
    obtain ⟨pl, pr, -, -⟩ := pairwise_node ho
    rcases mem_nodes_node.mp hn with h1 | h1 | h1
    · exact ihl pl h1
    · rw [h1]; exact ho
    · exact ihr pr h1

/-! ## Resolving an address -/

theorem deref_eq_none (t : Tree α) (p : Addr) (hp : p ∉ addrs t) : deref t p = none := by
  induction t with
  | null => rfl
  | node a k m h l r anc ihl ihr =>
    rw [addrs_node, List.mem_append, List.mem_cons] at hp
    push_neg at hp
    simp only [deref]
    rw [if_neg (fun h => hp.2.1 h.symm), ihl hp.1, ihr hp.2.2]

theorem deref_of_mem_nodes (t : Tree α) (hd : (addrs t).Nodup) {n : Tree α} (hn : n ∈ nodes t)
    {p : Addr} (hp : n.ptr = some p) : deref t p = some n := by
  induction t with
  | null => simp [nodes] at hn
  | node a k m h l r anc ihl ihr =>
    rw [addrs_node, List.nodup_append] at hd
    obtain ⟨nl, nr, dj⟩ := hd
    rw [List.nodup_cons] at nr
    simp only [deref]
    rcases mem_nodes_node.mp hn with h1 | h1 | h1
    · have hpl := ptr_mem_addrs h1 hp
      rw [if_neg (fun h => dj hpl (by simp [h])), ihl nl h1]
    · subst h1
      simp only [ptr, Option.some.injEq] at hp
      rw [if_pos hp]
    · have hpr := ptr_mem_addrs h1 hp
      have hpl : p ∉ addrs l := fun h => dj h (by simp [hpr])
      have hne : ¬ a = p := fun h => nr.1 (by rw [h]; exact hpr)
      rw [if_neg hne, deref_eq_none l p hpl, ihr nr.2 h1]

/-! ## Searches return nodes of the tree -/

theorem find_max_mem_nodes (t : Tree α) (ht : t ≠ null) : find_max t ∈ nodes t := by
  induction t with
  | null => exact absurd rfl ht
  | node a k m h l r anc _ ihr =>
    cases r with
    | null => simp [find_max, nodes]
    | node ra rk rm rh rl rr ranc =>
      simp only [find_max]
      exact mem_nodes_node.mpr (Or.inr (Or.inr (ihr (by simp))))

theorem find_min_mem_nodes (t : Tree α) (ht : t ≠ null) : find_min t ∈ nodes t := by
  induction t with
  | null => exact absurd rfl ht
  | node a k m h l r anc ihl _ =>
    cases l with
    | null => simp [find_min, nodes]
    | node la lk lm lh ll lr lanc =>
      simp only [find_min]
      exact mem_nodes_node.mpr (Or.inl (ihl (by simp)))

variable [LinearOrder α]

theorem find_node_spec (t : Tree α) (e : α) (ho : (inorder t).Pairwise (· < ·)) :
    (e ∈ inorder t → find_node t e ∈ nodes t ∧ (find_node t e).key? = some e) ∧
    (e ∉ inorder t → find_node t e = null) := by
  induction t with
  | null => simp [find_node]
  | node a k m h l r anc ihl ihr =>
    rw [inorder_node] at ho ⊢
    obtain ⟨pl, pr, hl, hr⟩ := pairwise_node ho
    simp only [find_node]
    by_cases c1 : e < k
    · rw [if_pos c1, mem_left_of_lt hr c1]
      exact ⟨fun h1 => ⟨mem_nodes_node.mpr (Or.inl ((ihl pl).1 h1).1), ((ihl pl).1 h1).2⟩,
        (ihl pl).2⟩
    · rw [if_neg c1]
      by_cases c2 : k < e
      · rw [if_pos c2, mem_right_of_lt hl c2]
        exact ⟨fun h1 => ⟨mem_nodes_node.mpr (Or.inr (Or.inr ((ihr pr).1 h1).1)),
          ((ihr pr).1 h1).2⟩, (ihr pr).2⟩
      · rw [if_neg c2]
        have hk : e = k := le_antisymm (not_lt.mp c2) (not_lt.mp c1)
        subst hk
        exact ⟨fun _ => ⟨self_mem_nodes _ _ _ _ _ _ _, rfl⟩, fun h1 => absurd (by simp) h1⟩

theorem find_append_of_forall_lt (xs ys : List α) (q : α) (h : ∀ x ∈ xs, x < q) :
    (xs ++ ys).find? (fun e => decide (¬ e < q)) = ys.find? (fun e => decide (¬ e < q)) := by
  induction xs with
  | nil => rfl
  | cons x xs ih =>
    rw [List.cons_append, List.find?_cons_of_neg]
    · exact ih (fun y hy => h y (List.mem_cons_of_mem _ hy))
    · simpa using h x (List.mem_cons_self _ _)

theorem find_append_of_exists (xs ys : List α) (q : α) (h : ∃ x ∈ xs, ¬ x < q) :
    (xs ++ ys).find? (fun e => decide (¬ e < q)) = xs.find? (fun e => decide (¬ e < q)) := by
  induction xs with
  | nil => simp at h
  | cons x xs ih =>
    rw [List.cons_append]
    by_cases c : x < q
    · rw [List.find?_cons_of_neg _ (by simpa using c), List.find?_cons_of_neg _ (by simpa using c)]
      obtain ⟨y, hy, hyq⟩ := h
      rcases List.mem_cons.mp hy with rfl | hy'
      · exact absurd c hyq
      · exact ih ⟨y, hy', hyq⟩
    · rw [List.find?_cons_of_pos _ (by simpa using c), List.find?_cons_of_pos _ (by simpa using c)]

/-- The node `lower_bound_node` returns holds the first key, in in-order,
that is not below the query; it returns `nullptr` when there is none. -/
theorem lower_bound_node_spec (t : Tree α) (q : α) (ho : (inorder t).Pairwise (· < ·))
    (hm : MaxLast t) :
    (lower_bound_node t q).key? = (inorder t).find? (fun e => decide (¬ e < q)) ∧
    (lower_bound_node t q = null ∨ lower_bound_node t q ∈ nodes t) := by
  induction t with
  | null => simp [lower_bound_node, key?]
  | node a k m h l r anc ihl ihr =>
    rw [inorder_node] at ho ⊢
    obtain ⟨pl, pr, hl, hr⟩ := pairwise_node ho
    have right_case : k < q →
        (lower_bound_node r q).key? =
          (inorder l ++ k :: inorder r).find? (fun e => decide (¬ e < q)) ∧
        (lower_bound_node r q = null ∨
          lower_bound_node r q ∈ nodes (node a k m h l r anc)) := by
      intro c1
      rw [find_append_of_forall_lt _ _ _ (fun x hx => lt_trans (hl x hx) c1),
        List.find?_cons_of_neg _ (by simpa using c1)]
      refine ⟨(ihr pr hm.2.2).1, ?_⟩
      rcases (ihr pr hm.2.2).2 with h1 | h1
      · exact Or.inl h1
      · exact Or.inr (mem_nodes_node.mpr (Or.inr (Or.inr h1)))
    cases l with
    | null =>
      simp only [lower_bound_node]
      by_cases c1 : k < q
      · rw [if_pos c1]
        exact right_case c1
      · rw [if_neg c1]
        refine ⟨?_, Or.inr (self_mem_nodes _ _ _ _ _ _ _)⟩
        rw [inorder_null, List.nil_append, List.find?_cons_of_pos _ (by simpa using c1)]
        rfl
    | node la lk lm lh ll lr lanc =>
      simp only [lower_bound_node]
      by_cases c1 : k < q
      · rw [if_pos c1]
        exact right_case c1
      · rw [if_neg c1]
        have hmax := maxOK_of_maxLast _ pl hm.2.1
        obtain ⟨⟨hmem, hle⟩, -, -⟩ := hmax
        rw [← inorder_node la lk lm lh ll lr lanc] at hmem hle
        by_cases c2 : lm < q
        · rw [if_pos c2]
          refine ⟨?_, Or.inr (self_mem_nodes _ _ _ _ _ _ _)⟩
          rw [find_append_of_forall_lt _ _ _ (fun x hx => lt_of_le_of_lt (hle x hx) c2),
            List.find?_cons_of_pos _ (by simpa using c1)]
          rfl
        · rw [if_neg c2, find_append_of_exists _ _ _ ⟨lm, hmem, c2⟩]
          refine ⟨(ihl pl hm.2.1).1, ?_⟩
          rcases (ihl pl hm.2.1).2 with h1 | h1
          · exact Or.inl h1
          · exact Or.inr (mem_nodes_node.mpr (Or.inl h1))

end Tree

namespace Tree
variable [LinearOrder α]

/-- Erasing an absent key from a tree that satisfies the invariants changes
nothing but `anc` fields. -/
theorem strip_anc_remove_absent (t : Tree α) (k : α) (sz : Nat)
    (ho : (inorder t).Pairwise (· < ·)) (ht : HeightOK t) (bt : Balanced t) (mt : MaxLast t)
    (b : true_height t ≤ 254) (hk : k ∉ inorder t) :
    strip_anc (remove t k sz).1 = strip_anc t := by
  induction t with
  | null => rfl
  | node a key m h l r anc ihl ihr =>
    have ho' := ho
    rw [inorder_node] at ho' hk
    obtain ⟨pl, pr, hl, hr⟩ := pairwise_node ho'
    have ht' := ht
    have bt' := bt
    rw [heightOK_node] at ht'
    rw [balanced_node] at bt'
    have b' := b
    rw [true_height_node] at b'
    simp only [remove]
    by_cases c1 : k < key
    · rw [if_pos c1]
      dsimp only
      have hkl : k ∉ inorder l := fun h => hk (List.mem_append_left _ h)
      have ih := ihl pl ht'.2.1 bt'.2.2.1 mt.2.1 (by omega) hkl
      obtain ⟨i1, i2, -, -⟩ := avl_remove l k sz ht'.2.1 bt'.2.2.1 (by omega)
      have i3 := maxLast_remove l k sz mt.2.1
      have eh := true_height_eq_of_strip ih
      have ei := inorder_eq_of_strip ih
      generalize (remove l k sz).1 = l' at ih i1 i2 i3 eh ei
      rw [strip_anc_balance]
      · simp only [strip_anc, ih]
      · rw [heightOK_node, eh]; exact ⟨ht'.1, i1, ht'.2.2⟩
      · rw [balanced_node, eh]; exact ⟨bt'.1, bt'.2.1, i2, bt'.2.2.2⟩
      · exact maxLast_congr_left mt i3 ei
      · rw [true_height_node, eh]; omega
    · rw [if_neg c1]
      by_cases c2 : key < k
      · rw [if_pos c2]
        dsimp only
        have hkr : k ∉ inorder r := fun h => hk (List.mem_append_right _ (List.mem_cons_of_mem _ h))
        have ih := ihr pr ht'.2.2 bt'.2.2.2 mt.2.2 (by omega) hkr
        obtain ⟨i1, i2, -, -⟩ := avl_remove r k sz ht'.2.2 bt'.2.2.2 (by omega)
        have i3 := maxLast_remove r k sz mt.2.2
        have eh := true_height_eq_of_strip ih
        have ei := inorder_eq_of_strip ih
        generalize (remove r k sz).1 = r' at ih i1 i2 i3 eh ei
        rw [strip_anc_balance]
        · simp only [strip_anc, ih]
        · rw [heightOK_node, eh]; exact ⟨ht'.1, ht'.2.1, i1⟩
        · rw [balanced_node, eh]; exact ⟨bt'.1, bt'.2.1, bt'.2.2.1, i2⟩
        · exact maxLast_congr_right mt i3 ei
        · rw [true_height_node, eh]; omega
      · have hkk : k = key := le_antisymm (not_lt.mp c2) (not_lt.mp c1)
        exact absurd (by simp [hkk]) hk

theorem length_inorder_insert_le (t : Tree α) (k : α) (sz : Nat) (fresh : Addr) :
    (inorder (insert t k sz fresh).1).length ≤ (inorder t).length + 1 := by
  induction t with
  | null => simp [insert, new_node]
  | node a key m h l r anc ihl ihr =>
    simp only [insert]
    split_ifs
    · simp only [inorder_balance, inorder_node, List.length_append, List.length_cons]
      omega
    · simp only [inorder_balance, inorder_node, List.length_append, List.length_cons]
      omega
    · dsimp only
      omega

end Tree

/-! ## Invariants of every reachable set -/

section reach
variable [LinearOrder α]

theorem run_nil : run ([] : List (Op α)) = Set.empty_set := rfl

theorem run_append_singleton (ops : List (Op α)) (op : Op α) :
    run (ops ++ [op]) = (run ops).apply op := by
  simp [run, List.foldl_append]

/-- Ordering, cached maxima and addresses hold after any calls whatsoever. -/
theorem run_ordered (ops : List (Op α)) :
    ((run ops).root.inorder).Pairwise (· < ·) ∧ (run ops).root.MaxLast ∧
      ((run ops).root.addrs).Nodup ∧ ∀ p ∈ (run ops).root.addrs, p < (run ops).next_addr := by
  induction ops using List.reverseRecOn with
  | nil => simp [run_nil, Set.empty_set, Tree.MaxLast, Tree.addrs]
  | append_singleton ops op ih =>
    obtain ⟨i1, i2, i3, i4⟩ := ih
    rw [run_append_singleton]
    cases op with
    | insert e =>
      simp only [Set.apply, Set.insert]
      refine ⟨Tree.pairwise_inorder_insert _ _ _ _ i1, Tree.maxLast_insert _ _ _ _ i2,
        Tree.nodup_addrs_insert _ _ _ _ i3 (fun h => lt_irrefl _ (i4 _ h)), ?_⟩
      intro p hp
      show p < (run ops).next_addr + 1
      rcases Tree.mem_addrs_insert _ _ _ _ _ hp with h1 | h1
      · rw [h1]
        exact Nat.lt_succ_self _
      · exact Nat.lt_succ_of_lt (i4 p h1)
    | erase e =>
      simp only [Set.apply, Set.erase]
      have hs := Tree.sublist_addrs_remove (run ops).root e (run ops).size_
      refine ⟨?_, Tree.maxLast_remove _ _ _ i2, hs.nodup i3, fun p hp => i4 p (hs.subset hp)⟩
      rw [Tree.inorder_remove _ _ _ i1]
      exact i1.sublist (List.filter_sublist _)

theorem run_keys (ops : List (Op α)) : ((run ops).root.inorder).toFinset = live_keys ops := by
  induction ops using List.reverseRecOn with
  | nil => rfl
  | append_singleton ops op ih =>
    rw [run_append_singleton]
    have hl : live_keys (ops ++ [op]) = (match op with
        | Op.insert e => Insert.insert e (live_keys ops)
        | Op.erase e => (live_keys ops).erase e) := by
      unfold live_keys
      rw [List.foldl_append]
      rfl
    rw [hl, ← ih]
    cases op with
    | insert e =>
      ext x
      simp only [Set.apply, Set.insert, List.mem_toFinset, Tree.mem_inorder_insert,
        Finset.mem_insert]
    | erase e =>
      ext x
      simp only [Set.apply, Set.erase, Tree.inorder_remove _ _ _ (run_ordered ops).1,
        List.mem_toFinset, List.mem_filter, Finset.mem_erase]
      simp [and_comm]

theorem num_nodes_run_le (ops : List (Op α)) : (run ops).root.num_nodes ≤ ops.length := by
  induction ops using List.reverseRecOn with
  | nil => simp [run_nil, Set.empty_set, Tree.num_nodes]
  | append_singleton ops op ih =>
    rw [run_append_singleton, List.length_append, List.length_singleton]
    rw [Tree.num_nodes_eq_length] at ih ⊢
    cases op with
    | insert e =>
      simp only [Set.apply, Set.insert]
      have := Tree.length_inorder_insert_le (run ops).root e (run ops).size_ (run ops).next_addr
      omega
    | erase e =>
      simp only [Set.apply, Set.erase, Tree.inorder_remove _ _ _ (run_ordered ops).1]
      have := List.length_filter_le (fun x => !decide (x = e)) (run ops).root.inorder
      omega

theorem withinMemory_of_length (ops : List (Op α)) (h : ops.length < 2 ^ 64) :
    WithinMemory ops := by
  intro n _
  have h1 := num_nodes_run_le (ops.take n)
  have h2 := List.length_take_le n ops
  omega

theorem withinMemory_init (ops : List (Op α)) (op : Op α) (h : WithinMemory (ops ++ [op])) :
    WithinMemory ops := by
  intro n hn
  have := h n (by simp; omega)
  rwa [List.take_append_of_le_length hn] at this

theorem withinMemory_take (ops : List (Op α)) (h : WithinMemory ops) (i : Nat) :
    WithinMemory (ops.take i) := by
  intro n hn
  rw [List.take_take]
  rw [List.length_take] at hn
  exact h (min n i) (le_trans (min_le_left _ _) (le_trans hn (min_le_right _ _)))

theorem withinMemory_last (ops : List (Op α)) (h : WithinMemory ops) :
    (run ops).root.num_nodes < 2 ^ 64 := by
  have := h ops.length (le_refl _)
  rwa [List.take_length] at this

end reach

section reach2
variable [LinearOrder α]

theorem length_filter_ne (xs : List α) (hn : xs.Nodup) (k : α) :
    (xs.filter (fun x => !decide (x = k))).length + (if k ∈ xs then 1 else 0) = xs.length := by
  induction xs with
  | nil => simp
  | cons x xs ih =>
    rw [List.nodup_cons] at hn
    have := ih hn.2
    by_cases c : x = k
    · subst c
      rw [if_neg hn.1] at this
      simp only [List.filter_cons, decide_True, Bool.not_true, Bool.false_eq_true, ↓reduceIte,
        List.mem_cons, true_or, List.length_cons]
      omega
    · have c' : ¬ k = x := fun h => c h.symm
      simp only [List.filter_cons, c, decide_False, Bool.not_false, ↓reduceIte, List.length_cons,
        List.mem_cons, c', false_or]
      omega

theorem nodup_of_pairwise_lt {xs : List α} (h : xs.Pairwise (· < ·)) : xs.Nodup :=
  h.imp (fun hab => ne_of_lt hab)

theorem length_inorder_insert (t : Tree α) (k : α) (sz : Nat) (fresh : Addr)
    (ho : (t.inorder).Pairwise (· < ·)) :
    ((Tree.insert t k sz fresh).1.inorder).length =
      if k ∈ t.inorder then (t.inorder).length else (t.inorder).length + 1 := by
  have h1 := nodup_of_pairwise_lt ho
  have h2 := nodup_of_pairwise_lt (Tree.pairwise_inorder_insert t k sz fresh ho)
  have e : ((Tree.insert t k sz fresh).1.inorder).toFinset = Insert.insert k (t.inorder).toFinset := by
    ext x
    simp only [List.mem_toFinset, Tree.mem_inorder_insert, Finset.mem_insert]
  rw [← List.toFinset_card_of_nodup h2, e, ← List.toFinset_card_of_nodup h1]
  split_ifs with c
  · rw [Finset.card_insert_of_mem (List.mem_toFinset.mpr c)]
  · rw [Finset.card_insert_of_not_mem (fun h => c (List.mem_toFinset.mp h))]

/-- Heights, balance and the size counter, as long as the set stays within
memory. -/
theorem run_avl (ops : List (Op α)) (hm : WithinMemory ops) :
    (run ops).root.HeightOK ∧ (run ops).root.Balanced ∧
      (run ops).size_ = (run ops).root.num_nodes := by
  induction ops using List.reverseRecOn with
  | nil => simp [run_nil, Set.empty_set, Tree.HeightOK, Tree.Balanced, Tree.num_nodes]
  | append_singleton ops op ih =>
    have hnew := withinMemory_last _ hm
    have hm' := withinMemory_init ops op hm
    obtain ⟨i1, i2, i3⟩ := ih hm'
    have hold := withinMemory_last _ hm'
    have hb := Tree.true_height_le_of_num_nodes _ i2 hold
    have ho := (run_ordered ops).1
    rw [run_append_singleton] at hnew ⊢
    rw [Tree.num_nodes_eq_length] at hnew hold i3 ⊢
    cases op with
    | insert e =>
      simp only [Set.apply, Set.insert] at hnew ⊢
      obtain ⟨j1, j2, -, -⟩ := Tree.avl_insert (run ops).root e (run ops).size_
        (run ops).next_addr i1 i2 (by omega)
      refine ⟨j1, j2, ?_⟩
      rw [Tree.insert_snd _ _ _ _ ho]
      rw [length_inorder_insert _ _ _ _ ho] at hnew ⊢
      split_ifs with c
      · exact i3
      · rw [if_neg c] at hnew
        rw [i3]
        exact Nat.mod_eq_of_lt hnew
    | erase e =>
      simp only [Set.apply, Set.erase] at hnew ⊢
      obtain ⟨j1, j2, -, -⟩ := Tree.avl_remove (run ops).root e (run ops).size_ i1 i2 (by omega)
      refine ⟨j1, j2, ?_⟩
      rw [Tree.remove_snd _ _ _ ho, Tree.inorder_remove _ _ _ ho]
      have hl := length_filter_ne _ (nodup_of_pairwise_lt ho) e
      split_ifs with c
      · rw [if_pos c] at hl
        rw [i3]
        omega
      · rw [if_neg c] at hl
        rw [i3]
        omega

end reach2

section facade

theorem map_key_nodes (t : Tree α) : (t.nodes).map Tree.key? = (t.inorder).map some := by
  induction t with
  | null => rfl
  | node a k m h l r anc ihl ihr =>
    simp only [Tree.nodes, Tree.inorder, List.map_append, List.map_cons, ihl, ihr, Tree.key?]

theorem balanced_nodes {t : Tree α} (bt : t.Balanced) {n : Tree α} (hn : n ∈ t.nodes) :
    |(n.right.true_height : Int) - (n.left.true_height : Int)| ≤ 1 := by
  have hb := Tree.balanced_of_mem_nodes bt hn
  cases n with
  | null => simp [Tree.right, Tree.left, Tree.true_height]
  | node a k m h l r anc =>
    rw [Tree.balanced_node] at hb
    simp only [Tree.right_node, Tree.left_node]
    rw [abs_le]
    omega

theorem star_of_mem_nodes (t : Tree α) (hd : (t.addrs).Nodup) {n : Tree α} (hn : n ∈ t.nodes)
    {p : Addr} {k : α} (hp : n.ptr = some p) (hk : n.key? = some k) (b : Bool) :
    iterator.star t { node := some p, is_end := b } = Res.ok k := by
  have h := Tree.deref_of_mem_nodes t hd hn hp
  cases n with
  | null => simp [Tree.ptr] at hp
  | node a k1 m h1 l r anc =>
    simp only [Tree.key?, Option.some.injEq] at hk
    simp only [iterator.star, h, hk]

theorem end_is_end (s : Set α) : (s.end_).is_end = true := by
  unfold Set.end_
  cases s.root <;> rfl

variable [LinearOrder α]

theorem lower_bound_eq (s : Set α) (q : α) :
    s.lower_bound q = match Tree.lower_bound_node s.root q with
      | Tree.null => s.end_
      | Tree.node na _ _ _ _ _ _ => { node := some na, is_end := false } := by
  unfold Set.lower_bound
  cases s.root <;> rfl

theorem find_eq (s : Set α) (e : α) :
    s.find e = match Tree.find_node s.root e with
      | Tree.null => s.end_
      | Tree.node na _ _ _ _ _ _ => { node := some na, is_end := false } := by
  unfold Set.find
  cases s.root <;> rfl

theorem first_not_below {xs : List α} (hs : xs.Pairwise (· < ·)) {q e : α}
    (h : xs.find? (fun x => decide (¬ x < q)) = some e) :
    e ∈ xs ∧ ¬ e < q ∧ ∀ y ∈ xs, ¬ y < q → e ≤ y := by
  have h1 := List.mem_of_find?_eq_some h
  have h2 : ¬ e < q := by simpa using List.find?_some h
  refine ⟨h1, h2, ?_⟩
  obtain ⟨-, as, bs, rfl, hbefore⟩ := List.find?_eq_some.mp h
  intro y hy hyq
  rw [List.pairwise_append] at hs
  rcases List.mem_append.mp hy with h3 | h3
  · have := hbefore y h3
    simp only [Bool.not_eq_true', decide_eq_false_iff_not, not_not] at this
    exact absurd this hyq
  · rcases List.mem_cons.mp h3 with rfl | h4
    · exact le_refl _
    · exact le_of_lt ((List.pairwise_cons.mp hs.2.1).1 y h4)

end facade

/-! ## The claims -/

section claims
variable [LinearOrder α]

/-- C1. After any sequence of insert and erase calls on an empty set, over any
linearly ordered element type, the in-order traversal of the tree is strictly
increasing, every node has the keys of its left subtree below its key and
those of its right subtree above it, and no two nodes hold the same key. -/
theorem inorder_strictly_increasing (ops : List (Op α)) :
    ((run ops).root.inorder).Pairwise (· < ·) ∧ (run ops).root.Ordered ∧
      (((run ops).root.nodes).map Tree.key?).Nodup := by
  have h := (run_ordered ops).1
  refine ⟨h, (Tree.ordered_iff_pairwise _).mpr h, ?_⟩
  rw [map_key_nodes]
  exact (nodup_of_pairwise_lt h).map (Option.some_injective α)

/-- C2. Let a sequence of calls stay within memory.  After each of its calls
(after the first `i` calls, for every `i`), every node of the tree has
subtrees whose true heights differ by at most 1. -/
theorem height_balanced_after_each_call (ops : List (Op α)) (hm : WithinMemory ops) (i : Nat) :
    ∀ n ∈ (run (ops.take i)).root.nodes,
      |(n.right.true_height : Int) - (n.left.true_height : Int)| ≤ 1 :=
  fun _ hn => balanced_nodes (run_avl _ (withinMemory_take ops hm i)).2.1 hn

/-- C3. `lower_bound(q)` agrees with a linear scan of the in-order keys for the
first key not below `q`: when the scan finds `e`, which is then the smallest
stored key not below `q`, the result is a non-end iterator that dereferences
to `e`; when it finds none, every key is below `q` and the result is `end()`.
Whenever `lower_bound_node` descends into a left child whose `max_value` is
not below `q`, the recursive call returns a node.  On the worked example,
`lower_bound(6)` is 7, `lower_bound(9)` is 9 and `lower_bound(10)` is `end()`. -/
theorem lower_bound_matches_scan (ops : List (Op α)) (q : α) :
    (match ((run ops).root.inorder).find? (fun e => decide (¬ e < q)) with
      | some e =>
        (e ∈ (run ops).root.inorder ∧ ¬ e < q ∧
          ∀ y ∈ (run ops).root.inorder, ¬ y < q → e ≤ y) ∧
        ((run ops).lower_bound q).is_end = false ∧
        iterator.star (run ops).root ((run ops).lower_bound q) = Res.ok e
      | none =>
        (∀ y ∈ (run ops).root.inorder, y < q) ∧
        (run ops).lower_bound q = (run ops).end_) ∧
    (∀ n ∈ (run ops).root.nodes, ∀ k lm, n.key? = some k → ¬ k < q →
      n.left.max_value? = some lm → ¬ lm < q → Tree.lower_bound_node n.left q ≠ Tree.null) ∧
    (iterator.star (run sample_ops).root ((run sample_ops).lower_bound 6) = Res.ok 7 ∧
      iterator.star (run sample_ops).root ((run sample_ops).lower_bound 9) = Res.ok 9 ∧
      (run sample_ops).lower_bound 10 = (run sample_ops).end_) := by
  obtain ⟨ho, hmax, hd, -⟩ := run_ordered ops
  refine ⟨?_, ?_, by decide⟩
  · obtain ⟨hkey, hmem⟩ := Tree.lower_bound_node_spec (run ops).root q ho hmax
    rw [lower_bound_eq]
    generalize Tree.lower_bound_node (run ops).root q = n at hkey hmem
    cases n with
    | null =>
      rw [← hkey]
      simp only [Tree.key?]
      refine ⟨?_, trivial⟩
      have := List.find?_eq_none.mp hkey.symm
      intro y hy
      simpa using this y hy
    | node na nk nm nh nl nr nanc =>
      rw [← hkey]
      simp only [Tree.key?]
      refine ⟨first_not_below ho hkey.symm, trivial, ?_⟩
      rcases hmem with h1 | h1
      · exact absurd h1 (by simp)
      · exact star_of_mem_nodes _ hd h1 rfl rfl false
  · intro n hn k lm hk hkq hlm hlmq
    have hon := Tree.pairwise_of_mem_nodes ho hn
    have hmn := Tree.maxLast_of_mem_nodes hmax hn
    cases n with
    | null => simp [Tree.key?] at hk
    | node a k1 m h l r anc =>
      simp only [Tree.left_node] at hlm ⊢
      obtain ⟨pl, -, -, -⟩ := Tree.pairwise_node (by simpa using hon)
      have hml := hmn.2.1
      obtain ⟨hkey, -⟩ := Tree.lower_bound_node_spec l q pl hml
      have hlast := Tree.max_value_eq_getLast hml
      rw [hlm] at hlast
      have hin : lm ∈ l.inorder := List.mem_of_getLast?_eq_some hlast.symm
      intro hnull
      rw [hnull] at hkey
      have := List.find?_eq_none.mp hkey.symm lm hin
      simp only [decide_not, Bool.not_eq_true', decide_eq_false_iff_not, not_not] at this
      exact hlmq this

end claims

section claims2
variable [LinearOrder α]

theorem inorder_insert_of_mem (t : Tree α) (k : α) (sz : Nat) (fresh : Addr)
    (ho : (t.inorder).Pairwise (· < ·)) (hk : k ∈ t.inorder) :
    (Tree.insert t k sz fresh).1.inorder = t.inorder := by
  induction t with
  | null => simp at hk
  | node a key m h l r anc ihl ihr =>
    rw [Tree.inorder_node] at ho hk
    obtain ⟨pl, pr, hl, hr⟩ := Tree.pairwise_node ho
    simp only [Tree.insert]
    by_cases c1 : k < key
    · rw [if_pos c1]
      dsimp only
      rw [Tree.inorder_balance, Tree.inorder_node, ihl pl ((Tree.mem_left_of_lt hr c1).mp hk)]
      rfl
    · rw [if_neg c1]
      by_cases c2 : key < k
      · rw [if_pos c2]
        dsimp only
        rw [Tree.inorder_balance, Tree.inorder_node, ihr pr ((Tree.mem_right_of_lt hl c2).mp hk)]
        rfl
      · rw [if_neg c2]

/-- C4. `insert(e)` makes the key set the old key set plus `e`.  If `e` was
stored already, the keys and `size()` are unchanged; otherwise one key is
added, every old key is kept and `size()` grows by exactly 1. -/
theorem insert_adds_key (ops : List (Op α)) (e : α)
    (hm : WithinMemory (ops ++ [Op.insert e])) :
    (((run ops).insert e).root.inorder).toFinset =
        Insert.insert e ((run ops).root.inorder).toFinset ∧
    (e ∈ (run ops).root.inorder →
      ((run ops).insert e).root.inorder = (run ops).root.inorder ∧
      ((run ops).insert e).size = (run ops).size) ∧
    (e ∉ (run ops).root.inorder →
      (((run ops).insert e).root.inorder).length = ((run ops).root.inorder).length + 1 ∧
      (∀ x ∈ (run ops).root.inorder, x ∈ ((run ops).insert e).root.inorder) ∧
      e ∈ ((run ops).insert e).root.inorder ∧
      ((run ops).insert e).size = (run ops).size + 1) := by
  have ho := (run_ordered ops).1
  have h1 := (run_avl ops (withinMemory_init ops _ hm)).2.2
  have h2 := (run_avl _ hm).2.2
  rw [run_append_singleton] at h2
  simp only [Set.apply] at h2
  rw [Tree.num_nodes_eq_length] at h1 h2
  have hlen := length_inorder_insert (run ops).root e (run ops).size_ (run ops).next_addr ho
  simp only [Set.size]
  refine ⟨?_, ?_, ?_⟩
  · ext x
    simp only [Set.insert, List.mem_toFinset, Tree.mem_inorder_insert, Finset.mem_insert]
  · intro hk
    refine ⟨inorder_insert_of_mem _ _ _ _ ho hk, ?_⟩
    rw [h1, h2]
    simp only [Set.insert]
    rw [hlen, if_pos hk]
  · intro hk
    rw [if_neg hk] at hlen
    refine ⟨hlen, ?_, ?_, ?_⟩
    · intro x hx
      exact (Tree.mem_inorder_insert _ _ _ _ _).mpr (Or.inr hx)
    · exact (Tree.mem_inorder_insert _ _ _ _ _).mpr (Or.inl rfl)
    · rw [h1, h2]
      exact hlen

/-- C5. `erase(e)` makes the key set the old key set minus `e`.  If `e` was not
stored, the keys, the shape of the tree, the `height` and `max_value` of
every node and `size()` are unchanged; otherwise the one key `e` is removed,
every other key is kept and `size()` shrinks by exactly 1.  Erasing 1 and
then 9 from the worked example leaves the keys 3, 4, 5, 7, 8. -/
theorem erase_removes_key (ops : List (Op α)) (e : α) (hm : WithinMemory ops) :
    (((run ops).erase e).root.inorder).toFinset = (((run ops).root.inorder).toFinset).erase e ∧
    (e ∉ (run ops).root.inorder →
      ((run ops).erase e).root.inorder = (run ops).root.inorder ∧
      ((run ops).erase e).root.strip_anc = (run ops).root.strip_anc ∧
      ((run ops).erase e).size = (run ops).size) ∧
    (e ∈ (run ops).root.inorder →
      (((run ops).erase e).root.inorder).length + 1 = ((run ops).root.inorder).length ∧
      e ∉ ((run ops).erase e).root.inorder ∧
      (∀ x ∈ (run ops).root.inorder, x ≠ e → x ∈ ((run ops).erase e).root.inorder) ∧
      ((run ops).erase e).size + 1 = (run ops).size) ∧
    (run (sample_ops ++ [Op.erase 1, Op.erase 9])).root.inorder = [3, 4, 5, 7, 8] := by
  obtain ⟨ho, hmax, -, -⟩ := run_ordered ops
  obtain ⟨hh, hb, hsz⟩ := run_avl ops hm
  have hbound := Tree.true_height_le_of_num_nodes _ hb (withinMemory_last _ hm)
  have hin := Tree.inorder_remove (run ops).root e (run ops).size_ ho
  have hsnd := Tree.remove_snd (run ops).root e (run ops).size_ ho
  have hlen := length_filter_ne _ (nodup_of_pairwise_lt ho) e
  have hlt := withinMemory_last _ hm
  rw [Tree.num_nodes_eq_length] at hsz hlt
  simp only [Set.size, Set.erase]
  refine ⟨?_, ?_, ?_, by decide⟩
  · ext x
    simp only [hin, List.mem_toFinset, List.mem_filter, Finset.mem_erase]
    simp [and_comm]
  · intro hk
    refine ⟨?_, Tree.strip_anc_remove_absent _ _ _ ho hh hb hmax (by omega) hk, ?_⟩
    · rw [hin, List.filter_eq_self]
      intro x hx
      have : x ≠ e := fun h => hk (h ▸ hx)
      simpa using this
    · rw [hsnd, if_neg hk]
  · intro hk
    rw [if_pos hk] at hlen
    refine ⟨?_, ?_, ?_, ?_⟩
    · rw [hin]; exact hlen
    · rw [hin]; simp
    · intro x hx hne
      rw [hin, List.mem_filter]
      exact ⟨hx, by simpa using hne⟩
    · rw [hsnd, if_pos hk, hsz]
      omega

/-- C6. `find(e)` is a non-end iterator that dereferences to `e` exactly when
`e` is stored, and is `end()` otherwise.  On the empty set `begin()` equals
`end()` and every `find` is `end()`. -/
theorem find_iff_stored (ops : List (Op α)) (e : α) :
    (e ∈ (run ops).root.inorder →
      ((run ops).find e).is_end = false ∧
      iterator.star (run ops).root ((run ops).find e) = Res.ok e) ∧
    (e ∉ (run ops).root.inorder → (run ops).find e = (run ops).end_) ∧
    (((run ops).find e).is_end = false ↔ e ∈ (run ops).root.inorder) ∧
    ((Set.empty_set : Set α).begin = (Set.empty_set : Set α).end_ ∧
      ∀ x : α, (Set.empty_set : Set α).find x = (Set.empty_set : Set α).end_) := by
  obtain ⟨ho, -, hd, -⟩ := run_ordered ops
  obtain ⟨hfound, habsent⟩ := Tree.find_node_spec (run ops).root e ho
  have hyes : e ∈ (run ops).root.inorder →
      ((run ops).find e).is_end = false ∧
      iterator.star (run ops).root ((run ops).find e) = Res.ok e := by
    intro hk
    obtain ⟨hn, hkey⟩ := hfound hk
    rw [find_eq]
    generalize Tree.find_node (run ops).root e = n at hn hkey
    cases n with
    | null => simp [Tree.key?] at hkey
    | node na nk nm nh nl nr nanc => exact ⟨rfl, star_of_mem_nodes _ hd hn rfl hkey false⟩
  have hno : e ∉ (run ops).root.inorder → (run ops).find e = (run ops).end_ := by
    intro hk
    rw [find_eq, habsent hk]
  refine ⟨hyes, hno, ⟨?_, fun hk => (hyes hk).1⟩, rfl, fun _ => rfl⟩
  intro hf
  by_contra hk
  rw [hno hk, end_is_end] at hf
  exact Bool.noConfusion hf

/-- C7. Let a sequence of calls stay within memory.  After each of its calls
(after the first `i` calls, for every `i`), `size()` is the number of nodes of
the tree, which is the number of distinct keys inserted and not erased since;
`empty()` holds exactly when that number is 0; and a following `erase` that
finds its key decrements a counter that is positive, so the counter never
goes below zero. -/
theorem size_counts_nodes (ops : List (Op α)) (hm : WithinMemory ops) (i : Nat) :
    (run (ops.take i)).size = (run (ops.take i)).root.num_nodes ∧
    (run (ops.take i)).root.num_nodes = (live_keys (ops.take i)).card ∧
    ((run (ops.take i)).empty = true ↔ (run (ops.take i)).root.num_nodes = 0) ∧
    (∀ e, e ∈ (run (ops.take i)).root.inorder →
      0 < (run (ops.take i)).size_ ∧
      ((run (ops.take i)).erase e).size_ + 1 = (run (ops.take i)).size_) ∧
    (∀ e, e ∉ (run (ops.take i)).root.inorder →
      ((run (ops.take i)).erase e).size_ = (run (ops.take i)).size_) := by
  have hm' := withinMemory_take ops hm i
  generalize ops.take i = pre at hm'
  have ho := (run_ordered pre).1
  have hsz := (run_avl pre hm').2.2
  have hlt := withinMemory_last _ hm'
  refine ⟨hsz, ?_, ?_, ?_, ?_⟩
  · rw [Tree.num_nodes_eq_length, ← List.toFinset_card_of_nodup (nodup_of_pairwise_lt ho),
      run_keys]
  · simp only [Set.empty, hsz, beq_iff_eq]
  · intro e he
    have hpos : 0 < (run pre).root.num_nodes := by
      rw [Tree.num_nodes_eq_length]
      exact List.length_pos_of_mem he
    simp only [Set.erase]
    rw [Tree.remove_snd _ _ _ ho, if_pos he, hsz]
    omega
  · intro e he
    simp only [Set.erase]
    rw [Tree.remove_snd _ _ _ ho, if_neg he]

end claims2

section iterator_claims
variable [LinearOrder α]

/-- C8 (evaluation at the failing input). In the set built by one `insert(e)`
the only node still has the `anc` its constructor left unassigned; the first
`++` of a traversal from `begin()` reads it, which is undefined behaviour, so
the traversal does not reach `end()`.  On the worked example the same
traversal yields the seven keys in increasing order. -/
theorem singleton_traversal_undefined (e : α) (fuel steps : Nat) :
    (run [Op.insert e]).size = 1 ∧
    (run [Op.insert e]).root.anc? = some Anc.indeterminate ∧
    iterator.next_node (run [Op.insert e]).root (fuel + 1) (run [Op.insert e]).begin.node =
      Res.fault Fault.undefined ∧
    (run [Op.insert e]).traverse_from (fuel + 1) (steps + 1) (run [Op.insert e]).begin =
      Res.fault Fault.undefined ∧
    (run sample_ops).traverse_from 4 8 (run sample_ops).begin = Res.ok [1, 3, 4, 5, 7, 8, 9] :=
  ⟨rfl, rfl, rfl, rfl, by decide⟩

/-- C9 (evaluation at the failing input). After `insert(2); insert(1); erase(2)`
the remaining node keeps an `anc` that points at the freed node; `++` from
`begin()` dereferences it, which is undefined behaviour, so there is no
forward pass to walk back.  The same happens from `begin()` of the set built
by a single `insert`. -/
theorem stale_anc_forward_step_undefined (fuel : Nat) :
    (run [Op.insert 2, Op.insert 1, Op.erase 2]).root.inorder = [1] ∧
    (run [Op.insert 2, Op.insert 1, Op.erase 2]).root.anc? = some (Anc.to 1) ∧
    (run [Op.insert 2, Op.insert 1, Op.erase 2]).root.deref 1 = none ∧
    iterator.inc (run [Op.insert 2, Op.insert 1, Op.erase 2]).root (fuel + 2)
      (run [Op.insert 2, Op.insert 1, Op.erase 2]).begin = Res.fault Fault.undefined ∧
    iterator.inc (run [Op.insert 1]).root (fuel + 1) (run [Op.insert 1]).begin =
      Res.fault Fault.undefined :=
  ⟨rfl, rfl, rfl, rfl, rfl⟩

/-- C10 (evaluation at the failing input). In the set built by one `insert(e)`,
`end()` holds the node of the maximum with `is_end` set and `--end()` equals
`find(e)`, but `++` applied to `find(e)` reads the unassigned `anc` of that
node, which is undefined behaviour, instead of yielding `end()`. -/
theorem singleton_increment_past_max_undefined (e : α) (fuel : Nat) :
    (run [Op.insert e]).end_ = { node := (run [Op.insert e]).root.ptr, is_end := true } ∧
    iterator.dec (run [Op.insert e]).root fuel (run [Op.insert e]).end_ =
      Res.ok ((run [Op.insert e]).find e) ∧
    iterator.inc (run [Op.insert e]).root (fuel + 1) ((run [Op.insert e]).find e) =
      Res.fault Fault.undefined := by
  refine ⟨rfl, ?_, ?_⟩
  · simp [run, Set.apply, Set.insert, Set.empty_set, Tree.insert, Tree.new_node, Set.end_,
      Set.find, Tree.find_node, Tree.find_max, Tree.ptr, iterator.dec]
  · simp [run, Set.apply, Set.insert, Set.empty_set, Tree.insert, Tree.new_node,
      Set.find, Tree.find_node, iterator.inc, iterator.next_node, iterator.next_climb,
      Tree.deref, Tree.ptr]

end iterator_claims

/-! ## Witnesses: the hypotheses hold on the worked example -/

theorem height_balanced_witness :
    WithinMemory sample_ops ∧
      ∀ n ∈ (run (sample_ops.take 7)).root.nodes,
        |(n.right.true_height : Int) - (n.left.true_height : Int)| ≤ 1 :=
  ⟨withinMemory_of_length _ (by decide),
    height_balanced_after_each_call sample_ops (withinMemory_of_length _ (by decide)) 7⟩

theorem insert_adds_key_witness :
    WithinMemory (sample_ops ++ [Op.insert 6]) ∧
      (((run sample_ops).insert 6).root.inorder).toFinset =
        Insert.insert 6 ((run sample_ops).root.inorder).toFinset ∧
      ((run sample_ops).insert 6).size = (run sample_ops).size + 1 :=
  ⟨withinMemory_of_length _ (by decide),
    (insert_adds_key sample_ops 6 (withinMemory_of_length _ (by decide))).1,
    ((insert_adds_key sample_ops 6 (withinMemory_of_length _ (by decide))).2.2
      (by decide)).2.2.2⟩

theorem erase_removes_key_witness :
    WithinMemory sample_ops ∧
      ((run sample_ops).erase 5).size + 1 = (run sample_ops).size ∧
      ((run sample_ops).erase 6).root.strip_anc = (run sample_ops).root.strip_anc :=
  ⟨withinMemory_of_length _ (by decide),
    ((erase_removes_key sample_ops 5 (withinMemory_of_length _ (by decide))).2.2.1
      (by decide)).2.2.2,
    ((erase_removes_key sample_ops 6 (withinMemory_of_length _ (by decide))).2.1
      (by decide)).2.1⟩

theorem size_counts_nodes_witness :
    WithinMemory sample_ops ∧
      (run (sample_ops.take 7)).size = (run (sample_ops.take 7)).root.num_nodes ∧
      (run (sample_ops.take 7)).root.num_nodes = (live_keys (sample_ops.take 7)).card :=
  ⟨withinMemory_of_length _ (by decide),
    (size_counts_nodes sample_ops (withinMemory_of_length _ (by decide)) 7).1,
    (size_counts_nodes sample_ops (withinMemory_of_length _ (by decide)) 7).2.1⟩


/-! ## Parent links -/

namespace Tree

theorem anc_set_anc_node (a : Addr) (k m : α) (h : Nat) (l r : Tree α) (anc v : Anc) :
    (set_anc (node a k m h l r anc) v).anc? = some v := rfl

theorem child_anc_set_anc (t : Tree α) (v : Anc) :
    set_anc t v = null ∨ (set_anc t v).anc? = some v := by
  cases t with
  | null => exact Or.inl rfl
  | node a k m h l r anc => exact Or.inr rfl

@[simp] theorem ancLinked_set_anc (t : Tree α) (v : Anc) :
    AncLinked (set_anc t v) ↔ AncLinked t := by
  cases t <;> simp [set_anc, AncLinked]

theorem ancLinked_node (a : Addr) (k m : α) (h : Nat) (l r : Tree α) (anc : Anc) :
    AncLinked (node a k m h l r anc) ↔
      (l = null ∨ l.anc? = some (Anc.to a)) ∧ (r = null ∨ r.anc? = some (Anc.to a)) ∧
        AncLinked l ∧ AncLinked r := Iff.rfl

theorem ancLinked_update (a : Addr) (k m : α) (h : Nat) (l r : Tree α) (anc : Anc)
    (hl : AncLinked l) (hr : AncLinked r) : AncLinked (update (node a k m h l r anc)) := by
  obtain ⟨m1, h1, hu⟩ := update_shape a k m h l r anc
  rw [hu, ancLinked_node]
  exact ⟨child_anc_set_anc l _, child_anc_set_anc r _, (ancLinked_set_anc _ _).mpr hl,
    (ancLinked_set_anc _ _).mpr hr⟩

theorem anc_update (a : Addr) (k m : α) (h : Nat) (l r : Tree α) (anc : Anc) :
    (update (node a k m h l r anc)).anc? = some Anc.null := rfl

theorem ancLinked_rotate_left (a : Addr) (k m : α) (h : Nat) (l r : Tree α) (anc : Anc)
    (hll : l = null ∨ l.anc? = some (Anc.to a)) (hl : AncLinked l) (hr : AncLinked r) :
    AncLinked (rotate_left (node a k m h l r anc)) := by
  cases r with
  | null => exact ⟨hll, Or.inl rfl, hl, trivial⟩
  | node sa sk sm sh sl sr sanc =>
    simp only [rotate_left]
    exact ancLinked_update _ _ _ _ _ _ _ (ancLinked_update _ _ _ _ _ _ _ hl hr.2.2.1) hr.2.2.2

theorem ancLinked_rotate_right (a : Addr) (k m : α) (h : Nat) (l r : Tree α) (anc : Anc)
    (hrr : r = null ∨ r.anc? = some (Anc.to a)) (hl : AncLinked l) (hr : AncLinked r) :
    AncLinked (rotate_right (node a k m h l r anc)) := by
  cases l with
  | null => exact ⟨Or.inl rfl, hrr, trivial, hr⟩
  | node sa sk sm sh sl sr sanc =>
    simp only [rotate_right]
    exact ancLinked_update _ _ _ _ _ _ _ hl.2.2.1 (ancLinked_update _ _ _ _ _ _ _ hl.2.2.2 hr)

theorem ancLinked_rotate_left_of (t : Tree α) (ht : AncLinked t) : AncLinked (rotate_left t) := by
  cases t with
  | null => exact ht
  | node a k m h l r anc => exact ancLinked_rotate_left _ _ _ _ _ _ _ ht.1 ht.2.2.1 ht.2.2.2

theorem ancLinked_rotate_right_of (t : Tree α) (ht : AncLinked t) :
    AncLinked (rotate_right t) := by
  cases t with
  | null => exact ht
  | node a k m h l r anc => exact ancLinked_rotate_right _ _ _ _ _ _ _ ht.2.1 ht.2.2.1 ht.2.2.2

theorem anc_rotate_left (t : Tree α) (ht : t.anc? = some Anc.null) :
    (rotate_left t).anc? = some Anc.null := by
  cases t with
  | null => exact ht
  | node a k m h l r anc =>
    cases r with
    | null => exact ht
    | node sa sk sm sh sl sr sanc => rfl

theorem anc_rotate_right (t : Tree α) (ht : t.anc? = some Anc.null) :
    (rotate_right t).anc? = some Anc.null := by
  cases t with
  | null => exact ht
  | node a k m h l r anc =>
    cases l with
    | null => exact ht
    | node sa sk sm sh sl sr sanc => rfl

/-- The root that `balance` returns has a null `anc`, whatever the stored
heights are. -/
theorem anc_balance (a : Addr) (k m : α) (h : Nat) (l r : Tree α) (anc : Anc) :
    (balance (node a k m h l r anc)).anc? = some Anc.null := by
  obtain ⟨m1, h1, hupd⟩ := update_shape a k m h l r anc
  unfold balance
  rw [hupd]
  dsimp only
  split_ifs
  · exact anc_rotate_left _ rfl
  · exact anc_rotate_left _ rfl
  · exact anc_rotate_right _ rfl
  · exact anc_rotate_right _ rfl
  · rfl

/-- After `balance`, the links below the new subtree root are consistent,
whatever the stored heights are. -/
theorem ancLinked_balance (a : Addr) (k m : α) (h : Nat) (l r : Tree α) (anc : Anc)
    (hl : AncLinked l) (hr : AncLinked r) :
    AncLinked (balance (node a k m h l r anc)) := by
  have hu := ancLinked_update a k m h l r anc hl hr
  obtain ⟨m1, h1, hupd⟩ := update_shape a k m h l r anc
  unfold balance
  rw [hupd] at hu ⊢
  rw [ancLinked_node] at hu
  obtain ⟨u1, u2, u3, u4⟩ := hu
  dsimp only
  split_ifs
  · exact ancLinked_rotate_left _ _ _ _ _ _ _ u1 u3 (ancLinked_rotate_right_of _ u4)
  · exact ancLinked_rotate_left _ _ _ _ _ _ _ u1 u3 u4
  · exact ancLinked_rotate_right _ _ _ _ _ _ _ u2 (ancLinked_rotate_left_of _ u3) u4
  · exact ancLinked_rotate_right _ _ _ _ _ _ _ u2 u3 u4
  · exact ⟨u1, u2, u3, u4⟩

theorem ancLinked_remove_min (t : Tree α) (ht : AncLinked t) : AncLinked (remove_min t) := by
  induction t with
  | null => trivial
  | node a k m h l r anc ihl _ =>
    cases l with
    | null => exact ht.2.2.2
    | node la lk lm lh ll lr lanc =>
      simp only [remove_min]
      exact ancLinked_balance _ _ _ _ _ _ _ (ihl ht.2.2.1) ht.2.2.2

variable [LinearOrder α]

theorem ancLinked_insert (t : Tree α) (k : α) (sz : Nat) (fresh : Addr) (ht : AncLinked t) :
    AncLinked (insert t k sz fresh).1 := by
  induction t with
  | null => simp [insert, new_node, AncLinked]
  | node a key m h l r anc ihl ihr =>
    simp only [insert]
    split_ifs
    · dsimp only
      exact ancLinked_balance _ _ _ _ _ _ _ (ihl ht.2.2.1) ht.2.2.2
    · dsimp only
      exact ancLinked_balance _ _ _ _ _ _ _ ht.2.2.1 (ihr ht.2.2.2)
    · exact ht

theorem ancLinked_remove (t : Tree α) (k : α) (sz : Nat) (ht : AncLinked t) :
    AncLinked (remove t k sz).1 := by
  induction t with
  | null => simp [remove, AncLinked]
  | node a key m h l r anc ihl ihr =>
    simp only [remove]
    split_ifs
    · dsimp only
      exact ancLinked_balance _ _ _ _ _ _ _ (ihl ht.2.2.1) ht.2.2.2
    · dsimp only
      exact ancLinked_balance _ _ _ _ _ _ _ ht.2.2.1 (ihr ht.2.2.2)
    · cases r with
      | null => exact ht.2.2.1
      | node ra rk rm rh rl rr ranc =>
        dsimp only
        split
        · trivial
        · dsimp only
          exact ancLinked_balance _ _ _ _ _ _ _ ht.2.2.1 (ancLinked_remove_min _ ht.2.2.2)

/-- The root that `insert` returns: the tree it was given (equal key at the
root), or a root whose `anc` is null, or the fresh node of a first insert. -/
theorem anc_insert (t : Tree α) (k : α) (sz : Nat) (fresh : Addr) :
    t = null ∨ (insert t k sz fresh).1 = t ∨ (insert t k sz fresh).1.anc? = some Anc.null := by
  cases t with
  | null => exact Or.inl rfl
  | node a key m h l r anc =>
    refine Or.inr ?_
    simp only [insert]
    split_ifs
    · refine Or.inr ?_
      dsimp only
      exact anc_balance _ _ _ _ _ _ _
    · refine Or.inr ?_
      dsimp only
      exact anc_balance _ _ _ _ _ _ _
    · exact Or.inl rfl

/-- The root that `remove` returns: nothing, or a root whose `anc` is null, or
the left child of the erased root when that root had no right child. -/
theorem anc_remove (t : Tree α) (k : α) (sz : Nat) :
    (remove t k sz).1 = null ∨ (remove t k sz).1.anc? = some Anc.null ∨
      (t.right = null ∧ (remove t k sz).1 = t.left) := by
  cases t with
  | null => exact Or.inl rfl
  | node a key m h l r anc =>
    simp only [remove]
    split_ifs
    · refine Or.inr (Or.inl ?_)
      dsimp only
      exact anc_balance _ _ _ _ _ _ _
    · refine Or.inr (Or.inl ?_)
      dsimp only
      exact anc_balance _ _ _ _ _ _ _
    · cases r with
      | null => exact Or.inr (Or.inr ⟨rfl, rfl⟩)
      | node ra rk rm rh rl rr ranc =>
        dsimp only
        split
        · exact Or.inl rfl
        · refine Or.inr (Or.inl ?_)
          dsimp only
          exact anc_balance _ _ _ _ _ _ _

end Tree

namespace Tree

theorem num_nodes_le_one_of_height (t : Tree α) (h : true_height t ≤ 1) : num_nodes t ≤ 1 := by
  cases t with
  | null => simp [num_nodes]
  | node a k m h1 l r anc =>
    rw [true_height_node] at h
    have hl : true_height l = 0 := by omega
    have hr : true_height r = 0 := by omega
    cases l with
    | null =>
      cases r with
      | null => simp [num_nodes]
      | node ra rk rm rh rl rr ranc => rw [true_height_node] at hr; omega
    | node la lk lm lh ll lr lanc => rw [true_height_node] at hl; omega

theorem ancLinked_of_mem_nodes {t n : Tree α} (ht : AncLinked t) (hn : n ∈ nodes t) :
    AncLinked n := by
  induction t with
  | null => simp [nodes] at hn
  | node a k m h l r anc ihl ihr =>
    rcases mem_nodes_node.mp hn with h1 | h1 | h1
    · exact ihl ht.2.2.1 h1
    · rw [h1]; exact ht
    · exact ihr ht.2.2.2 h1

/-- Every node of a tree is the root or a child of a node of the tree. -/
theorem mem_nodes_cases {t n : Tree α} (hn : n ∈ nodes t) :
    n = t ∨ ∃ p ∈ nodes t, n = p.left ∨ n = p.right := by
  induction t with
  | null => simp [nodes] at hn
  | node a k m h l r anc ihl ihr =>
    rcases mem_nodes_node.mp hn with h1 | h1 | h1
    · rcases ihl h1 with h2 | ⟨p, hp, h2⟩
      · exact Or.inr ⟨_, self_mem_nodes _ _ _ _ _ _ _, Or.inl h2⟩
      · exact Or.inr ⟨p, mem_nodes_node.mpr (Or.inl hp), h2⟩
    · exact Or.inl h1
    · rcases ihr h1 with h2 | ⟨p, hp, h2⟩
      · exact Or.inr ⟨_, self_mem_nodes _ _ _ _ _ _ _, Or.inr h2⟩
      · exact Or.inr ⟨p, mem_nodes_node.mpr (Or.inr (Or.inr hp)), h2⟩

theorem child_links_of_ancLinked {p : Tree α} (hp : AncLinked p) {a : Addr}
    (ha : p.ptr = some a) :
    (p.left = null ∨ p.left.anc? = some (Anc.to a)) ∧
      (p.right = null ∨ p.right.anc? = some (Anc.to a)) := by
  cases p with
  | null => simp [ptr] at ha
  | node a1 k m h l r anc =>
    simp only [ptr, Option.some.injEq] at ha
    subst ha
    exact ⟨hp.1, hp.2.1⟩

end Tree

section reach3
variable [LinearOrder α]

/-- The links below the root are consistent after any calls whatsoever. -/
theorem run_ancLinked (ops : List (Op α)) : (run ops).root.AncLinked := by
  induction ops using List.reverseRecOn with
  | nil => trivial
  | append_singleton ops op ih =>
    rw [run_append_singleton]
    cases op with
    | insert e => exact Tree.ancLinked_insert _ _ _ _ ih
    | erase e => exact Tree.ancLinked_remove _ _ _ ih

/-- The root of a set of two or more elements has a null `anc`, as long as the
set stays within memory. -/
theorem run_root_anc (ops : List (Op α)) (hm : WithinMemory ops)
    (h2 : 2 ≤ (run ops).root.num_nodes) : (run ops).root.anc? = some Anc.null := by
  induction ops using List.reverseRecOn with
  | nil => simp [run_nil, Set.empty_set, Tree.num_nodes] at h2
  | append_singleton ops op ih =>
    have hm' := withinMemory_init ops op hm
    have ih' := ih hm'
    obtain ⟨-, hb, -⟩ := run_avl ops hm'
    rw [run_append_singleton] at h2 ⊢
    cases op with
    | insert e =>
      simp only [Set.apply, Set.insert] at h2 ⊢
      rcases Tree.anc_insert (run ops).root e (run ops).size_ (run ops).next_addr with
        h1 | h1 | h1
      · rw [h1] at h2
        simp [Tree.insert, Tree.new_node, Tree.num_nodes] at h2
      · rw [h1] at h2 ⊢
        exact ih' h2
      · exact h1
    | erase e =>
      simp only [Set.apply, Set.erase] at h2 ⊢
      rcases Tree.anc_remove (run ops).root e (run ops).size_ with h1 | h1 | ⟨h0, h1⟩
      · rw [h1] at h2
        simp [Tree.num_nodes] at h2
      · exact h1
      · rw [h1] at h2
        exfalso
        generalize (run ops).root = t at hb h0 h2
        cases t with
        | null => simp [Tree.left, Tree.num_nodes] at h2
        | node a k m h l r anc =>
          simp only [Tree.right_node] at h0
          simp only [Tree.left_node] at h2
          subst h0
          rw [Tree.balanced_node] at hb
          have := Tree.num_nodes_le_one_of_height l (by
            have := hb.1
            simp only [Tree.true_height] at this
            omega)
          omega

end reach3

namespace Tree

theorem set_anc_eq_self {t : Tree α} {v : Anc} (h : t = null ∨ t.anc? = some v) :
    set_anc t v = t := by
  cases t with
  | null => rfl
  | node a k m h1 l r anc =>
    rcases h with h | h
    · exact absurd h (by simp)
    · simp only [anc?, Option.some.injEq] at h
      rw [set_anc_node, h]

theorem update_set_anc_left (a : Addr) (k m : α) (h : Nat) (l r : Tree α) (anc v : Anc) :
    update (node a k m h (set_anc l v) r anc) = update (node a k m h l r anc) := by
  cases l <;> rfl

theorem update_set_anc_right (a : Addr) (k m : α) (h : Nat) (l r : Tree α) (anc v : Anc) :
    update (node a k m h l (set_anc r v) anc) = update (node a k m h l r anc) := by
  cases r <;> rfl

theorem balance_set_anc_left (a : Addr) (k m : α) (h : Nat) (l r : Tree α) (anc v : Anc) :
    balance (node a k m h (set_anc l v) r anc) = balance (node a k m h l r anc) := by
  unfold balance
  rw [update_set_anc_left]

theorem balance_set_anc_right (a : Addr) (k m : α) (h : Nat) (l r : Tree α) (anc v : Anc) :
    balance (node a k m h l (set_anc r v) anc) = balance (node a k m h l r anc) := by
  unfold balance
  rw [update_set_anc_right]

/-- On a node that already satisfies the height, maximum and parent-link
invariants, `update` only clears the node's own `anc`. -/
theorem update_eq_of_invariants (a : Addr) (k m : α) (h : Nat) (l r : Tree α) (anc : Anc)
    (ht : HeightOK (node a k m h l r anc)) (mt : MaxLast (node a k m h l r anc))
    (b : true_height (node a k m h l r anc) ≤ 255) (al : AncLinked (node a k m h l r anc)) :
    update (node a k m h l r anc) = node a k m h l r Anc.null := by
  rw [heightOK_node] at ht
  rw [true_height_node] at b
  obtain ⟨h0, hl, hr⟩ := ht
  simp only [update, get_height_eq hl, get_height_eq hr, set_anc_eq_self al.1,
    set_anc_eq_self al.2.1]
  congr 1
  · cases r with
    | null =>
      have := mt.1
      simp only [inorder_null, List.getLast?_append_of_ne_nil _ (List.cons_ne_nil k []),
        List.getLast?_singleton, Option.some.injEq] at this
      exact this
    | node ra rk rm rh rl rr ranc =>
      have h1 := mt.1
      have h2 := mt.2.2.1
      rw [getLast?_append_cons, inorder_node, ← List.cons_append, getLast?_append_cons,
        ← getLast?_append_cons (inorder rl), h2] at h1
      exact Option.some.inj h1
  · split_ifs <;> omega

/-- On such a node that is also balanced, `balance` only clears the node's own
`anc`. -/
theorem balance_eq_of_invariants (a : Addr) (k m : α) (h : Nat) (l r : Tree α) (anc : Anc)
    (ht : HeightOK (node a k m h l r anc)) (bt : Balanced (node a k m h l r anc))
    (mt : MaxLast (node a k m h l r anc))
    (b : true_height (node a k m h l r anc) ≤ 255) (al : AncLinked (node a k m h l r anc)) :
    balance (node a k m h l r anc) = node a k m h l r Anc.null := by
  have e1 := update_eq_of_invariants a k m h l r anc ht mt b al
  rw [heightOK_node] at ht
  rw [balanced_node] at bt
  unfold balance
  rw [e1]
  simp only [balance_factor_node, get_height_eq ht.2.1, get_height_eq ht.2.2]
  rw [if_neg (by omega), if_neg (by omega)]

variable [LinearOrder α]

/-- Inserting a key that is stored already, into a tree that satisfies the
invariants, returns the tree itself when the key is at the root, and else the
tree with the root's `anc` cleared. -/
theorem insert_present (t : Tree α) (k : α) (sz : Nat) (fresh : Addr)
    (ho : (inorder t).Pairwise (· < ·)) (ht : HeightOK t) (bt : Balanced t) (mt : MaxLast t)
    (al : AncLinked t) (b : true_height t ≤ 255) (hk : k ∈ inorder t) :
    (insert t k sz fresh).1 = if t.key? = some k then t else set_anc t Anc.null := by
  induction t with
  | null => simp at hk
  | node a key m h l r anc ihl ihr =>
    have ho' := ho
    rw [inorder_node] at ho' hk
    obtain ⟨pl, pr, hl, hr⟩ := pairwise_node ho'
    have ht' := ht
    have bt' := bt
    have b' := b
    rw [heightOK_node] at ht'
    rw [balanced_node] at bt'
    rw [true_height_node] at b'
    simp only [insert, key?, Option.some.injEq]
    by_cases c1 : k < key
    · rw [if_pos c1, if_neg (ne_of_gt c1)]
      dsimp only
      have hkl := (mem_left_of_lt hr c1).mp hk
      have ih := ihl pl ht'.2.1 bt'.2.2.1 mt.2.1 al.2.2.1 (by omega) hkl
      have e : balance (node a key m h (insert l k sz fresh).1 r anc) =
          balance (node a key m h l r anc) := by
        rw [ih]
        split_ifs
        · rfl
        · exact balance_set_anc_left _ _ _ _ _ _ _ _
      rw [e, balance_eq_of_invariants a key m h l r anc ht bt mt b al]
      rfl
    · rw [if_neg c1]
      by_cases c2 : key < k
      · rw [if_pos c2, if_neg (ne_of_lt c2)]
        dsimp only
        have hkr := (mem_right_of_lt hl c2).mp hk
        have ih := ihr pr ht'.2.2 bt'.2.2.2 mt.2.2 al.2.2.2 (by omega) hkr
        have e : balance (node a key m h l (insert r k sz fresh).1 anc) =
            balance (node a key m h l r anc) := by
          rw [ih]
          split_ifs
          · rfl
          · exact balance_set_anc_right _ _ _ _ _ _ _ _
        rw [e, balance_eq_of_invariants a key m h l r anc ht bt mt b al]
        rfl
      · have hkk : k = key := le_antisymm (not_lt.mp c2) (not_lt.mp c1)
        rw [if_neg c2, if_pos hkk.symm]

end Tree

section idem

theorem two_le_num_nodes_of_mem {t : Tree α} {k : α} (hk : k ∈ t.inorder)
    (hr : t.key? ≠ some k) : 2 ≤ t.num_nodes := by
  cases t with
  | null => simp at hk
  | node a key m h l r anc =>
    simp only [Tree.key?, ne_eq, Option.some.injEq] at hr
    rw [Tree.inorder_node, List.mem_append, List.mem_cons] at hk
    simp only [Tree.num_nodes]
    rcases hk with h1 | h1 | h1
    · have := List.length_pos_of_mem h1
      rw [← Tree.num_nodes_eq_length] at this
      omega
    · exact absurd h1.symm hr
    · have := List.length_pos_of_mem h1
      rw [← Tree.num_nodes_eq_length] at this
      omega

end idem

namespace Tree

/-! ## Recurrence forms of the augmentation and height invariants -/

theorem augmented_iff_maxLast (t : Tree α) : Augmented t ↔ MaxLast t := by
  induction t with
  | null => exact Iff.rfl
  | node a k m h l r anc ihl ihr =>
    simp only [Augmented, MaxLast, ihl, ihr]
    constructor
    · rintro ⟨h1, hl, hr⟩
      refine ⟨?_, hl, hr⟩
      cases r with
      | null =>
        simp only [max_value?, Option.getD_none] at h1
        rw [inorder_null, getLast?_append_cons, List.getLast?_singleton, h1]
      | node ra rk rm rh rl rr ranc =>
        simp only [max_value?, Option.getD_some] at h1
        rw [getLast?_append_cons, inorder_node, ← List.cons_append, getLast?_append_cons,
          ← getLast?_append_cons (inorder rl), hr.1, h1]
    · rintro ⟨h1, hl, hr⟩
      refine ⟨?_, hl, hr⟩
      cases r with
      | null =>
        simp only [max_value?, Option.getD_none]
        rw [inorder_null, getLast?_append_cons, List.getLast?_singleton] at h1
        exact (Option.some.inj h1).symm
      | node ra rk rm rh rl rr ranc =>
        simp only [max_value?, Option.getD_some]
        rw [getLast?_append_cons, inorder_node, ← List.cons_append, getLast?_append_cons,
          ← getLast?_append_cons (inorder rl), hr.1] at h1
        exact (Option.some.inj h1).symm

theorem heightOK_iff_heightRec (t : Tree α) : HeightOK t ↔ HeightRec t := by
  induction t with
  | null => exact Iff.rfl
  | node a k m h l r anc ihl ihr =>
    simp only [HeightOK, HeightRec, ← ihl, ← ihr]
    constructor
    · rintro ⟨h1, hl, hr⟩
      exact ⟨by rw [get_height_eq hl, get_height_eq hr]; exact h1, hl, hr⟩
    · rintro ⟨h1, hl, hr⟩
      exact ⟨by rw [get_height_eq hl, get_height_eq hr] at h1; exact h1, hl, hr⟩

theorem augmented_at_node {n : Tree α} (hn : MaxLast n) {m : α} (hm : n.max_value? = some m) :
    (n.right ≠ null → n.right.max_value? = some m) ∧ (n.right = null → n.key? = some m) := by
  have ha := (augmented_iff_maxLast n).mpr hn
  cases n with
  | null => simp [max_value?] at hm
  | node a k m1 h l r anc =>
    simp only [max_value?, Option.some.injEq] at hm
    subst hm
    simp only [right_node, key?]
    have h1 := ha.1
    cases r with
    | null =>
      simp only [max_value?, Option.getD_none] at h1
      exact ⟨fun h => absurd rfl h, fun _ => by rw [h1]⟩
    | node ra rk rm rh rl rr ranc =>
      simp only [max_value?, Option.getD_some] at h1
      exact ⟨fun _ => by rw [h1]; rfl, fun h => absurd h (by simp)⟩

theorem height_at_node {n : Tree α} (hn : HeightOK n) (hne : n ≠ null) :
    get_height n = 1 + max (get_height n.left) (get_height n.right) ∧
      get_height n = true_height n ∧
      (n.left = null → n.right = null → get_height n = 1) := by
  cases n with
  | null => exact absurd rfl hne
  | node a k m h l r anc =>
    have hr := (heightOK_iff_heightRec _).mp hn
    refine ⟨hr.1, get_height_eq hn, ?_⟩
    simp only [left_node, right_node, get_height_node]
    intro h1 h2
    have := hr.1
    rw [h1, h2] at this
    simpa [get_height] using this

theorem num_nodes_le_of_mem_nodes {t n : Tree α} (hn : n ∈ nodes t) :
    num_nodes n ≤ num_nodes t := by
  induction t with
  | null => simp [nodes] at hn
  | node a k m h l r anc ihl ihr =>
    simp only [num_nodes]
    rcases mem_nodes_node.mp hn with h1 | h1 | h1
    · have := ihl h1
      omega
    · rw [h1]
      simp only [num_nodes]
      omega
    · have := ihr h1
      omega

/-- In a tree with correct stored heights that is balanced and holds fewer
than `2^64` nodes, the height arithmetic of `update` and `balance_factor` is
exact at the root. -/
theorem height_arithmetic_exact (t : Tree α) (ht : HeightOK t) (bt : Balanced t)
    (hn : num_nodes t < 2 ^ 64) :
    true_height t ≤ 92 ∧
    max (get_height t.left) (get_height t.right) + 1 < 256 ∧
    get_height (update t) = true_height t ∧
    balance_factor t = (true_height t.right : Int) - (true_height t.left : Int) := by
  have hb := true_height_le_of_num_nodes t bt hn
  cases t with
  | null => simp [true_height, left, right, get_height, update, balance_factor]
  | node a k m h l r anc =>
    rw [true_height_node] at hb
    rw [heightOK_node] at ht
    simp only [left_node, right_node, balance_factor_node, get_height_update,
      get_height_eq ht.2.1, get_height_eq ht.2.2, true_height_node]
    refine ⟨by omega, by omega, ?_, trivial⟩
    rw [Nat.mod_eq_of_lt (by omega)]
    omega

end Tree

/-! ## The 8-bit height never wraps: the operations agree with their
unbounded reference versions -/

namespace Tree

theorem storedBelow_node (B : Nat) (a : Addr) (k m : α) (h : Nat) (l r : Tree α) (anc : Anc) :
    StoredBelow B (node a k m h l r anc) ↔ h ≤ B ∧ StoredBelow B l ∧ StoredBelow B r := Iff.rfl

@[simp] theorem storedBelow_set_anc (B : Nat) (t : Tree α) (v : Anc) :
    StoredBelow B (set_anc t v) ↔ StoredBelow B t := by
  cases t <;> simp [set_anc, StoredBelow]

theorem storedBelow_mono {B C : Nat} (hBC : B ≤ C) (t : Tree α) (h : StoredBelow B t) :
    StoredBelow C t := by
  induction t with
  | null => trivial
  | node a k m h1 l r anc ihl ihr => exact ⟨le_trans h.1 hBC, ihl h.2.1, ihr h.2.2⟩

theorem get_height_le_of_storedBelow {B : Nat} {t : Tree α} (h : StoredBelow B t) :
    get_height t ≤ B := by
  cases t with
  | null => exact Nat.zero_le _
  | node a k m h1 l r anc => exact h.1

theorem true_height_le_of_mem_nodes {t n : Tree α} (hn : n ∈ nodes t) :
    true_height n ≤ true_height t := by
  induction t with
  | null => simp [nodes] at hn
  | node a k m h l r anc ihl ihr =>
    rw [true_height_node]
    rcases mem_nodes_node.mp hn with h1 | h1 | h1
    · have := ihl h1
      omega
    · rw [h1, true_height_node]
    · have := ihr h1
      omega

theorem storedBelow_of_heightOK {B : Nat} (t : Tree α) (ht : HeightOK t)
    (hb : true_height t ≤ B) : StoredBelow B t := by
  induction t with
  | null => trivial
  | node a k m h l r anc ihl ihr =>
    rw [true_height_node] at hb
    exact ⟨by rw [ht.1]; exact hb, ihl ht.2.1 (by omega), ihr ht.2.2 (by omega)⟩

theorem update_exact_eq (a : Addr) (k m : α) (h : Nat) (l r : Tree α) (anc : Anc)
    (hl : get_height l ≤ 254) (hr : get_height r ≤ 254) :
    update (node a k m h l r anc) = update_exact (node a k m h l r anc) := by
  simp only [update, update_exact]
  congr 1
  apply Nat.mod_eq_of_lt
  split_ifs <;> omega

theorem storedBelow_update_exact (B : Nat) (a : Addr) (k m : α) (h : Nat) (l r : Tree α)
    (anc : Anc) (hl : StoredBelow B l) (hr : StoredBelow B r) :
    StoredBelow (B + 1) (update_exact (node a k m h l r anc)) := by
  simp only [update_exact, storedBelow_node, storedBelow_set_anc]
  have h1 := get_height_le_of_storedBelow hl
  have h2 := get_height_le_of_storedBelow hr
  refine ⟨?_, storedBelow_mono (Nat.le_succ B) l hl, storedBelow_mono (Nat.le_succ B) r hr⟩
  split_ifs <;> omega

theorem rotate_left_exact_eq (B : Nat) (hB : B ≤ 253) (t : Tree α) (ht : StoredBelow B t) :
    rotate_left t = rotate_left_exact t ∧ StoredBelow (B + 2) (rotate_left_exact t) := by
  cases t with
  | null => exact ⟨rfl, trivial⟩
  | node a k m h l r anc =>
    cases r with
    | null => exact ⟨rfl, storedBelow_mono (by omega) _ ht⟩
    | node sa sk sm sh sl sr sanc =>
      obtain ⟨-, hl, -, hsl, hsr⟩ := ht
      simp only [rotate_left, rotate_left_exact]
      have e1 := update_exact_eq a k m h l sl anc
        (le_trans (get_height_le_of_storedBelow hl) (by omega))
        (le_trans (get_height_le_of_storedBelow hsl) (by omega))
      have s1 := storedBelow_update_exact B a k m h l sl anc hl hsl
      rw [e1]
      refine ⟨update_exact_eq _ _ _ _ _ _ _
        (le_trans (get_height_le_of_storedBelow s1) (by omega))
        (le_trans (get_height_le_of_storedBelow hsr) (by omega)), ?_⟩
      exact storedBelow_update_exact (B + 1) _ _ _ _ _ _ _ s1
        (storedBelow_mono (by omega) _ hsr)

theorem rotate_right_exact_eq (B : Nat) (hB : B ≤ 253) (t : Tree α) (ht : StoredBelow B t) :
    rotate_right t = rotate_right_exact t ∧ StoredBelow (B + 2) (rotate_right_exact t) := by
  cases t with
  | null => exact ⟨rfl, trivial⟩
  | node a k m h l r anc =>
    cases l with
    | null => exact ⟨rfl, storedBelow_mono (by omega) _ ht⟩
    | node sa sk sm sh sl sr sanc =>
      obtain ⟨-, ⟨-, hsl, hsr⟩, hr⟩ := ht
      simp only [rotate_right, rotate_right_exact]
      have e1 := update_exact_eq a k m h sr r anc
        (le_trans (get_height_le_of_storedBelow hsr) (by omega))
        (le_trans (get_height_le_of_storedBelow hr) (by omega))
      have s1 := storedBelow_update_exact B a k m h sr r anc hsr hr
      rw [e1]
      refine ⟨update_exact_eq _ _ _ _ _ _ _
        (le_trans (get_height_le_of_storedBelow hsl) (by omega))
        (le_trans (get_height_le_of_storedBelow s1) (by omega)), ?_⟩
      exact storedBelow_update_exact (B + 1) _ _ _ _ _ _ _
        (storedBelow_mono (by omega) _ hsl) s1

theorem update_exact_shape (a : Addr) (k m : α) (h : Nat) (l r : Tree α) (anc : Anc) :
    ∃ m1 h1, update_exact (node a k m h l r anc) =
      node a k m1 h1 (set_anc l (Anc.to a)) (set_anc r (Anc.to a)) Anc.null :=
  ⟨_, _, rfl⟩

/-- When no stored height below the node exceeds 250, `balance` computes what
its unbounded reference version computes: no `update` inside it wraps. -/
theorem balance_exact_eq (a : Addr) (k m : α) (h : Nat) (l r : Tree α) (anc : Anc)
    (hl : StoredBelow 250 l) (hr : StoredBelow 250 r) :
    balance (node a k m h l r anc) = balance_exact (node a k m h l r anc) := by
  have e0 := update_exact_eq a k m h l r anc
    (le_trans (get_height_le_of_storedBelow hl) (by omega))
    (le_trans (get_height_le_of_storedBelow hr) (by omega))
  have s0 := storedBelow_update_exact 250 a k m h l r anc hl hr
  obtain ⟨m1, h1, hu⟩ := update_exact_shape a k m h l r anc
  unfold balance balance_exact
  rw [e0, hu]
  rw [hu, storedBelow_node] at s0
  obtain ⟨b1, sl, sr⟩ := s0
  dsimp only
  split_ifs
  · obtain ⟨r1, r2⟩ := rotate_right_exact_eq 251 (by omega) _ sr
    rw [r1]
    refine (rotate_left_exact_eq 253 (by omega) _ ?_).1
    exact ⟨by omega, storedBelow_mono (by omega) _ sl, r2⟩
  · refine (rotate_left_exact_eq 251 (by omega) _ ?_).1
    exact ⟨b1, sl, sr⟩
  · obtain ⟨r1, r2⟩ := rotate_left_exact_eq 251 (by omega) _ sl
    rw [r1]
    refine (rotate_right_exact_eq 253 (by omega) _ ?_).1
    exact ⟨by omega, r2, storedBelow_mono (by omega) _ sr⟩
  · refine (rotate_right_exact_eq 251 (by omega) _ ?_).1
    exact ⟨b1, sl, sr⟩
  · rfl

theorem remove_min_exact_eq (t : Tree α) (ht : HeightOK t) (bt : Balanced t)
    (b : true_height t ≤ 250) : remove_min t = remove_min_exact t := by
  induction t with
  | null => rfl
  | node a k m h l r anc ihl _ =>
    rw [heightOK_node] at ht
    rw [balanced_node] at bt
    rw [true_height_node] at b
    cases l with
    | null => rfl
    | node la lk lm lh ll lr lanc =>
      simp only [remove_min, remove_min_exact]
      rw [← ihl ht.2.1 bt.2.2.1 (by omega)]
      obtain ⟨i1, -, i3, -⟩ := avl_remove_min _ ht.2.1 bt.2.2.1 (by omega)
      exact balance_exact_eq _ _ _ _ _ _ _
        (storedBelow_of_heightOK _ i1 (by omega))
        (storedBelow_of_heightOK _ ht.2.2 (by omega))

variable [LinearOrder α]

/-- On a balanced tree with correct stored heights and true height at most
249, `insert` computes what its unbounded reference version computes. -/
theorem insert_exact_eq (t : Tree α) (k : α) (sz : Nat) (fresh : Addr)
    (ht : HeightOK t) (bt : Balanced t) (b : true_height t ≤ 249) :
    insert t k sz fresh = insert_exact t k sz fresh := by
  induction t with
  | null => rfl
  | node a key m h l r anc ihl ihr =>
    rw [heightOK_node] at ht
    rw [balanced_node] at bt
    rw [true_height_node] at b
    simp only [insert, insert_exact]
    split_ifs
    · rw [← ihl ht.2.1 bt.2.2.1 (by omega)]
      obtain ⟨i1, -, -, i4⟩ := avl_insert l k sz fresh ht.2.1 bt.2.2.1 (by omega)
      rw [balance_exact_eq _ _ _ _ _ _ _ (storedBelow_of_heightOK _ i1 (by omega))
        (storedBelow_of_heightOK _ ht.2.2 (by omega))]
    · rw [← ihr ht.2.2 bt.2.2.2 (by omega)]
      obtain ⟨i1, -, -, i4⟩ := avl_insert r k sz fresh ht.2.2 bt.2.2.2 (by omega)
      rw [balance_exact_eq _ _ _ _ _ _ _ (storedBelow_of_heightOK _ ht.2.1 (by omega))
        (storedBelow_of_heightOK _ i1 (by omega))]
    · rfl

/-- On a balanced tree with correct stored heights and true height at most
249, `remove` computes what its unbounded reference version computes. -/
theorem remove_exact_eq (t : Tree α) (k : α) (sz : Nat)
    (ht : HeightOK t) (bt : Balanced t) (b : true_height t ≤ 249) :
    remove t k sz = remove_exact t k sz := by
  induction t with
  | null => rfl
  | node a key m h l r anc ihl ihr =>
    rw [heightOK_node] at ht
    rw [balanced_node] at bt
    rw [true_height_node] at b
    simp only [remove, remove_exact]
    split_ifs
    · rw [← ihl ht.2.1 bt.2.2.1 (by omega)]
      obtain ⟨i1, -, i3, -⟩ := avl_remove l k sz ht.2.1 bt.2.2.1 (by omega)
      rw [balance_exact_eq _ _ _ _ _ _ _ (storedBelow_of_heightOK _ i1 (by omega))
        (storedBelow_of_heightOK _ ht.2.2 (by omega))]
    · rw [← ihr ht.2.2 bt.2.2.2 (by omega)]
      obtain ⟨i1, -, i3, -⟩ := avl_remove r k sz ht.2.2 bt.2.2.2 (by omega)
      rw [balance_exact_eq _ _ _ _ _ _ _ (storedBelow_of_heightOK _ ht.2.1 (by omega))
        (storedBelow_of_heightOK _ i1 (by omega))]
    · cases r with
      | null => rfl
      | node ra rk rm rh rl rr ranc =>
        dsimp only
        rw [← remove_min_exact_eq _ ht.2.2 bt.2.2.2 (by omega)]
        obtain ⟨i1, -, i3, -⟩ := avl_remove_min _ ht.2.2 bt.2.2.2 (by omega)
        obtain ⟨na, nk, nm, nh, nr, nanc, hmin⟩ :=
          find_min_cases (node ra rk rm rh rl rr ranc) (by simp)
        rw [hmin]
        dsimp only
        rw [balance_exact_eq _ _ _ _ _ _ _ (storedBelow_of_heightOK _ ht.2.1 (by omega))
          (storedBelow_of_heightOK _ i1 (by omega))]

end Tree

/-! ## The claims, continued -/

section claims3
variable [LinearOrder α]

/-- C11. Performing `insert(e)` a second time leaves the set as the first
`insert(e)` left it: the same tree, node for node (address, key, `height`,
`max_value`, children and `anc`), and the same `size()`. -/
theorem insert_twice_same (ops : List (Op α)) (e : α)
    (hm : WithinMemory (ops ++ [Op.insert e])) :
    (((run ops).insert e).insert e).root = ((run ops).insert e).root ∧
    (((run ops).insert e).insert e).root.strip_anc = ((run ops).insert e).root.strip_anc ∧
    (((run ops).insert e).insert e).size = ((run ops).insert e).size := by
  have hrun : (run ops).insert e = run (ops ++ [Op.insert e]) := by
    rw [run_append_singleton]
    rfl
  rw [hrun]
  generalize ops ++ [Op.insert e] = ops1 at hm hrun
  obtain ⟨ho, hmax, -, -⟩ := run_ordered ops1
  obtain ⟨hh, hb, hsz⟩ := run_avl ops1 hm
  have hlink := run_ancLinked ops1
  have hbound := Tree.true_height_le_of_num_nodes _ hb (withinMemory_last _ hm)
  have hmem : e ∈ (run ops1).root.inorder := by
    rw [← hrun]
    exact (Tree.mem_inorder_insert _ _ _ _ _).mpr (Or.inl rfl)
  have hroot : ((run ops1).insert e).root = (run ops1).root := by
    simp only [Set.insert]
    rw [Tree.insert_present _ _ _ _ ho hh hb hmax hlink (by omega) hmem]
    split_ifs with c
    · rfl
    · have h2 := two_le_num_nodes_of_mem hmem c
      exact Tree.set_anc_eq_self (Or.inr (run_root_anc ops1 hm h2))
  refine ⟨hroot, by rw [hroot], ?_⟩
  simp only [Set.size, Set.insert]
  rw [Tree.insert_snd _ _ _ _ ho, if_pos hmem]

/-- C13. After any sequence of calls, the `max_value` of every node is the
greatest key of the subtree rooted at the node; it is the `max_value` of the
right child when there is one, and the node's own key otherwise. -/
theorem max_value_is_subtree_maximum (ops : List (Op α)) :
    (run ops).root.MaxOK ∧ (run ops).root.Augmented ∧
    ∀ n ∈ (run ops).root.nodes, ∀ m, n.max_value? = some m →
      (m ∈ n.inorder ∧ ∀ x ∈ n.inorder, x ≤ m) ∧
      (n.right ≠ Tree.null → n.right.max_value? = some m) ∧
      (n.right = Tree.null → n.key? = some m) := by
  obtain ⟨ho, hmax, -, -⟩ := run_ordered ops
  refine ⟨Tree.maxOK_of_maxLast _ ho hmax, (Tree.augmented_iff_maxLast _).mpr hmax, ?_⟩
  intro n hn m hm
  have hon := Tree.pairwise_of_mem_nodes ho hn
  have hmn := Tree.maxLast_of_mem_nodes hmax hn
  refine ⟨?_, Tree.augmented_at_node hmn hm⟩
  have hok := Tree.maxOK_of_maxLast n hon hmn
  cases n with
  | null => simp [Tree.max_value?] at hm
  | node a k m1 h l r anc =>
    simp only [Tree.max_value?, Option.some.injEq] at hm
    subst hm
    exact hok.1

/-- C16. Let a sequence of calls stay within memory.  After each of its calls,
the stored `height` of every node is one more than the larger of the stored
heights of its children (an absent child counting as 0), so a leaf stores 1,
and the stored height is the true height of the subtree. -/
theorem stored_height_is_true_height (ops : List (Op α)) (hm : WithinMemory ops) (i : Nat) :
    (run (ops.take i)).root.HeightRec ∧ (run (ops.take i)).root.HeightOK ∧
    ∀ n ∈ (run (ops.take i)).root.nodes,
      n.get_height = 1 + max n.left.get_height n.right.get_height ∧
      n.get_height = n.true_height ∧
      (n.left = Tree.null → n.right = Tree.null → n.get_height = 1) := by
  have hh := (run_avl _ (withinMemory_take ops hm i)).1
  exact ⟨(Tree.heightOK_iff_heightRec _).mp hh, hh, fun n hn =>
    Tree.height_at_node (Tree.heightOK_of_mem_nodes hh hn) (Tree.ne_null_of_mem_nodes hn)⟩

/-- C19. Let a sequence of calls stay within memory.  After each of its calls
that leaves at least two elements, the `anc` of the root is null, the `anc` of
each child of a node is that node, and every node other than the root is the
left or right child of a live node that its `anc` resolves to, so that no
`anc` that `next_node` or `prev_node` follows is unset or stale. -/
theorem parent_links_of_two_or_more (ops : List (Op α)) (hm : WithinMemory ops) (i : Nat)
    (h2 : 2 ≤ (run (ops.take i)).root.num_nodes) :
    (run (ops.take i)).root.anc? = some Anc.null ∧
    (run (ops.take i)).root.AncConsistent ∧
    (∀ p ∈ (run (ops.take i)).root.nodes, ∀ a, p.ptr = some a →
      (p.left = Tree.null ∨ p.left.anc? = some (Anc.to a)) ∧
      (p.right = Tree.null ∨ p.right.anc? = some (Anc.to a))) ∧
    (∀ n ∈ (run (ops.take i)).root.nodes, n = (run (ops.take i)).root ∨
      ∃ p ∈ (run (ops.take i)).root.nodes, ∃ a, p.ptr = some a ∧
        (n = p.left ∨ n = p.right) ∧ n.anc? = some (Anc.to a) ∧
        (run (ops.take i)).root.deref a = some p) := by
  have hm' := withinMemory_take ops hm i
  generalize ops.take i = pre at hm' h2
  have hroot := run_root_anc pre hm' h2
  have hlink := run_ancLinked pre
  obtain ⟨-, -, hd, -⟩ := run_ordered pre
  refine ⟨hroot, ⟨Or.inr hroot, hlink⟩, ?_, ?_⟩
  · intro p hp a ha
    exact Tree.child_links_of_ancLinked (Tree.ancLinked_of_mem_nodes hlink hp) ha
  · intro n hn
    rcases Tree.mem_nodes_cases hn with h1 | ⟨p, hp, h1⟩
    · exact Or.inl h1
    · refine Or.inr ⟨p, hp, ?_⟩
      have hpne := Tree.ne_null_of_mem_nodes hp
      have hnne := Tree.ne_null_of_mem_nodes hn
      cases p with
      | null => exact absurd rfl hpne
      | node a k m h l r anc =>
        refine ⟨a, rfl, h1, ?_, Tree.deref_of_mem_nodes _ hd hp rfl⟩
        have hl := Tree.child_links_of_ancLinked (Tree.ancLinked_of_mem_nodes hlink hp)
          (rfl : (Tree.node a k m h l r anc).ptr = some a)
        rcases h1 with h1 | h1
        · rcases hl.1 with h3 | h3
          · exact absurd (h1.trans h3) hnne
          · rw [h1]; exact h3
        · rcases hl.2 with h3 | h3
          · exact absurd (h1.trans h3) hnne
          · rw [h1]; exact h3

/-- C20. A balanced tree of true height `h` has at least `fib (h + 2) - 1`
nodes.  Hence, in a set that stays within memory (fewer than `2^64` nodes),
every subtree has true height at most 92, the increment in `update` stays
below 256 and so yields one plus the larger child height without reduction,
and `balance_factor` is the difference of the true heights; the same holds
for `update` and `balance_factor` on any node whose two subtrees are such
trees, as the nodes rebuilt during `insert` and `erase` are.  Consequently
`insert` and `remove` on such a set compute exactly what their reference
versions with an unbounded height field compute. -/
theorem height_field_never_wraps (ops : List (Op α)) (hm : WithinMemory ops) (i : Nat) :
    (∀ t : Tree α, t.Balanced → Nat.fib (t.true_height + 2) - 1 ≤ t.num_nodes) ∧
    (∀ n ∈ (run (ops.take i)).root.nodes,
      n.true_height ≤ 92 ∧
      max n.left.get_height n.right.get_height + 1 < 256 ∧
      (Tree.update n).get_height = 1 + max n.left.get_height n.right.get_height ∧
      n.balance_factor = (n.right.true_height : Int) - (n.left.true_height : Int)) ∧
    (∀ (a : Addr) (k m : α) (h : Nat) (l r : Tree α) (anc : Anc),
      l.HeightOK → r.HeightOK → l.Balanced → r.Balanced →
      l.num_nodes < 2 ^ 64 → r.num_nodes < 2 ^ 64 →
      max l.get_height r.get_height + 1 < 256 ∧
      (Tree.update (Tree.node a k m h l r anc)).get_height =
        1 + max l.true_height r.true_height ∧
      (Tree.update (Tree.node a k m h l r anc)).balance_factor =
        (r.true_height : Int) - (l.true_height : Int)) ∧
    (∀ e : α,
      Tree.insert (run (ops.take i)).root e (run (ops.take i)).size_
          (run (ops.take i)).next_addr =
        Tree.insert_exact (run (ops.take i)).root e (run (ops.take i)).size_
          (run (ops.take i)).next_addr ∧
      Tree.remove (run (ops.take i)).root e (run (ops.take i)).size_ =
        Tree.remove_exact (run (ops.take i)).root e (run (ops.take i)).size_) := by
  have hm' := withinMemory_take ops hm i
  generalize ops.take i = pre at hm'
  obtain ⟨hh, hb, -⟩ := run_avl pre hm'
  have hlt := withinMemory_last _ hm'
  have htop := Tree.true_height_le_of_num_nodes _ hb hlt
  refine ⟨?_, ?_, ?_, ?_⟩
  · intro t bt
    have := Tree.fib_le_num_nodes t bt
    omega
  · intro n hn
    have hhn := Tree.heightOK_of_mem_nodes hh hn
    have hbn := Tree.balanced_of_mem_nodes hb hn
    have hnn := Tree.num_nodes_le_of_mem_nodes hn
    obtain ⟨e1, e2, e3, e4⟩ := Tree.height_arithmetic_exact n hhn hbn (by omega)
    refine ⟨e1, e2, ?_, e4⟩
    rw [e3]
    exact ((Tree.height_at_node hhn (Tree.ne_null_of_mem_nodes hn)).2.1.symm.trans
      (Tree.height_at_node hhn (Tree.ne_null_of_mem_nodes hn)).1)
  · intro a k m h l r anc hl hr bl br nl nr
    have tl := Tree.true_height_le_of_num_nodes l bl nl
    have tr := Tree.true_height_le_of_num_nodes r br nr
    rw [Tree.get_height_update, Tree.get_height_eq hl, Tree.get_height_eq hr]
    refine ⟨by omega, ?_, ?_⟩
    · rw [Nat.mod_eq_of_lt (by omega)]
      omega
    · obtain ⟨m1, h1, hu⟩ := Tree.update_shape a k m h l r anc
      rw [hu, Tree.balance_factor_node, Tree.get_height_set_anc, Tree.get_height_set_anc,
        Tree.get_height_eq hl, Tree.get_height_eq hr]
  · intro e
    exact ⟨Tree.insert_exact_eq _ e _ _ hh hb (by omega),
      Tree.remove_exact_eq _ e _ hh hb (by omega)⟩

end claims3

theorem inorder_split_of_mem_nodes {t n : Tree α} (hn : n ∈ t.nodes) :
    ∃ before after, t.inorder = before ++ n.inorder ++ after := by
  induction t with
  | null => simp [Tree.nodes] at hn
  | node a k m h l r anc ihl ihr =>
    rcases Tree.mem_nodes_node.mp hn with h1 | h1 | h1
    · obtain ⟨p, q, e⟩ := ihl h1
      exact ⟨p, q ++ k :: r.inorder, by rw [Tree.inorder_node, e]; simp⟩
    · exact ⟨[], [], by rw [h1]; simp⟩
    · obtain ⟨p, q, e⟩ := ihr h1
      exact ⟨l.inorder ++ k :: p, q, by rw [Tree.inorder_node, e]; simp⟩

/-! ## Removal below the root: the descent and the way back -/

namespace Tree

/-- Hanging a subtree at the end of a path, with or without rebalancing on the
way up, surrounds its in-order sequence by the same keys. -/
theorem inorder_along_path (p : List (PathStep α)) :
    ∃ before after, ∀ s : Tree α,
      inorder (put_back p s) = before ++ inorder s ++ after ∧
      inorder (rebalance_up p s) = before ++ inorder s ++ after := by
  induction p with
  | nil => exact ⟨[], [], fun s => by simp [put_back, rebalance_up]⟩
  | cons st p ih =>
    obtain ⟨before, after, h⟩ := ih
    cases st with
    | left a key m hh r anc =>
      refine ⟨before, after ++ key :: inorder r, fun s => ?_⟩
      simp only [put_back, rebalance_up, inorder_balance, inorder_node, (h s).1, (h s).2,
        List.append_assoc, and_self]
    | right a key m hh l anc =>
      refine ⟨inorder l ++ key :: before, after, fun s => ?_⟩
      simp only [put_back, rebalance_up, inorder_balance, inorder_node, (h s).1, (h s).2,
        List.append_assoc, List.cons_append, and_self]

variable [LinearOrder α]

/-- In an ordered tree the comparisons of `remove` lead to the node that
holds the key: hanging that node at the end of the search path gives the tree
back. -/
theorem put_back_search_path {t n : Tree α} (ho : (inorder t).Pairwise (· < ·))
    (hn : n ∈ nodes t) {k : α} (hk : n.key? = some k) :
    put_back (search_path t k) n = t := by
  induction t with
  | null => simp [nodes] at hn
  | node a key m h l r anc ihl ihr =>
    rw [inorder_node] at ho
    obtain ⟨pl, pr, hl, hr⟩ := pairwise_node ho
    rcases mem_nodes_node.mp hn with h1 | h1 | h1
    · have hlt : k < key := hl k (key_mem_inorder h1 hk)
      simp only [search_path, if_pos hlt, put_back]
      rw [ihl pl h1]
    · subst h1
      simp only [key?, Option.some.injEq] at hk
      subst hk
      simp only [search_path, lt_irrefl, if_false, put_back]
    · have hlt : key < k := hr k (key_mem_inorder h1 hk)
      simp only [search_path, if_neg (not_lt_of_lt hlt), if_pos hlt, put_back]
      rw [ihr pr h1]

/-- In an ordered tree, `remove` of a stored key descends along the search
path to the node `n` that holds it, replaces `n` by what `remove` returns at
`n`, and calls `balance` on every node of the path on the way back. -/
theorem remove_along_path {t n : Tree α} (ho : (inorder t).Pairwise (· < ·))
    (hn : n ∈ nodes t) {k : α} (hk : n.key? = some k) (sz : Nat) :
    remove t k sz = (rebalance_up (search_path t k) (remove n k sz).1, (remove n k sz).2) := by
  induction t with
  | null => simp [nodes] at hn
  | node a key m h l r anc ihl ihr =>
    rw [inorder_node] at ho
    obtain ⟨pl, pr, hl, hr⟩ := pairwise_node ho
    rcases mem_nodes_node.mp hn with h1 | h1 | h1
    · have hlt : k < key := hl k (key_mem_inorder h1 hk)
      simp only [search_path, if_pos hlt, rebalance_up, remove]
      rw [ihl pl h1]
    · subst h1
      simp only [key?, Option.some.injEq] at hk
      subst hk
      simp only [search_path, lt_irrefl, if_false, rebalance_up]
    · have hlt : key < k := hr k (key_mem_inorder h1 hk)
      simp only [search_path, if_neg (not_lt_of_lt hlt), if_pos hlt, rebalance_up, remove]
      rw [ihr pr h1]

end Tree

section claims4
variable [LinearOrder α]

theorem from_range_eq_run (elems : List α) :
    Set.from_range elems = run (elems.map Op.insert) := by
  unfold Set.from_range run
  rw [List.foldl_map]
  rfl

theorem from_initializer_list_eq_run (elems : List α) :
    Set.from_initializer_list elems = run (elems.map Op.insert) := by
  unfold Set.from_initializer_list run
  rw [List.foldl_map]
  rfl

theorem live_keys_map_insert (elems : List α) :
    live_keys (elems.map Op.insert) = elems.toFinset := by
  induction elems using List.reverseRecOn with
  | nil => rfl
  | append_singleton xs x ih =>
    have : live_keys (xs.map Op.insert ++ [Op.insert x]) =
        Insert.insert x (live_keys (xs.map Op.insert)) := by
      unfold live_keys
      rw [List.foldl_append]
      rfl
    rw [List.map_append, List.map_singleton, this, ih]
    ext y
    simp only [Finset.mem_insert, List.mem_toFinset, List.mem_append, List.mem_singleton]
    tauto

theorem inorder_run_map_insert (elems : List α) :
    (run (elems.map Op.insert)).root.inorder = (elems.toFinset).sort (· ≤ ·) := by
  have ho := (run_ordered (elems.map Op.insert)).1
  have hk := run_keys (elems.map Op.insert)
  rw [live_keys_map_insert] at hk
  have hs := Finset.sort_sorted_lt (elems.toFinset)
  refine List.eq_of_perm_of_sorted (r := (· < ·)) ?_ ho hs
  apply List.perm_of_nodup_nodup_toFinset_eq (nodup_of_pairwise_lt ho) (Finset.sort_nodup _ _)
  rw [hk, Finset.sort_toFinset]

/-- C15. The set constructed from a list of fewer than `2^64` elements, by the
range constructor or by the initializer-list constructor, has as in-order
key sequence the sorted list of the distinct elements of the input, has
`size()` equal to their number, and is height-balanced at every node.
Constructing from 5, 3, 8, 1, 4, 7, 9 gives the traversal 1, 3, 4, 5, 7, 8, 9. -/
theorem construct_sorted_distinct (elems : List α) (hlen : elems.length < 2 ^ 64) :
    ((Set.from_range elems).root.inorder = (elems.toFinset).sort (· ≤ ·) ∧
      (Set.from_range elems).size = (elems.toFinset).card ∧
      ∀ n ∈ (Set.from_range elems).root.nodes,
        |(n.right.true_height : Int) - (n.left.true_height : Int)| ≤ 1) ∧
    ((Set.from_initializer_list elems).root.inorder = (elems.toFinset).sort (· ≤ ·) ∧
      (Set.from_initializer_list elems).size = (elems.toFinset).card ∧
      ∀ n ∈ (Set.from_initializer_list elems).root.nodes,
        |(n.right.true_height : Int) - (n.left.true_height : Int)| ≤ 1) ∧
    ((Set.from_range [5, 3, 8, 1, 4, 7, 9]).root.inorder = [1, 3, 4, 5, 7, 8, 9] ∧
      (Set.from_initializer_list [5, 3, 8, 1, 4, 7, 9]).root.inorder = [1, 3, 4, 5, 7, 8, 9]) := by
  have hm : WithinMemory (elems.map Op.insert) :=
    withinMemory_of_length _ (by rw [List.length_map]; exact hlen)
  obtain ⟨-, hb, hsz⟩ := run_avl _ hm
  have hin := inorder_run_map_insert elems
  have hsize : (run (elems.map Op.insert)).size = (elems.toFinset).card := by
    simp only [Set.size]
    rw [hsz, Tree.num_nodes_eq_length, hin, Finset.length_sort]
  rw [from_range_eq_run, from_initializer_list_eq_run]
  exact ⟨⟨hin, hsize, fun n hn => balanced_nodes hb hn⟩,
    ⟨hin, hsize, fun n hn => balanced_nodes hb hn⟩, by decide⟩

/-- C17. In an ordered tree `t`, let a node `n` hold the key `k` and have a
right child `r`.  The leftmost node of `r` holds the in-order successor of
`k` in the whole tree.  `remove` at `n` returns `balance` of the node rebuilt
from it: the successor at the root, the former left subtree as left child and
`remove_min r` as right child.  `remove` on the whole tree `t`, wherever `n`
sits in it, follows the comparisons down to `n`, puts that rebuilt and
rebalanced subtree in its place, calls `balance` on each ancestor on the way
back and decrements the counter; the in-order sequence of the result is that
of `t` with `k` dropped, the successor now following the former left subtree.
`remove_min` of a non-empty tree has the in-order sequence of the tree
without its first key.  Erasing 5 from the worked example puts 7 at the root
and leaves 1, 3, 4, 7, 8, 9; erasing 8, a key below the root, keeps 5 at the
root, puts 9 where 8 was with 7 as its left child, and leaves
1, 3, 4, 5, 7, 9; both results are balanced at every node. -/
theorem remove_promotes_successor (t : Tree α) (ho : (t.inorder).Pairwise (· < ·)) :
    (∀ n ∈ t.nodes, ∀ (a : Addr) (k m : α) (h : Nat) (l r : Tree α) (anc : Anc),
      n = Tree.node a k m h l r anc → r ≠ Tree.null →
      ∃ na nk nm nh nr nanc, Tree.find_min r = Tree.node na nk nm nh Tree.null nr nanc ∧
        (nk ∈ t.inorder ∧ k < nk ∧ ∀ x ∈ t.inorder, k < x → nk ≤ x) ∧
        r.inorder = nk :: (Tree.remove_min r).inorder ∧
        (∀ sz, Tree.remove n k sz =
          (Tree.balance (Tree.node na nk nm nh l (Tree.remove_min r) nanc),
            (sz + (2 ^ 64 - 1)) % 2 ^ 64)) ∧
        Tree.put_back (Tree.search_path t k) n = t ∧
        (∀ sz, Tree.remove t k sz =
          (Tree.rebalance_up (Tree.search_path t k)
              (Tree.balance (Tree.node na nk nm nh l (Tree.remove_min r) nanc)),
            (sz + (2 ^ 64 - 1)) % 2 ^ 64)) ∧
        ∃ before after,
          t.inorder = before ++ (l.inorder ++ k :: nk :: (Tree.remove_min r).inorder) ++ after ∧
          ∀ sz, (Tree.remove t k sz).1.inorder =
            before ++ (l.inorder ++ nk :: (Tree.remove_min r).inorder) ++ after) ∧
    (∀ s : Tree α, s ≠ Tree.null → ∃ x, s.inorder = x :: (Tree.remove_min s).inorder) ∧
    (((run sample_ops).erase 5).root.key? = some 7 ∧
      ((run sample_ops).erase 5).root.inorder = [1, 3, 4, 7, 8, 9] ∧
      ((run sample_ops).erase 5).root.Balanced) ∧
    (((run sample_ops).erase 8).root.key? = some 5 ∧
      ((run sample_ops).erase 8).root.right.key? = some 9 ∧
      ((run sample_ops).erase 8).root.right.left.key? = some 7 ∧
      ((run sample_ops).erase 8).root.right.right = Tree.null ∧
      ((run sample_ops).erase 8).root.left = (run sample_ops).root.left ∧
      ((run sample_ops).erase 8).root.inorder = [1, 3, 4, 5, 7, 9] ∧
      ((run sample_ops).erase 8).root.Balanced ∧
      ((run sample_ops).erase 8).size = 6) := by
  have hmin : ∀ s : Tree α, s ≠ Tree.null →
      ∃ x, (Tree.find_min s).key? = some x ∧ s.inorder = x :: (Tree.remove_min s).inorder := by
    intro s hs
    have h1 := Tree.key_find_min s
    have h2 := Tree.inorder_remove_min s
    cases hxs : s.inorder with
    | nil =>
      cases s with
      | null => exact absurd rfl hs
      | node a k m h l r anc => simp at hxs
    | cons x xs =>
      rw [hxs] at h1 h2
      exact ⟨x, h1, by rw [h2]; rfl⟩
  refine ⟨?_, fun s hs => (hmin s hs).imp (fun x hx => hx.2), by decide, by decide⟩
  intro n hn a k m h l r anc hnode hr
  subst hnode
  obtain ⟨na, nk, nm, nh, nr, nanc, hfm⟩ := Tree.find_min_cases r hr
  obtain ⟨x, hx1, hx2⟩ := hmin r hr
  rw [hfm] at hx1
  simp only [Tree.key?, Option.some.injEq] at hx1
  subst hx1
  have hlocal : ∀ sz, Tree.remove (Tree.node a k m h l r anc) k sz =
      (Tree.balance (Tree.node na nk nm nh l (Tree.remove_min r) nanc),
        (sz + (2 ^ 64 - 1)) % 2 ^ 64) := by
    intro sz
    cases r with
    | null => exact absurd rfl hr
    | node ra rk rm rh rl rr ranc =>
      simp only [Tree.remove, lt_irrefl, if_false]
      rw [hfm]
  have hglobal : ∀ sz, Tree.remove t k sz =
      (Tree.rebalance_up (Tree.search_path t k)
          (Tree.balance (Tree.node na nk nm nh l (Tree.remove_min r) nanc)),
        (sz + (2 ^ 64 - 1)) % 2 ^ 64) := by
    intro sz
    rw [Tree.remove_along_path ho hn rfl sz, hlocal sz]
  have hback := Tree.put_back_search_path ho hn (rfl : (Tree.node a k m h l r anc).key? = some k)
  refine ⟨na, nk, nm, nh, nr, nanc, hfm, ?_, hx2, hlocal, hback, hglobal, ?_⟩
  · -- the successor property, in the whole tree
    obtain ⟨before, after, hsplit⟩ := inorder_split_of_mem_nodes hn
    rw [Tree.inorder_node, hx2] at hsplit
    rw [hsplit] at ho ⊢
    simp only [List.pairwise_append, List.pairwise_cons, List.mem_append, List.mem_cons] at ho
    obtain ⟨⟨-, ⟨-, ⟨hk_r, hnk_rest, -⟩, hl_kr⟩, hbefore⟩, -, hafter⟩ := ho
    refine ⟨by simp, hk_r nk (Or.inl rfl), ?_⟩
    intro x hx hkx
    simp only [List.mem_append, List.mem_cons] at hx
    rcases hx with ((h1 | h1 | h1 | h1 | h1) | h1)
    · exact absurd (lt_trans hkx (hbefore x h1 k (Or.inr (Or.inl rfl)))) (lt_irrefl _)
    · exact absurd (lt_trans hkx (hl_kr x h1 k (Or.inl rfl))) (lt_irrefl _)
    · exact absurd (h1 ▸ hkx) (lt_irrefl _)
    · exact le_of_eq h1.symm
    · exact le_of_lt (hnk_rest x h1)
    · exact le_of_lt (hafter nk (Or.inr (Or.inr (Or.inr (Or.inl rfl)))) x h1)
  · -- the in-order sequence of the whole result
    obtain ⟨before, after, hp⟩ := Tree.inorder_along_path (Tree.search_path t k)
    refine ⟨before, after, ?_, fun sz => ?_⟩
    · have h1 := (hp (Tree.node a k m h l r anc)).1
      rw [hback, Tree.inorder_node, hx2] at h1
      exact h1
    · rw [hglobal sz]
      dsimp only
      rw [(hp _).2, Tree.inorder_balance, Tree.inorder_node]

end claims4

namespace Tree

/-- With correct child heights that differ by at most 1, `balance` is just
`update`. -/
theorem balance_eq_update (a : Addr) (k m : α) (h : Nat) (l r : Tree α) (anc : Anc)
    (hl : HeightOK l) (hr : HeightOK r)
    (d1 : true_height l ≤ true_height r + 1) (d2 : true_height r ≤ true_height l + 1) :
    balance (node a k m h l r anc) = update (node a k m h l r anc) := by
  obtain ⟨m1, h1, hupd⟩ := update_shape a k m h l r anc
  unfold balance
  rw [hupd]
  simp only [balance_factor_node, get_height_set_anc, get_height_eq hl, get_height_eq hr]
  rw [if_neg (by omega), if_neg (by omega)]

end Tree

section claims5
variable [LinearOrder α]

/-- C18. Let the two subtrees of a node have correct stored heights, be
balanced and satisfy the augmentation recurrence, let their heights differ by
at most 2, and let the height of the node fit the 8-bit field.  Then
`balance` returns a tree with the same in-order key sequence that is
balanced, satisfies the height recurrence (its stored heights are the true
ones) and the augmentation recurrence at every node; if the node was ordered,
the result is ordered and every `max_value` is the true maximum.  When the
heights differ by at most 1, `balance` is `update`: the same node is the root,
with the same two children (their `anc` written).  `rotate_left` and
`rotate_right` preserve the in-order sequence of any tree. -/
theorem balance_restores_invariants (a : Addr) (k m : α) (h : Nat) (l r : Tree α) (anc : Anc)
    (hl : l.HeightOK) (hr : r.HeightOK) (bl : l.Balanced) (br : r.Balanced)
    (al : l.Augmented) (ar : r.Augmented)
    (d1 : l.true_height ≤ r.true_height + 2) (d2 : r.true_height ≤ l.true_height + 2)
    (b : 1 + max l.true_height r.true_height ≤ 255) :
    (Tree.balance (Tree.node a k m h l r anc)).inorder = (Tree.node a k m h l r anc).inorder ∧
    (Tree.balance (Tree.node a k m h l r anc)).Balanced ∧
    (Tree.balance (Tree.node a k m h l r anc)).HeightRec ∧
    (Tree.balance (Tree.node a k m h l r anc)).HeightOK ∧
    (Tree.balance (Tree.node a k m h l r anc)).Augmented ∧
    ((Tree.node a k m h l r anc).Ordered →
      (Tree.balance (Tree.node a k m h l r anc)).Ordered ∧
      (Tree.balance (Tree.node a k m h l r anc)).MaxOK) ∧
    (l.true_height ≤ r.true_height + 1 → r.true_height ≤ l.true_height + 1 →
      Tree.balance (Tree.node a k m h l r anc) = Tree.update (Tree.node a k m h l r anc) ∧
      (Tree.balance (Tree.node a k m h l r anc)).ptr = some a ∧
      (Tree.balance (Tree.node a k m h l r anc)).key? = some k ∧
      (Tree.balance (Tree.node a k m h l r anc)).left = l.set_anc (Anc.to a) ∧
      (Tree.balance (Tree.node a k m h l r anc)).right = r.set_anc (Anc.to a)) ∧
    (∀ s : Tree α, s.rotate_left.inorder = s.inorder ∧ s.rotate_right.inorder = s.inorder) := by
  obtain ⟨j1, j2, -, -, -⟩ := Tree.avl_balance a k m h l r anc hl hr bl br d1 d2
    (by omega) (by omega)
  have jm := Tree.maxLast_balance a k m h l r anc ((Tree.augmented_iff_maxLast l).mp al)
    ((Tree.augmented_iff_maxLast r).mp ar)
  refine ⟨Tree.inorder_balance _, j2, (Tree.heightOK_iff_heightRec _).mp j1, j1,
    (Tree.augmented_iff_maxLast _).mpr jm, ?_, ?_,
    fun s => ⟨Tree.inorder_rotate_left s, Tree.inorder_rotate_right s⟩⟩
  · intro ho
    have hp := (Tree.ordered_iff_pairwise _).mp ho
    rw [← Tree.inorder_balance] at hp
    exact ⟨(Tree.ordered_iff_pairwise _).mpr hp, Tree.maxOK_of_maxLast _ hp jm⟩
  · intro e1 e2
    rw [Tree.balance_eq_update a k m h l r anc hl hr e1 e2]
    exact ⟨rfl, rfl, rfl, rfl, rfl⟩

end claims5

section claims6
variable [LinearOrder α]

/-- C12 (evaluation at the failing inputs). After the first `insert(e)` into an
empty set the root's `anc` is the value the constructor left unassigned, not
null; after `insert(2); insert(1); erase(2)` the root left behind keeps an
`anc` that points at the freed node.  Neither tree is parent-consistent. -/
theorem lone_root_anc_not_null (e : α) :
    (run [Op.insert e]).root.anc? = some Anc.indeterminate ∧
    ¬ (run [Op.insert e]).root.AncConsistent ∧
    (run [Op.insert 2, Op.insert 1, Op.erase 2]).root.anc? = some (Anc.to 1) ∧
    (run [Op.insert 2, Op.insert 1, Op.erase 2]).root.deref 1 = none ∧
    ¬ (run [Op.insert 2, Op.insert 1, Op.erase 2]).root.AncConsistent := by
  refine ⟨rfl, ?_, rfl, rfl, by decide⟩
  rintro ⟨h1 | h1, -⟩
  · exact Tree.noConfusion h1
  · exact Anc.noConfusion (Option.some.inj h1)

/-- C14 (evaluation at the failing input). Copy construction from, and
assignment from, the set built by one `insert(e)` run the range-for loop over
the source; its first `++` reads the unassigned `anc` of the source's only
node, which is undefined behaviour.  Copying the empty set gives an empty
set, and copying the set built from 2, 1, 3 gives the keys 1, 2, 3 and size 3. -/
theorem copy_of_singleton_undefined (e : α) (fuel steps : Nat) (dst : Set α) :
    Set.copy_construct (run [Op.insert e]) (fuel + 1) (steps + 1) =
      Res.fault Fault.undefined ∧
    Set.assign dst (run [Op.insert e]) (fuel + 1) (steps + 1) = Res.fault Fault.undefined ∧
    Set.copy_construct (Set.empty_set : Set α) fuel (steps + 1) =
      Res.ok { root := Tree.null, size_ := 0, next_addr := 1 } ∧
    ((Set.copy_construct (run [Op.insert 2, Op.insert 1, Op.insert 3]) 4 8).value?.map
        (fun s => (s.root.inorder, s.size)) = some ([1, 2, 3], 3)) :=
  ⟨rfl, rfl, rfl, by decide⟩

end claims6

/-! ## Witnesses for the later claims -/

theorem insert_twice_same_witness :
    WithinMemory (sample_ops ++ [Op.insert 6]) ∧
      (((run sample_ops).insert 6).insert 6).root = ((run sample_ops).insert 6).root ∧
      (((run sample_ops).insert 6).insert 6).size = ((run sample_ops).insert 6).size :=
  ⟨withinMemory_of_length _ (by decide),
    (insert_twice_same sample_ops 6 (withinMemory_of_length _ (by decide))).1,
    (insert_twice_same sample_ops 6 (withinMemory_of_length _ (by decide))).2.2⟩

theorem construct_sorted_distinct_witness :
    [5, 3, 8, 1, 4, 7, 9, 3].length < 2 ^ 64 ∧
      (Set.from_range [5, 3, 8, 1, 4, 7, 9, 3]).size =
        ([5, 3, 8, 1, 4, 7, 9, 3].toFinset).card :=
  ⟨by decide, (construct_sorted_distinct [5, 3, 8, 1, 4, 7, 9, 3] (by decide)).1.2.1⟩

theorem stored_height_witness :
    WithinMemory sample_ops ∧ (run (sample_ops.take 7)).root.HeightRec ∧
      (run (sample_ops.take 7)).root.HeightOK :=
  ⟨withinMemory_of_length _ (by decide),
    (stored_height_is_true_height sample_ops (withinMemory_of_length _ (by decide)) 7).1,
    (stored_height_is_true_height sample_ops (withinMemory_of_length _ (by decide)) 7).2.1⟩

theorem remove_promotes_successor_witness :
    ((run sample_ops).root.inorder).Pairwise (· < ·) ∧
      (run sample_ops).root.right ∈ (run sample_ops).root.nodes ∧
      (run sample_ops).root.right =
        Tree.node 3 8 9 2 (run sample_ops).root.right.left (run sample_ops).root.right.right
          (Anc.to 1) ∧
      ∃ na nk nm nh nr nanc,
        Tree.find_min (run sample_ops).root.right.right =
          Tree.node na nk nm nh Tree.null nr nanc ∧
        (8 < nk ∧ ∀ x ∈ (run sample_ops).root.inorder, 8 < x → nk ≤ x) ∧
        Tree.put_back (Tree.search_path (run sample_ops).root 8) (run sample_ops).root.right =
          (run sample_ops).root ∧
        ∀ sz, Tree.remove (run sample_ops).root 8 sz =
          (Tree.rebalance_up (Tree.search_path (run sample_ops).root 8)
              (Tree.balance (Tree.node na nk nm nh (run sample_ops).root.right.left
                (Tree.remove_min (run sample_ops).root.right.right) nanc)),
            (sz + (2 ^ 64 - 1)) % 2 ^ 64) :=
  ⟨by decide, by decide, by decide,
    match (remove_promotes_successor (run sample_ops).root (by decide)).1
      (run sample_ops).root.right (by decide) 3 8 9 2 (run sample_ops).root.right.left
      (run sample_ops).root.right.right (Anc.to 1) (by decide) (by decide) with
    | ⟨na, nk, nm, nh, nr, nanc, h1, h2, _, _, h5, h6, _⟩ =>
      ⟨na, nk, nm, nh, nr, nanc, h1, ⟨h2.2.1, h2.2.2⟩, h5, h6⟩⟩

theorem balance_restores_invariants_witness :
    (sample_chain_right.HeightOK ∧ sample_chain_right.Balanced ∧ sample_chain_right.Augmented ∧
      sample_chain_right.true_height ≤ (Tree.null : Tree Nat).true_height + 2) ∧
      (Tree.balance sample_chain).Balanced ∧ (Tree.balance sample_chain).HeightOK ∧
      (Tree.balance sample_chain).Augmented :=
  ⟨by decide,
    (balance_restores_invariants 1 1 3 3 Tree.null sample_chain_right Anc.null
      trivial (by decide) trivial (by decide) trivial (by decide) (by decide) (by decide)
      (by decide)).2.1,
    (balance_restores_invariants 1 1 3 3 Tree.null sample_chain_right Anc.null
      trivial (by decide) trivial (by decide) trivial (by decide) (by decide) (by decide)
      (by decide)).2.2.2.1,
    (balance_restores_invariants 1 1 3 3 Tree.null sample_chain_right Anc.null
      trivial (by decide) trivial (by decide) trivial (by decide) (by decide) (by decide)
      (by decide)).2.2.2.2.1⟩

theorem parent_links_witness :
    WithinMemory sample_ops ∧ 2 ≤ (run (sample_ops.take 7)).root.num_nodes ∧
      (run (sample_ops.take 7)).root.AncConsistent :=
  ⟨withinMemory_of_length _ (by decide), by decide,
    (parent_links_of_two_or_more sample_ops (withinMemory_of_length _ (by decide)) 7
      (by decide)).2.1⟩

theorem height_field_witness :
    WithinMemory sample_ops ∧
      ∀ n ∈ (run (sample_ops.take 7)).root.nodes, n.true_height ≤ 92 :=
  ⟨withinMemory_of_length _ (by decide),
    fun n hn => ((height_field_never_wraps sample_ops
      (withinMemory_of_length _ (by decide)) 7).2.1 n hn).1⟩

end AvlSet
